import Mathlib

/-!
# Verification of the PyAMG Ruge–Stüben setup kernels (`ruge_stuben.h`)

This file gives a shallow embedding, in Lean 4, of the C++ kernels in
`pyamg/amg_core/ruge_stuben.h` and proves properties of the embedding.

Modelling conventions:

* Scalar matrix entries (`T` in the C++ templates, instantiated at
  `double`) are modelled by `ℚ`; the magnitude function `mynorm` is `|·|`.
* Index/integer values (`I` in the templates) are modelled by `ℤ`.
* CSR matrices appear in two equivalent guises, chosen per kernel for
  proof convenience while preserving the source's iteration order:
  - as a list of rows, each row a list of `(column, value)` pairs, for the
    kernels that sweep row by row and never index across rows
    (`classical_strength_of_connection`, `maximum_row_value`,
    `rs_direct_interpolation_pass2`, the AIR passes);
  - as row-pointer/index functions `ℤ → ℤ`, for the kernels whose control
    flow indexes arbitrarily into the arrays (`rs_cf_splitting`,
    `cljp_naive_splitting`).  C++ arrays become total functions `ℤ → α`
    updated pointwise; this is faithful on all indices the C++ code
    actually touches for well-formed inputs.
* `std::numeric_limits<F>::min()` for `F = double` is the smallest
  positive *normalised* double, `2⁻¹⁰²²` — not `-∞`.  It is modelled
  exactly as the rational `fltMin` below.
-/

namespace PyAMG

/-- The node labels of `ruge_stuben.h` (`#define F_NODE 0` …). -/
def F_NODE : ℤ := 0

/-- `#define C_NODE 1`. -/
def C_NODE : ℤ := 1

/-- `#define U_NODE 2`. -/
def U_NODE : ℤ := 2

/-- `#define PRE_F_NODE 3`. -/
def PRE_F_NODE : ℤ := 3

/-- Pointwise update of a total function, modelling `a[x] = v` for a C++
array `a`. -/
def aupd {α : Type} (f : ℤ → α) (x : ℤ) (v : α) : ℤ → α :=
  fun y => if y = x then v else f y

@[simp] theorem aupd_same {α : Type} (f : ℤ → α) (x : ℤ) (v : α) :
    aupd f x v x = v := by simp [aupd]

theorem aupd_other {α : Type} (f : ℤ → α) (x : ℤ) (v : α) {y : ℤ} (h : y ≠ x) :
    aupd f x v y = f y := by simp [aupd, h]

theorem aupd_apply {α : Type} (f : ℤ → α) (x : ℤ) (v : α) (y : ℤ) :
    aupd f x v y = if y = x then v else f y := rfl

/-- `irange a b` is the list of integers `a, a+1, …, b-1`, the iteration
space of the C++ loop `for (I k = a; k < b; k++)`. -/
def irange (a b : ℤ) : List ℤ :=
  (List.range (b - a).toNat).map (fun k : ℕ => a + (k : ℤ))

@[simp] theorem mem_irange {a b x : ℤ} : x ∈ irange a b ↔ a ≤ x ∧ x < b := by
  unfold irange
  simp only [List.mem_map, List.mem_range]
  constructor
  · rintro ⟨k, hk, rfl⟩
    omega
  · rintro ⟨h1, h2⟩
    refine ⟨(x - a).toNat, by omega, by omega⟩

theorem irange_empty {a b : ℤ} (h : b ≤ a) : irange a b = [] := by
  unfold irange
  have : (b - a).toNat = 0 := by omega
  simp [this]

theorem irange_succ_right {a b : ℤ} (h : a ≤ b) :
    irange a (b + 1) = irange a b ++ [b] := by
  unfold irange
  have h1 : (b + 1 - a).toNat = (b - a).toNat + 1 := by omega
  rw [h1, List.range_succ, List.map_append]
  simp only [List.map_cons, List.map_nil]
  congr 2
  omega

theorem irange_succ_left {a b : ℤ} (h : a < b) :
    irange a b = a :: irange (a + 1) b := by
  unfold irange
  have h1 : (b - a).toNat = (b - (a + 1)).toNat + 1 := by omega
  rw [h1, List.range_succ_eq_map]
  simp only [List.map_cons, List.map_map, Nat.cast_zero, add_zero, List.cons.injEq]
  refine ⟨by trivial, ?_⟩
  apply List.map_congr_left
  intro k _
  simp only [Function.comp_apply]
  push_cast
  ring

theorem irange_nodup (a b : ℤ) : (irange a b).Nodup := by
  unfold irange
  refine List.Nodup.map ?_ (List.nodup_range _)
  intro x y h
  simpa using h

theorem length_irange (a b : ℤ) : (irange a b).length = (b - a).toNat := by
  simp [irange]

/-- Evaluation of a fold of pointwise writes whose written value depends
only on the loop index: the final array holds `g i` at every index `i`
visited by the loop and is untouched elsewhere. -/
theorem foldl_aupd_eval {α : Type} (g : ℤ → α) (l : List ℤ) (f : ℤ → α) (v : ℤ) :
    (l.foldl (fun acc i => aupd acc i (g i)) f) v = if v ∈ l then g v else f v := by
  induction l generalizing f with
  | nil => simp
  | cons x xs ih =>
    simp only [List.foldl_cons, ih, List.mem_cons]
    by_cases hx : v ∈ xs
    · simp [hx]
    · by_cases hv : v = x
      · subst hv; simp [hx]
      · simp [hx, hv, aupd_other _ _ _ hv]

/-- Evaluation of a counting fold (`c[k i]++` over a loop): the final
count at `v` is the initial count plus the number of visited indices `i`
with `k i = v`. -/
theorem foldl_count_eval (k : ℤ → ℤ) (l : List ℤ) (c : ℤ → ℤ) (v : ℤ) :
    (l.foldl (fun c i => aupd c (k i) (c (k i) + 1)) c) v
      = c v + ((l.filter (fun i => k i = v)).length : ℤ) := by
  induction l generalizing c with
  | nil => simp
  | cons x xs ih =>
    simp only [List.foldl_cons, ih]
    by_cases hx : k x = v
    · subst hx
      simp [List.filter_cons, aupd]
      omega
    · rw [aupd_other _ _ _ (by exact fun h => hx h.symm)]
      simp [List.filter_cons, hx]

/-! ## Scalars and magnitudes -/

/-- `mynorm` from `linalg.h` (external collaborator): the magnitude of a
scalar.  For real scalars this is the absolute value. -/
def mynorm (x : ℚ) : ℚ := |x|

/-- `std::numeric_limits<double>::min()`: the smallest positive normalised
double, `2⁻¹⁰²²`, modelled exactly. -/
def fltMin : ℚ := 1 / 2 ^ (1022 : ℕ)

theorem fltMin_pos : 0 < fltMin := by
  unfold fltMin
  positivity

/-- A CSR row, in storage order: a list of `(column, value)` pairs. -/
abbrev Row := List (ℤ × ℚ)

/-- A CSR matrix as its list of rows (row `i` of the matrix is entry `i`
of the list). -/
abbrev Mat := List Row

/-! ## `classical_strength_of_connection` (ruge_stuben.h lines 45–93)

```cpp
F max_offdiagonal = std::numeric_limits<F>::min();
for(jj..) if(Aj[jj] != i) max_offdiagonal = max(max_offdiagonal, mynorm(Ax[jj]));
F threshold = theta*max_offdiagonal;
for(jj..){
  F norm_jj = mynorm(Ax[jj]);
  if(norm_jj >= threshold){ if(Aj[jj] != i){ append entry } }
  if(Aj[jj] == i){ append entry }
}
```
-/

/-- The first loop of `classical_strength_of_connection` for row `i`:
fold `max` of `mynorm` over the off-diagonal entries, starting from
`std::numeric_limits<F>::min()`. -/
def strengthMaxOff (i : ℤ) (row : Row) : ℚ :=
  row.foldl (fun m e => if e.1 ≠ i then max m (mynorm e.2) else m) fltMin

/-- The second loop of `classical_strength_of_connection` for row `i`:
append each entry passing the threshold test (off-diagonal branch) or
equal to the diagonal (diagonal branch). -/
def strengthRow (theta : ℚ) (i : ℤ) (row : Row) : Row :=
  let threshold := theta * strengthMaxOff i row
  row.foldl
    (fun acc e =>
      acc ++ ((if mynorm e.2 ≥ threshold ∧ e.1 ≠ i then [e] else [])
           ++ (if e.1 = i then [e] else [])))
    []

/-- `classical_strength_of_connection`: row `i` of `S` is produced from
row `i` of `A` by `strengthRow`. -/
def classical_strength_of_connection (theta : ℚ) (A : Mat) : Mat :=
  A.enum.map (fun p => strengthRow theta (p.1 : ℤ) p.2)

/-- Maximum of a list of rationals, `none` on the empty list.  Used only
to state the *spec-side* convention `m_i = −∞` for rows without
off-diagonal entries (`none` plays the role of `−∞`). -/
def listMaxQ : List ℚ → Option ℚ
  | [] => none
  | x :: xs =>
    match listMaxQ xs with
    | none => some x
    | some m => some (max x m)

/-- The magnitudes of the off-diagonal entries of a row. -/
def offdiagNorms (i : ℤ) (row : Row) : List ℚ :=
  (row.filter (fun e => e.1 ≠ i)).map (fun e => mynorm e.2)

/-- Spec-side admission predicate for `classical_strength_of_connection`,
following the specification's words: the diagonal is always admitted; an
off-diagonal entry is admitted iff `mynorm(A[i,j]) ≥ θ·m_i` where `m_i`
is the maximum of `mynorm` over the off-diagonal entries of row `i`, with
`m_i = −∞` (here: `none`, making the comparison false… but the case never
arises for an off-diagonal entry, which itself witnesses a nonempty
maximum) when the row has no off-diagonal entry. -/
def specAdmit (theta : ℚ) (i : ℤ) (row : Row) (e : ℤ × ℚ) : Bool :=
  if e.1 = i then true
  else
    match listMaxQ (offdiagNorms i row) with
    | none => false
    | some m => decide (mynorm e.2 ≥ theta * m)

/-- Spec-side strength matrix: keep exactly the admitted entries, in row
order. -/
def specStrength (theta : ℚ) (A : Mat) : Mat :=
  A.enum.map (fun p => p.2.filter (fun e => specAdmit theta (p.1 : ℤ) p.2 e))

/-- The off-diagonal maximum as the code actually computes it: the true
off-diagonal maximum clamped below by `fltMin`
(`std::numeric_limits<double>::min()`), and `fltMin` itself for a row
with no off-diagonal entry. -/
def epsMax (i : ℤ) (row : Row) : ℚ :=
  match listMaxQ (offdiagNorms i row) with
  | none => fltMin
  | some m => max fltMin m

theorem foldl_offmax (i : ℤ) (row : Row) (c : ℚ) :
    row.foldl (fun m e => if e.1 ≠ i then max m (mynorm e.2) else m) c
      = match listMaxQ (offdiagNorms i row) with
        | none => c
        | some m => max c m := by
  induction row generalizing c with
  | nil => simp [offdiagNorms, listMaxQ]
  | cons e es ih =>
    by_cases he : e.1 = i
    · have : offdiagNorms i (e :: es) = offdiagNorms i es := by
        simp [offdiagNorms, List.filter_cons, he]
      simp only [List.foldl_cons, he, ne_eq, not_true_eq_false, if_false, this, ih]
    · have : offdiagNorms i (e :: es) = mynorm e.2 :: offdiagNorms i es := by
        simp [offdiagNorms, List.filter_cons, he]
      simp only [List.foldl_cons, he, ne_eq, not_false_eq_true, if_true, this, ih]
      cases hm : listMaxQ (offdiagNorms i es) with
      | none => simp [listMaxQ, hm]
      | some m => simp [listMaxQ, hm, max_assoc]

/-- The first loop of `classical_strength_of_connection` computes exactly
the `fltMin`-clamped off-diagonal maximum. -/
theorem strengthMaxOff_eq (i : ℤ) (row : Row) :
    strengthMaxOff i row = epsMax i row := by
  unfold strengthMaxOff epsMax
  rw [foldl_offmax]

theorem foldl_append_bind {α β : Type} (f : α → List β) (l : List α) (acc : List β) :
    l.foldl (fun acc e => acc ++ f e) acc = acc ++ l.bind f := by
  induction l generalizing acc with
  | nil => simp
  | cons x xs ih => simp [ih]

theorem mem_strengthRow {theta : ℚ} {i : ℤ} {row : Row} {e : ℤ × ℚ} :
    e ∈ strengthRow theta i row ↔
      e ∈ row ∧ ((mynorm e.2 ≥ theta * strengthMaxOff i row ∧ e.1 ≠ i) ∨ e.1 = i) := by
  unfold strengthRow
  rw [foldl_append_bind]
  simp only [List.nil_append, List.mem_bind]
  constructor
  · rintro ⟨x, hx, hmem⟩
    rcases List.mem_append.mp hmem with h | h
    · by_cases hc : mynorm x.2 ≥ theta * strengthMaxOff i row ∧ x.1 ≠ i
      · rw [if_pos hc, List.mem_singleton] at h
        subst h; exact ⟨hx, Or.inl hc⟩
      · rw [if_neg hc] at h
        exact absurd h (List.not_mem_nil e)
    · by_cases hd : x.1 = i
      · rw [if_pos hd, List.mem_singleton] at h
        subst h; exact ⟨hx, Or.inr hd⟩
      · rw [if_neg hd] at h
        exact absurd h (List.not_mem_nil e)
  · rintro ⟨hmem, hc | hd⟩
    · exact ⟨e, hmem, List.mem_append.mpr (Or.inl (by simp [hc]))⟩
    · exact ⟨e, hmem, List.mem_append.mpr (Or.inr (by simp [hd]))⟩

theorem getD_enum_map {α β : Type} (A : List α) (f : ℕ × α → β)
    (i : ℕ) (hi : i < A.length) (db : β) (d0 : α) :
    (A.enum.map f).getD i db = f (i, A.getD i d0) := by
  have h1 : i < (A.enum.map f).length := by simpa using hi
  rw [List.getD_eq_getElem _ _ h1, List.getD_eq_getElem _ _ hi]
  simp [List.getElem_map, List.getElem_enum]

/-- **C1, amended.**  `classical_strength_of_connection` admits, in each
row `i` of `A`, exactly: every diagonal entry (with its original value,
since entries are copied whole), and those off-diagonal entries `(i,j)`
with `mynorm (A i j) ≥ θ · max (fltMin, m_i)`, where `m_i` is the maximum
of `mynorm` over the off-diagonal entries of row `i` and the clamp
`fltMin = 2⁻¹⁰²²` reflects the code's initialisation of the running
maximum with `std::numeric_limits<F>::min()` (the smallest positive
normalised double), not `−∞`. -/
theorem classical_strength_admits (theta : ℚ) (A : Mat) (i : ℕ) (hi : i < A.length)
    (e : ℤ × ℚ) :
    e ∈ (classical_strength_of_connection theta A).getD i [] ↔
      e ∈ A.getD i [] ∧
        (e.1 = (i : ℤ) ∨
          (e.1 ≠ (i : ℤ) ∧ theta * epsMax (i : ℤ) (A.getD i []) ≤ mynorm e.2)) := by
  unfold classical_strength_of_connection
  rw [getD_enum_map A (fun p => strengthRow theta (p.1 : ℤ) p.2) i hi [] []]
  rw [mem_strengthRow, strengthMaxOff_eq]
  constructor
  · rintro ⟨hm, hc | hd⟩
    · exact ⟨hm, Or.inr ⟨hc.2, hc.1⟩⟩
    · exact ⟨hm, Or.inl hd⟩
  · rintro ⟨hm, hd | hc⟩
    · exact ⟨hm, Or.inr hd⟩
    · exact ⟨hm, Or.inl ⟨hc.2, hc.1⟩⟩

/-- Closed witness for `classical_strength_admits` at a concrete input:
the 2×2 matrix with rows `[(1, -3)]` and `[(0, -3), (1, 2)]` at
`θ = 1/2`. -/
theorem classical_strength_admits_witness :
    (0 : ℕ) < ([[((1:ℤ), (-3:ℚ))], [((0:ℤ), (-3:ℚ)), ((1:ℤ), (2:ℚ))]] : Mat).length ∧
      (((1:ℤ), (-3:ℚ)) ∈
          (classical_strength_of_connection (1/2)
            [[((1:ℤ), (-3:ℚ))], [((0:ℤ), (-3:ℚ)), ((1:ℤ), (2:ℚ))]]).getD 0 [] ↔
        ((1:ℤ), (-3:ℚ)) ∈ ([[((1:ℤ), (-3:ℚ))], [((0:ℤ), (-3:ℚ)), ((1:ℤ), (2:ℚ))]] : Mat).getD 0 [] ∧
          (((1:ℤ), (-3:ℚ)).1 = ((0:ℕ) : ℤ) ∨
            (((1:ℤ), (-3:ℚ)).1 ≠ ((0:ℕ) : ℤ) ∧
              (1/2 : ℚ) * epsMax ((0:ℕ) : ℤ)
                  (([[((1:ℤ), (-3:ℚ))], [((0:ℤ), (-3:ℚ)), ((1:ℤ), (2:ℚ))]] : Mat).getD 0 []) ≤
                mynorm ((1:ℤ), (-3:ℚ)).2))) :=
  ⟨by decide,
   classical_strength_admits (1/2) [[((1:ℤ), (-3:ℚ))], [((0:ℤ), (-3:ℚ)), ((1:ℤ), (2:ℚ))]]
     0 (by decide) ((1:ℤ), (-3:ℚ))⟩

/-- **C1, counterexample.**  On the 2×2 matrix whose only off-diagonal
entry is an explicitly stored zero (row 0 = `[(1, 0)]`), with `θ = 1/2`,
the code's output differs from the specification's: the spec's
`m_0 = max ∅… = 0` (or `−∞`) admits the zero entry (`0 ≥ θ·0`), but the
code's threshold is `θ · fltMin > 0`, so the entry is dropped. -/
theorem classical_strength_counterexample :
    classical_strength_of_connection (1/2) [[((1:ℤ), (0:ℚ))], []] ≠
      specStrength (1/2) [[((1:ℤ), (0:ℚ))], []] := by
  have hmax : strengthMaxOff 0 [((1:ℤ), (0:ℚ))] = fltMin := by
    unfold strengthMaxOff
    simp only [List.foldl_cons, List.foldl_nil]
    rw [if_pos (by decide)]
    have : mynorm (0:ℚ) = 0 := by simp [mynorm]
    rw [this, max_eq_left fltMin_pos.le]
  have hthr : ¬ (mynorm ((1:ℤ), (0:ℚ)).2 ≥ (1/2 : ℚ) * strengthMaxOff 0 [((1:ℤ), (0:ℚ))]) := by
    rw [hmax]
    have : mynorm ((1:ℤ), (0:ℚ)).2 = 0 := by simp [mynorm]
    rw [this, ge_iff_le, not_le]
    have := fltMin_pos
    linarith
  have h0 : strengthRow (1/2) 0 [((1:ℤ), (0:ℚ))] = [] := by
    unfold strengthRow
    simp only [List.foldl_cons, List.foldl_nil]
    rw [if_neg (by exact fun h => hthr h.1), if_neg (by decide)]
    simp
  have hcode : classical_strength_of_connection (1/2) [[((1:ℤ), (0:ℚ))], []] = [[], []] := by
    show [strengthRow (1/2) ((0:ℕ) : ℤ) [((1:ℤ), (0:ℚ))],
          strengthRow (1/2) ((1:ℕ) : ℤ) ([] : Row)] = [[], []]
    rw [Nat.cast_zero, h0]
    rfl
  have hspec : specStrength (1/2) [[((1:ℤ), (0:ℚ))], []] = [[((1:ℤ), (0:ℚ))], []] := by
    unfold specStrength
    simp only [List.enum, List.enumFrom, List.map_cons, List.map_nil]
    congr 1
    · show List.filter _ _ = _
      rw [List.filter_cons]
      rw [if_pos]
      · rfl
      · show specAdmit (1/2) 0 [((1:ℤ), (0:ℚ))] ((1:ℤ), (0:ℚ)) = true
        unfold specAdmit offdiagNorms
        rw [if_neg (by decide)]
        have : listMaxQ (List.map (fun e => mynorm e.2)
            (List.filter (fun e => decide (e.1 ≠ 0)) [((1:ℤ), (0:ℚ))])) = some 0 := by
          rw [List.filter_cons, if_pos (by decide)]
          simp [listMaxQ, mynorm]
        rw [this]
        simp [mynorm]
  intro h
  rw [hcode, hspec] at h
  exact absurd (List.cons.inj h).1 (by simp)

/-! ## `maximum_row_value` (ruge_stuben.h lines 109–130) -/

/-- `maximum_row_value`: for each row, fold `max` of `mynorm` over all
entries (diagonal included), starting from
`std::numeric_limits<F>::min()`. -/
def maximum_row_value (A : Mat) : List ℚ :=
  A.map (fun row => row.foldl (fun m e => max m (mynorm e.2)) fltMin)

/-- Spec-side `max_row_value`: the true maximum of `mynorm` over the row,
`none` (standing for `−∞`) on an empty row. -/
def specMaximumRowValue (A : Mat) : List (Option ℚ) :=
  A.map (fun row => listMaxQ (row.map (fun e => mynorm e.2)))

theorem foldl_max_spec (l : List ℚ) (c : ℚ) :
    c ≤ l.foldl max c ∧ (∀ y ∈ l, y ≤ l.foldl max c) ∧
      (l.foldl max c = c ∨ l.foldl max c ∈ l) := by
  induction l generalizing c with
  | nil => simp
  | cons x xs ih =>
    obtain ⟨h1, h2, h3⟩ := ih (max c x)
    refine ⟨le_trans (le_max_left _ _) h1, ?_, ?_⟩
    · intro y hy
      rcases List.mem_cons.mp hy with rfl | hy
      · exact le_trans (le_max_right _ _) h1
      · exact h2 y hy
    · rcases h3 with h | h
      · rcases max_choice c x with hc | hc
        · rw [List.foldl_cons, h, hc]; exact Or.inl rfl
        · rw [List.foldl_cons, h, hc]; exact Or.inr (List.mem_cons_self _ _)
      · exact Or.inr (List.mem_cons_of_mem _ h)

/-- **C8, amended.**  `maximum_row_value` writes, for every row `i`, the
maximum of `mynorm` over the row *clamped below by*
`fltMin = 2⁻¹⁰²²` (the code initialises the running maximum with
`std::numeric_limits<F>::min()`, not `−∞`): the result is an upper bound
of all magnitudes in the row, is at least `fltMin`, and is either
`fltMin` itself (in particular for an empty row) or attained by some
entry. -/
theorem maximum_row_value_spec (A : Mat) (i : ℕ) (hi : i < A.length) :
    fltMin ≤ (maximum_row_value A).getD i 0 ∧
      (∀ e ∈ A.getD i [], mynorm e.2 ≤ (maximum_row_value A).getD i 0) ∧
      ((maximum_row_value A).getD i 0 = fltMin ∨
        ∃ e ∈ A.getD i [], (maximum_row_value A).getD i 0 = mynorm e.2) := by
  have hlen : i < (maximum_row_value A).length := by simpa [maximum_row_value] using hi
  have hx : (maximum_row_value A).getD i 0
      = (A.getD i []).foldl (fun m e => max m (mynorm e.2)) fltMin := by
    rw [List.getD_eq_getElem _ _ hlen, List.getD_eq_getElem _ _ hi]
    simp [maximum_row_value]
  have hmap : (A.getD i []).foldl (fun m e => max m (mynorm e.2)) fltMin
      = ((A.getD i []).map (fun e => mynorm e.2)).foldl max fltMin := by
    rw [List.foldl_map]
  obtain ⟨h1, h2, h3⟩ := foldl_max_spec ((A.getD i []).map (fun e => mynorm e.2)) fltMin
  rw [hx, hmap]
  refine ⟨h1, ?_, ?_⟩
  · intro e he
    exact h2 _ (List.mem_map_of_mem _ he)
  · rcases h3 with h | h
    · exact Or.inl h
    · rcases List.mem_map.mp h with ⟨e, he, hee⟩
      exact Or.inr ⟨e, he, hee.symm⟩

/-- Closed witness for `maximum_row_value_spec` at a concrete input. -/
theorem maximum_row_value_spec_witness :
    (0 : ℕ) < ([[((0:ℤ), (-7:ℚ)), ((1:ℤ), (4:ℚ))]] : Mat).length ∧
      (fltMin ≤ (maximum_row_value [[((0:ℤ), (-7:ℚ)), ((1:ℤ), (4:ℚ))]]).getD 0 0 ∧
        (∀ e ∈ ([[((0:ℤ), (-7:ℚ)), ((1:ℤ), (4:ℚ))]] : Mat).getD 0 [],
          mynorm e.2 ≤ (maximum_row_value [[((0:ℤ), (-7:ℚ)), ((1:ℤ), (4:ℚ))]]).getD 0 0) ∧
        ((maximum_row_value [[((0:ℤ), (-7:ℚ)), ((1:ℤ), (4:ℚ))]]).getD 0 0 = fltMin ∨
          ∃ e ∈ ([[((0:ℤ), (-7:ℚ)), ((1:ℤ), (4:ℚ))]] : Mat).getD 0 [],
            (maximum_row_value [[((0:ℤ), (-7:ℚ)), ((1:ℤ), (4:ℚ))]]).getD 0 0 = mynorm e.2)) :=
  ⟨by decide, maximum_row_value_spec [[((0:ℤ), (-7:ℚ)), ((1:ℤ), (4:ℚ))]] 0 (by decide)⟩

/-- **C8, counterexample.**  On the 1×1 matrix whose single row holds one
explicit zero entry, the spec demands `x[0] = 0` (the true maximum
magnitude), but the code produces `fltMin = 2⁻¹⁰²² ≠ 0`; likewise an
empty row yields `fltMin`, not `−∞`. -/
theorem maximum_row_value_counterexample :
    (maximum_row_value [[((0:ℤ), (0:ℚ))]]).map some ≠
      specMaximumRowValue [[((0:ℤ), (0:ℚ))]] := by
  have hcode : maximum_row_value [[((0:ℤ), (0:ℚ))]] = [fltMin] := by
    unfold maximum_row_value
    simp only [List.map_cons, List.map_nil, List.foldl_cons, List.foldl_nil]
    have : mynorm ((0:ℤ), (0:ℚ)).2 = 0 := by simp [mynorm]
    rw [this, max_eq_left fltMin_pos.le]
  have hspec : specMaximumRowValue [[((0:ℤ), (0:ℚ))]] = [some 0] := by
    unfold specMaximumRowValue
    simp [listMaxQ, mynorm]
  intro h
  rw [hcode, hspec] at h
  simp only [List.map_cons, List.map_nil, List.cons.injEq, Option.some.injEq] at h
  exact fltMin_pos.ne' h.1

/-! ## CSR matrices as row-pointer / index functions

For the splitters, a CSR structure matrix is a pair of total functions
`Ap Aj : ℤ → ℤ` (row pointer and column indices); values are not used.
-/

/-- The column indices of row `i`: `Aj[Ap[i]], …, Aj[Ap[i+1]-1]` in
storage order. -/
def csrRow (Ap Aj : ℤ → ℤ) (i : ℤ) : List ℤ :=
  (irange (Ap i) (Ap (i + 1))).map Aj

/-- The storage positions of row `i` (used where the C++ code indexes
auxiliary arrays such as `edgemark` by the CSR position `jj`). -/
def csrPos (Ap : ℤ → ℤ) (i : ℤ) : List ℤ :=
  irange (Ap i) (Ap (i + 1))

/-- Well-formedness of a CSR index structure on `n` nodes: zero-based,
monotone row pointer and in-range column indices. -/
structure CSRWF (n : ℤ) (Ap Aj : ℤ → ℤ) : Prop where
  p0 : Ap 0 = 0
  mono : ∀ i, 0 ≤ i → i < n → Ap i ≤ Ap (i + 1)
  jmem : ∀ jj, 0 ≤ jj → jj < Ap n → 0 ≤ Aj jj ∧ Aj jj < n

theorem CSRWF.prefix_mono {n : ℤ} {Ap Aj : ℤ → ℤ} (h : CSRWF n Ap Aj) :
    ∀ a b : ℤ, 0 ≤ a → a ≤ b → b ≤ n → Ap a ≤ Ap b := by
  intro a b ha hab hbn
  obtain ⟨k, hk⟩ : ∃ k : ℕ, b = a + (k : ℤ) := ⟨(b - a).toNat, by omega⟩
  subst hk
  induction k with
  | zero => simp
  | succ k ih =>
    have h1 : Ap a ≤ Ap (a + (k : ℤ)) := ih (by omega) (by omega)
    have h2 : Ap (a + (k : ℤ)) ≤ Ap (a + (k : ℤ) + 1) :=
      h.mono _ (by omega) (by push_cast at hbn ⊢; omega)
    have : a + ((k + 1 : ℕ) : ℤ) = a + (k : ℤ) + 1 := by push_cast; ring
    rw [this]
    exact le_trans h1 h2

/-- For a well-formed CSR structure, every column index of a valid row is
a valid node. -/
theorem CSRWF.row_mem {n : ℤ} {Ap Aj : ℤ → ℤ} (h : CSRWF n Ap Aj)
    {i : ℤ} (hi0 : 0 ≤ i) (hin : i < n) {j : ℤ} (hj : j ∈ csrRow Ap Aj i) :
    0 ≤ j ∧ j < n := by
  rcases List.mem_map.mp hj with ⟨jj, hjj, rfl⟩
  rw [mem_irange] at hjj
  have hlo : 0 ≤ Ap i := by
    have h1 := h.prefix_mono 0 i le_rfl hi0 (le_of_lt hin)
    have h2 := h.p0
    omega
  have hhi : Ap (i + 1) ≤ Ap n := h.prefix_mono (i + 1) n (by omega) (by omega) le_rfl
  exact h.jmem jj (by omega) (by omega)

/-! ## `cljp_naive_splitting` (ruge_stuben.h lines 384–548)

The weight seeding is external to the kernel: with `colorflag == 1` it
calls `vertex_coloring_mis` (graph.h, not part of this source) and sets
`weight[i] = coloring[i]/ncolors ∈ [0,1)`; otherwise it uses the libc
`rand()` with a fixed seed and sets `weight[i] = rand()/RAND_MAX ∈ [0,1]`.
Both paths are modelled by an arbitrary `base : ℤ → ℚ` seed, after which
the kernel adds the in-neighbour counts (lines 431–438).  The claims over
this kernel quantify over every weight assignment, so this
parametrisation subsumes both seedings. -/

/-- The state mutated by the CLJP selection loop: the splitting array,
the weight array, the `edgemark` array (indexed by CSR position in `S`),
and the `c_dep_cache` array (allocated once, initialised to `-1`). -/
structure CState where
  split : ℤ → ℤ
  weight : ℤ → ℚ
  edge : ℤ → ℤ
  cdep : ℤ → ℤ

/-- Weight initialisation (lines 431–438): `weight[j]++` for every
off-diagonal entry `(i,j)` of `S`. -/
def cljpInitWeight (n : ℤ) (Sp Sj : ℤ → ℤ) (base : ℤ → ℚ) : ℤ → ℚ :=
  (irange 0 n).foldl
    (fun w i =>
      (csrRow Sp Sj i).foldl (fun w j => if i ≠ j then aupd w j (w j + 1) else w) w)
    base

/-- The initial CLJP state: `splitting` filled with `U_NODE` on `[0,n)`
(over the caller's array `sp0`), `edgemark` all 1, `c_dep_cache` all
`-1`. -/
def cljpInit (n : ℤ) (Sp Sj : ℤ → ℤ) (base : ℤ → ℚ) (sp0 : ℤ → ℤ) : CState :=
  { split := fun v => if 0 ≤ v ∧ v < n then U_NODE else sp0 v
    weight := cljpInitWeight n Sp Sj base
    edge := fun _ => 1
    cdep := fun _ => -1 }

/-- The candidate test of the selection loop (lines 450–469): node `i` is
selected iff it is unassigned and no unassigned neighbour over `S`'s row
or `T`'s row has strictly greater weight (the two inner `break` loops are
`List.all`). -/
def cljpCand (Sp Sj Tp Tj : ℤ → ℤ) (s : CState) (i : ℤ) : Bool :=
  decide (s.split i = U_NODE) &&
  (csrRow Sp Sj i).all
    (fun j => !(decide (s.split j = U_NODE) && decide (s.weight j > s.weight i))) &&
  (csrRow Tp Tj i).all
    (fun j => !(decide (s.split j = U_NODE) && decide (s.weight j > s.weight i)))

/-- `Dlist` of one pass: the candidates in increasing node order, exactly
as the scan over `i = 0 … n-1` records them. -/
def cljpDlist (n : ℤ) (Sp Sj Tp Tj : ℤ → ℤ) (s : CState) : List ℤ :=
  (irange 0 n).filter (cljpCand Sp Sj Tp Tj s)

/-- Promotion of the selected set (lines 480–482):
`splitting[Dlist[i]] = C_NODE`. -/
def cljpPromote (s : CState) (D : List ℤ) : CState :=
  D.foldl (fun s c => { s with split := aupd s.split c C_NODE }) s

/-- One edge removal with weight decrement and possible F-demotion — the
common body of P5 (lines 493–500) and P6 (lines 519–529): `pos` is the
CSR position of the edge, `j` the influenced node. -/
def cljpZap (s : CState) (pos j : ℤ) : CState :=
  let e' := aupd s.edge pos 0
  let w' := aupd s.weight j (s.weight j - 1)
  let sp' := if w' j < 1 then aupd s.split j F_NODE else s.split
  { s with edge := e', weight := w', split := sp' }

/-- P5 (lines 488–502) for a single new C-point `c`. -/
def cljpP5c (Sp Sj : ℤ → ℤ) (c : ℤ) (s : CState) : CState :=
  (csrPos Sp c).foldl
    (fun s jj =>
      let j := Sj jj
      if s.split j = U_NODE ∧ s.edge jj ≠ 0 then cljpZap s jj j else s)
    s

/-- First half of P6 (lines 509–513): cache `c` as dependency for every
unassigned `j` in `T`-row `c`. -/
def cljpP6cache (Tp Tj : ℤ → ℤ) (c : ℤ) (s : CState) : CState :=
  (csrRow Tp Tj c).foldl
    (fun s j => if s.split j = U_NODE then { s with cdep := aupd s.cdep j c } else s) s

/-- P6 (lines 507–533) for a single new C-point `c`: after caching the
unassigned dependents of `c`, remove edges `(j,k)` whose head `k` also
depends on `c`. -/
def cljpP6c (Sp Sj Tp Tj : ℤ → ℤ) (c : ℤ) (s : CState) : CState :=
  (csrRow Tp Tj c).foldl
    (fun s j =>
      (csrPos Sp j).foldl
        (fun s kk =>
          let k := Sj kk
          if s.split k = U_NODE ∧ s.edge kk ≠ 0 ∧ s.cdep k = c then cljpZap s kk k
          else s)
        s)
    (cljpP6cache Tp Tj c s)

/-- One pass of the CLJP selection loop (lines 443–534): select the
independent set from the current state, promote it, then run P5 and P6
over the selected list. -/
def cljpPass (n : ℤ) (Sp Sj Tp Tj : ℤ → ℤ) (s : CState) : CState :=
  let D := cljpDlist n Sp Sj Tp Tj s
  let s1 := cljpPromote s D
  let s2 := D.foldl (fun s c => cljpP5c Sp Sj c s) s1
  D.foldl (fun s c => cljpP6c Sp Sj Tp Tj c s) s2

/-- `k` passes of the selection loop. -/
def cljpPasses (n : ℤ) (Sp Sj Tp Tj : ℤ → ℤ) : ℕ → CState → CState
  | 0, s => s
  | k + 1, s => cljpPasses n Sp Sj Tp Tj k (cljpPass n Sp Sj Tp Tj s)

/-- The final sweep (lines 542–546): any remaining `U_NODE` becomes
`F_NODE`. -/
def cljpSweep (n : ℤ) (sp : ℤ → ℤ) : ℤ → ℤ :=
  (irange 0 n).foldl (fun sp i => if sp i = U_NODE then aupd sp i F_NODE else sp) sp

/-- The number of unassigned nodes (the quantity tracked by the local
variable `unassigned`, which the code decrements exactly when a node
leaves the `U_NODE` state). -/
def ucount (n : ℤ) (sp : ℤ → ℤ) : ℕ :=
  ((irange 0 n).filter (fun v => sp v = U_NODE)).length

/-- `cljp_naive_splitting`: the full kernel.  The `while(unassigned > 0)`
loop is run for `n` passes: `cljp_terminates` below shows the count of
unassigned nodes strictly decreases per pass until zero for well-formed
input, and a pass with no unassigned node is the identity, so this agrees
with the C++ loop.  The final `edgemark` fix-up (lines 537–541) does not
touch `splitting` and is omitted from the returned array. -/
def cljp_naive_splitting (n : ℤ) (Sp Sj Tp Tj : ℤ → ℤ) (base : ℤ → ℚ) (sp0 : ℤ → ℤ) :
    ℤ → ℤ :=
  cljpSweep n (cljpPasses n Sp Sj Tp Tj n.toNat (cljpInit n Sp Sj base sp0)).split

/-! ### Label monotonicity of the CLJP pass -/

theorem cljpZap_split (s : CState) (pos j : ℤ) :
    (cljpZap s pos j).split =
      if s.weight j - 1 < 1 then aupd s.split j F_NODE else s.split := by
  unfold cljpZap
  simp only [aupd_same]

/-- Composing fold steps that change labels only `U → {C,F}` preserves
that property. -/
theorem foldl_splitMono {α : Type} (l : List α) (f : CState → α → CState)
    (hf : ∀ s x v, (f s x).split v ≠ s.split v →
      s.split v = U_NODE ∧ ((f s x).split v = C_NODE ∨ (f s x).split v = F_NODE)) :
    ∀ s v, (l.foldl f s).split v ≠ s.split v →
      s.split v = U_NODE ∧
        ((l.foldl f s).split v = C_NODE ∨ (l.foldl f s).split v = F_NODE) := by
  induction l with
  | nil => intro s v h; simp at h
  | cons x xs ih =>
    intro s v h
    simp only [List.foldl_cons] at h ⊢
    by_cases h1 : (f s x).split v = s.split v
    · rw [← h1] at h ⊢
      exact ih (f s x) v h
    · obtain ⟨hU, hCF⟩ := hf s x v h1
      by_cases h2 : (xs.foldl f (f s x)).split v = (f s x).split v
      · rw [h2]; exact ⟨hU, hCF⟩
      · obtain ⟨hU2, _⟩ := ih (f s x) v h2
        rcases hCF with hc | hc <;> rw [hc] at hU2 <;> simp [C_NODE, F_NODE, U_NODE] at hU2

theorem cljpZap_step_mono (Xj : ℤ → ℤ) (cond : CState → ℤ → Prop)
    [∀ s jj, Decidable (cond s jj)]
    (hcond : ∀ s jj, cond s jj → s.split (Xj jj) = U_NODE) :
    ∀ (s : CState) (jj : ℤ) (v : ℤ),
      ((if cond s jj then cljpZap s jj (Xj jj) else s)).split v ≠ s.split v →
        s.split v = U_NODE ∧
          (((if cond s jj then cljpZap s jj (Xj jj) else s)).split v = C_NODE ∨
            ((if cond s jj then cljpZap s jj (Xj jj) else s)).split v = F_NODE) := by
  intro s jj v h
  by_cases hc : cond s jj
  · rw [if_pos hc] at h ⊢
    rw [cljpZap_split] at h ⊢
    by_cases hw : s.weight (Xj jj) - 1 < 1
    · rw [if_pos hw] at h ⊢
      by_cases hv : v = Xj jj
      · subst hv
        rw [aupd_same] at h ⊢
        exact ⟨hcond s jj hc, Or.inr rfl⟩
      · rw [aupd_other _ _ _ hv] at h
        exact absurd rfl h
    · rw [if_neg hw] at h
      exact absurd rfl h
  · rw [if_neg hc] at h
    exact absurd rfl h

/-- P5 for one C-point changes labels only `U → F`. -/
theorem cljpP5c_mono (Sp Sj : ℤ → ℤ) (c : ℤ) (s : CState) (v : ℤ)
    (h : (cljpP5c Sp Sj c s).split v ≠ s.split v) :
    s.split v = U_NODE ∧
      ((cljpP5c Sp Sj c s).split v = C_NODE ∨ (cljpP5c Sp Sj c s).split v = F_NODE) := by
  refine foldl_splitMono _ _ ?_ s v h
  intro s jj v h
  exact cljpZap_step_mono Sj (fun s jj => s.split (Sj jj) = U_NODE ∧ s.edge jj ≠ 0)
    (fun s jj hc => hc.1) s jj v h

/-- The caching half of P6 does not touch the splitting array. -/
theorem cljpP6cache_split (Tp Tj : ℤ → ℤ) (c : ℤ) (s : CState) :
    (cljpP6cache Tp Tj c s).split = s.split := by
  unfold cljpP6cache
  generalize csrRow Tp Tj c = l
  induction l generalizing s with
  | nil => rfl
  | cons x xs ih =>
    simp only [List.foldl_cons]
    rw [ih]
    split_ifs <;> rfl

/-- P6 for one C-point changes labels only `U → F`. -/
theorem cljpP6c_mono (Sp Sj Tp Tj : ℤ → ℤ) (c : ℤ) (s : CState) (v : ℤ)
    (h : (cljpP6c Sp Sj Tp Tj c s).split v ≠ s.split v) :
    s.split v = U_NODE ∧
      ((cljpP6c Sp Sj Tp Tj c s).split v = C_NODE ∨
        (cljpP6c Sp Sj Tp Tj c s).split v = F_NODE) := by
  have hcache := cljpP6cache_split Tp Tj c s
  have hmono := foldl_splitMono (csrRow Tp Tj c)
    (fun s j =>
      (csrPos Sp j).foldl
        (fun s kk =>
          if s.split (Sj kk) = U_NODE ∧ s.edge kk ≠ 0 ∧ s.cdep (Sj kk) = c then
            cljpZap s kk (Sj kk)
          else s)
        s)
    (fun s j v h => by
      refine foldl_splitMono _ _ ?_ s v h
      intro s kk v h
      exact cljpZap_step_mono Sj
        (fun s kk => s.split (Sj kk) = U_NODE ∧ s.edge kk ≠ 0 ∧ s.cdep (Sj kk) = c)
        (fun s kk hc => hc.1) s kk v h)
  have h' : (cljpP6c Sp Sj Tp Tj c s).split v ≠ (cljpP6cache Tp Tj c s).split v := by
    rw [hcache]; exact h
  obtain ⟨hU, hCF⟩ := hmono (cljpP6cache Tp Tj c s) v h'
  rw [hcache] at hU
  exact ⟨hU, hCF⟩

/-- Promotion only writes `C_NODE`: every label is either promoted or
untouched. -/
theorem cljpPromote_split (s : CState) (D : List ℤ) (v : ℤ) :
    (cljpPromote s D).split v = C_NODE ∨ (cljpPromote s D).split v = s.split v := by
  induction D generalizing s with
  | nil => exact Or.inr rfl
  | cons c D' ih =>
    unfold cljpPromote at ih ⊢
    simp only [List.foldl_cons]
    rcases ih { s with split := aupd s.split c C_NODE } with h | h
    · exact Or.inl h
    · rw [h]
      show aupd s.split c C_NODE v = C_NODE ∨ aupd s.split c C_NODE v = s.split v
      by_cases hv : v = c
      · subst hv; rw [aupd_same]; exact Or.inl rfl
      · rw [aupd_other _ _ _ hv]; exact Or.inr rfl

/-- Every promoted node ends the promotion labelled `C_NODE`. -/
theorem cljpPromote_mem (s : CState) (D : List ℤ) (c : ℤ) (hc : c ∈ D) :
    (cljpPromote s D).split c = C_NODE := by
  induction D generalizing s with
  | nil => cases hc
  | cons d D' ih =>
    unfold cljpPromote at ih ⊢
    simp only [List.foldl_cons]
    rcases List.mem_cons.mp hc with rfl | hc'
    · rcases cljpPromote_split { s with split := aupd s.split c C_NODE } D' c with h | h
      · exact h
      · unfold cljpPromote at h
        rw [h]
        exact aupd_same _ _ _
    · exact ih _ hc'

/-- A change made by promotion happens at a member of `D`. -/
theorem cljpPromote_change (s : CState) (D : List ℤ) (v : ℤ)
    (h : (cljpPromote s D).split v ≠ s.split v) :
    v ∈ D ∧ (cljpPromote s D).split v = C_NODE := by
  induction D generalizing s with
  | nil => exact absurd rfl h
  | cons c D' ih =>
    unfold cljpPromote at h ih ⊢
    simp only [List.foldl_cons] at h ⊢
    by_cases h1 : (cljpPromote { s with split := aupd s.split c C_NODE } D').split v
        = aupd s.split c C_NODE v
    · unfold cljpPromote at h1
      rw [h1] at h ⊢
      refine ?_
      by_cases hv : v = c
      · subst hv
        exact ⟨List.mem_cons_self _ _, aupd_same _ _ _⟩
      · rw [aupd_other _ _ _ hv] at h; exact absurd rfl h
    · obtain ⟨hm, hC⟩ := ih _ h1
      exact ⟨List.mem_cons_of_mem _ hm, hC⟩

/-- Candidates are unassigned. -/
theorem cljpCand_U {Sp Sj Tp Tj : ℤ → ℤ} {s : CState} {i : ℤ}
    (h : cljpCand Sp Sj Tp Tj s i = true) : s.split i = U_NODE := by
  unfold cljpCand at h
  simp only [Bool.and_eq_true, decide_eq_true_eq] at h
  exact h.1.1

/-- **One CLJP pass changes a label only if it is `U_NODE`, and then only
to `C_NODE` or `F_NODE`.** -/
theorem cljpPass_change (n : ℤ) (Sp Sj Tp Tj : ℤ → ℤ) (s : CState) (v : ℤ)
    (h : (cljpPass n Sp Sj Tp Tj s).split v ≠ s.split v) :
    s.split v = U_NODE ∧
      ((cljpPass n Sp Sj Tp Tj s).split v = C_NODE ∨
        (cljpPass n Sp Sj Tp Tj s).split v = F_NODE) := by
  unfold cljpPass at h ⊢
  set D := cljpDlist n Sp Sj Tp Tj s with hD
  set s1 := cljpPromote s D with hs1
  set s2 := D.foldl (fun s c => cljpP5c Sp Sj c s) s1 with hs2
  set s3 := D.foldl (fun s c => cljpP6c Sp Sj Tp Tj c s) s2 with hs3
  have h5 : ∀ (t : CState) (w : ℤ), s2.split w ≠ s1.split w →
      s1.split w = U_NODE ∧ (s2.split w = C_NODE ∨ s2.split w = F_NODE) := by
    intro _ w hw
    exact foldl_splitMono D _ (fun s c v h => cljpP5c_mono Sp Sj c s v h) s1 w hw
  have h6 : ∀ (w : ℤ), s3.split w ≠ s2.split w →
      s2.split w = U_NODE ∧ (s3.split w = C_NODE ∨ s3.split w = F_NODE) := by
    intro w hw
    exact foldl_splitMono D _ (fun s c v h => cljpP6c_mono Sp Sj Tp Tj c s v h) s2 w hw
  by_cases hc1 : s1.split v = s.split v
  · by_cases hc2 : s2.split v = s1.split v
    · have h3 : s3.split v ≠ s2.split v := by rw [hc2, hc1]; exact h
      obtain ⟨hU, hCF⟩ := h6 v h3
      rw [hc2, hc1] at hU
      exact ⟨hU, hCF⟩
    · obtain ⟨hU, hCF⟩ := h5 s1 v hc2
      rw [hc1] at hU
      by_cases hc3 : s3.split v = s2.split v
      · rw [hc3]; exact ⟨hU, hCF⟩
      · obtain ⟨hU2, hCF2⟩ := h6 v hc3
        rcases hCF with he | he <;> rw [he] at hU2 <;>
          simp [C_NODE, F_NODE, U_NODE] at hU2
  · obtain ⟨hmem, hC⟩ := cljpPromote_change s D v hc1
    rw [← hs1] at hC
    have hU : s.split v = U_NODE :=
      cljpCand_U (List.of_mem_filter (by rw [hD] at hmem; exact hmem))
    refine ⟨hU, ?_⟩
    by_cases hc2 : s2.split v = s1.split v
    · by_cases hc3 : s3.split v = s2.split v
      · rw [hc3, hc2, hC]; exact Or.inl rfl
      · obtain ⟨hU2, hCF2⟩ := h6 v hc3
        rw [hc2, hC] at hU2
        simp [C_NODE, U_NODE] at hU2
    · obtain ⟨hU2, _⟩ := h5 s1 v hc2
      rw [hC] at hU2
      simp [C_NODE, U_NODE] at hU2

/-- Every node selected in a pass is `C_NODE` after the pass. -/
theorem cljpPass_promotes (n : ℤ) (Sp Sj Tp Tj : ℤ → ℤ) (s : CState) (c : ℤ)
    (hc : c ∈ cljpDlist n Sp Sj Tp Tj s) :
    (cljpPass n Sp Sj Tp Tj s).split c = C_NODE := by
  unfold cljpPass
  set D := cljpDlist n Sp Sj Tp Tj s with hD
  set s1 := cljpPromote s D with hs1
  set s2 := D.foldl (fun s c => cljpP5c Sp Sj c s) s1 with hs2
  have h1 : s1.split c = C_NODE := cljpPromote_mem s D c hc
  have h2 : s2.split c = C_NODE := by
    by_cases hch : s2.split c = s1.split c
    · rw [hch, h1]
    · obtain ⟨hU, _⟩ :=
        foldl_splitMono D _ (fun s c v h => cljpP5c_mono Sp Sj c s v h) s1 c hch
      rw [h1] at hU
      simp [C_NODE, U_NODE] at hU
  by_cases hch : (D.foldl (fun s c => cljpP6c Sp Sj Tp Tj c s) s2).split c = s2.split c
  · rw [hch, h2]
  · obtain ⟨hU, _⟩ :=
      foldl_splitMono D _ (fun s c v h => cljpP6c_mono Sp Sj Tp Tj c s v h) s2 c hch
    rw [h2] at hU
    simp [C_NODE, U_NODE] at hU

theorem cljpPasses_add (n : ℤ) (Sp Sj Tp Tj : ℤ → ℤ) (a b : ℕ) (s : CState) :
    cljpPasses n Sp Sj Tp Tj (a + b) s
      = cljpPasses n Sp Sj Tp Tj b (cljpPasses n Sp Sj Tp Tj a s) := by
  induction a generalizing s with
  | zero => rw [Nat.zero_add]; rfl
  | succ a ih =>
    have : a + 1 + b = (a + b) + 1 := by omega
    rw [this]
    show cljpPasses n Sp Sj Tp Tj (a + b) (cljpPass n Sp Sj Tp Tj s) = _
    rw [ih]
    rfl

/-- A label that is no longer `U_NODE` survives any number of further
passes unchanged. -/
theorem cljpPasses_stable (n : ℤ) (Sp Sj Tp Tj : ℤ → ℤ) (m : ℕ) (s : CState) (v : ℤ)
    (h : s.split v ≠ U_NODE) :
    (cljpPasses n Sp Sj Tp Tj m s).split v = s.split v := by
  induction m generalizing s with
  | zero => rfl
  | succ m ih =>
    show (cljpPasses n Sp Sj Tp Tj m (cljpPass n Sp Sj Tp Tj s)).split v = s.split v
    have hone : (cljpPass n Sp Sj Tp Tj s).split v = s.split v := by
      by_cases hch : (cljpPass n Sp Sj Tp Tj s).split v = s.split v
      · exact hch
      · exact absurd (cljpPass_change n Sp Sj Tp Tj s v hch).1 h
    rw [ih _ (by rw [hone]; exact h), hone]

/-- **C10.**  In `cljp_naive_splitting`, node labels are monotone: a pass
of the selection loop changes `splitting[v]` only when its current value
is `U_NODE` (and then writes `C_NODE` or `F_NODE`); consequently, once a
label has been set to `C_NODE` or `F_NODE` at some pass, it is unchanged
by all later passes, and the final `U→F` sweep also leaves it alone. -/
theorem cljp_labels_monotone :
    (∀ (n : ℤ) (Sp Sj Tp Tj : ℤ → ℤ) (s : CState) (v : ℤ),
        (cljpPass n Sp Sj Tp Tj s).split v ≠ s.split v →
          s.split v = U_NODE ∧
            ((cljpPass n Sp Sj Tp Tj s).split v = C_NODE ∨
              (cljpPass n Sp Sj Tp Tj s).split v = F_NODE)) ∧
    (∀ (n : ℤ) (Sp Sj Tp Tj : ℤ → ℤ) (s : CState) (k m : ℕ) (v : ℤ),
        (cljpPasses n Sp Sj Tp Tj k s).split v ≠ U_NODE →
          (cljpPasses n Sp Sj Tp Tj (k + m) s).split v
            = (cljpPasses n Sp Sj Tp Tj k s).split v) ∧
    (∀ (n : ℤ) (sp : ℤ → ℤ) (v : ℤ), sp v ≠ U_NODE → cljpSweep n sp v = sp v) := by
  refine ⟨cljpPass_change, ?_, ?_⟩
  · intro n Sp Sj Tp Tj s k m v h
    rw [cljpPasses_add]
    exact cljpPasses_stable n Sp Sj Tp Tj m _ v h
  · intro n sp v h
    unfold cljpSweep
    have : ∀ (l : List ℤ) (sp : ℤ → ℤ), sp v ≠ U_NODE →
        (l.foldl (fun sp i => if sp i = U_NODE then aupd sp i F_NODE else sp) sp) v = sp v := by
      intro l
      induction l with
      | nil => intro sp _; rfl
      | cons x xs ih =>
        intro sp hsp
        simp only [List.foldl_cons]
        by_cases hx : sp x = U_NODE
        · rw [if_pos hx]
          by_cases hv : v = x
          · subst hv; exact absurd hx hsp
          · rw [ih _ (by rw [aupd_other _ _ _ hv]; exact hsp), aupd_other _ _ _ hv]
        · rw [if_neg hx]
          exact ih sp hsp
    exact this _ sp h

/-- Closed witness for `cljp_labels_monotone`: a single isolated node is
selected in the first pass (`U → C`), a change that the theorem forces to
have started from `U_NODE`. -/
theorem cljp_labels_monotone_witness :
    ((cljpPass 1 (fun _ => 0) (fun _ => 0) (fun _ => 0) (fun _ => 0)
        (cljpInit 1 (fun _ => 0) (fun _ => 0) (fun _ => (0:ℚ)) (fun _ => 0))).split 0 ≠
      (cljpInit 1 (fun _ => 0) (fun _ => 0) (fun _ => (0:ℚ)) (fun _ => 0)).split 0) ∧
    ((cljpInit 1 (fun _ => 0) (fun _ => 0) (fun _ => (0:ℚ)) (fun _ => 0)).split 0 = U_NODE ∧
      ((cljpPass 1 (fun _ => 0) (fun _ => 0) (fun _ => 0) (fun _ => 0)
          (cljpInit 1 (fun _ => 0) (fun _ => 0) (fun _ => (0:ℚ)) (fun _ => 0))).split 0 = C_NODE ∨
        (cljpPass 1 (fun _ => 0) (fun _ => 0) (fun _ => 0) (fun _ => 0)
          (cljpInit 1 (fun _ => 0) (fun _ => 0) (fun _ => (0:ℚ)) (fun _ => 0))).split 0 = F_NODE)) :=
  ⟨by decide,
   cljp_labels_monotone.1 1 (fun _ => 0) (fun _ => 0) (fun _ => 0) (fun _ => 0)
     (cljpInit 1 (fun _ => 0) (fun _ => 0) (fun _ => (0:ℚ)) (fun _ => 0)) 0 (by decide)⟩

/-! ### Strict decrease of the unassigned count (C3) -/

theorem list_exists_max {α : Type} (l : List α) (f : α → ℚ) (h : l ≠ []) :
    ∃ x ∈ l, ∀ y ∈ l, f y ≤ f x := by
  induction l with
  | nil => exact absurd rfl h
  | cons a t ih =>
    cases t with
    | nil => exact ⟨a, List.mem_singleton_self a, by intro y hy; rw [List.mem_singleton.mp hy]⟩
    | cons b t' =>
      obtain ⟨x, hx, hmax⟩ := ih (by simp)
      by_cases hc : f x ≤ f a
      · refine ⟨a, List.mem_cons_self _ _, ?_⟩
        intro y hy
        rcases List.mem_cons.mp hy with rfl | hy
        · exact le_rfl
        · exact le_trans (hmax y hy) hc
      · refine ⟨x, List.mem_cons_of_mem _ hx, ?_⟩
        intro y hy
        rcases List.mem_cons.mp hy with rfl | hy
        · exact le_of_not_le hc
        · exact hmax y hy

theorem length_filter_mono {l : List ℤ} {p q : ℤ → Bool}
    (h : ∀ x ∈ l, q x = true → p x = true) :
    (l.filter q).length ≤ (l.filter p).length := by
  induction l with
  | nil => simp
  | cons a t ih =>
    have ht : ∀ x ∈ t, q x = true → p x = true :=
      fun x hx => h x (List.mem_cons_of_mem _ hx)
    simp only [List.filter_cons]
    by_cases hq : q a = true
    · rw [hq, h a (List.mem_cons_self _ _) hq]
      simpa using ih ht
    · rw [Bool.not_eq_true] at hq
      rw [hq]
      by_cases hp : p a = true
      · rw [hp]
        simp only [List.length_cons]
        exact le_trans (ih ht) (Nat.le_succ _)
      · rw [Bool.not_eq_true] at hp
        rw [hp]
        exact ih ht

theorem length_filter_lt {l : List ℤ} {p q : ℤ → Bool}
    (h : ∀ x ∈ l, q x = true → p x = true)
    (x0 : ℤ) (hx0 : x0 ∈ l) (hp : p x0 = true) (hq : q x0 ≠ true) :
    (l.filter q).length < (l.filter p).length := by
  induction l with
  | nil => cases hx0
  | cons a t ih =>
    have ht : ∀ x ∈ t, q x = true → p x = true :=
      fun x hx => h x (List.mem_cons_of_mem _ hx)
    simp only [List.filter_cons]
    rcases List.mem_cons.mp hx0 with rfl | hmem
    · have hqa : q x0 = false := by revert hq; cases q x0 <;> simp
      rw [hqa, hp]
      simp only [List.length_cons]
      exact Nat.lt_succ_of_le (length_filter_mono ht)
    · by_cases hqa : q a = true
      · rw [hqa, h a (List.mem_cons_self _ _) hqa]
        simpa using ih ht hmem
      · rw [Bool.not_eq_true] at hqa
        rw [hqa]
        by_cases hpa : p a = true
        · rw [hpa]
          simp only [List.length_cons]
          exact Nat.lt_succ_of_lt (ih ht hmem)
        · rw [Bool.not_eq_true] at hpa
          rw [hpa]
          exact ih ht hmem

/-- The maximum-weight unassigned node is always selected: a pass with an
unassigned node makes at least one selection, so the unassigned count
strictly decreases (well-formed `S`, `T`). -/
theorem cljpPass_ucount_lt (n : ℤ) (Sp Sj Tp Tj : ℤ → ℤ)
    (hS : CSRWF n Sp Sj) (hT : CSRWF n Tp Tj) (s : CState)
    (h : 0 < ucount n s.split) :
    ucount n (cljpPass n Sp Sj Tp Tj s).split < ucount n s.split := by
  have hne : (irange 0 n).filter (fun v => decide (s.split v = U_NODE)) ≠ [] := by
    intro hnil
    unfold ucount at h
    rw [hnil] at h
    simp at h
  obtain ⟨i, hi, hmax⟩ := list_exists_max _ s.weight hne
  have hiU : s.split i = U_NODE := by
    have := List.of_mem_filter hi
    simpa using this
  have hirange : i ∈ irange 0 n := List.mem_of_mem_filter hi
  have hin : 0 ≤ i ∧ i < n := mem_irange.mp hirange
  have hcand : cljpCand Sp Sj Tp Tj s i = true := by
    unfold cljpCand
    simp only [Bool.and_eq_true, List.all_eq_true, Bool.not_eq_true',
      Bool.and_eq_false_iff, decide_eq_true_eq, decide_eq_false_iff_not]
    refine ⟨⟨hiU, ?_⟩, ?_⟩
    · intro j hj
      by_cases hjU : s.split j = U_NODE
      · right
        have hjn := hS.row_mem hin.1 hin.2 hj
        have : j ∈ (irange 0 n).filter (fun v => decide (s.split v = U_NODE)) :=
          List.mem_filter.mpr ⟨mem_irange.mpr hjn, by simpa using hjU⟩
        exact not_lt.mpr (hmax j this)
      · left; exact hjU
    · intro j hj
      by_cases hjU : s.split j = U_NODE
      · right
        have hjn := hT.row_mem hin.1 hin.2 hj
        have : j ∈ (irange 0 n).filter (fun v => decide (s.split v = U_NODE)) :=
          List.mem_filter.mpr ⟨mem_irange.mpr hjn, by simpa using hjU⟩
        exact not_lt.mpr (hmax j this)
      · left; exact hjU
  have hiD : i ∈ cljpDlist n Sp Sj Tp Tj s :=
    List.mem_filter.mpr ⟨hirange, hcand⟩
  have hiC : (cljpPass n Sp Sj Tp Tj s).split i = C_NODE :=
    cljpPass_promotes n Sp Sj Tp Tj s i hiD
  unfold ucount
  refine length_filter_lt ?_ i hirange (by simpa using hiU) ?_
  · intro v _ hv
    simp only [decide_eq_true_eq] at hv ⊢
    by_cases hch : (cljpPass n Sp Sj Tp Tj s).split v = s.split v
    · rw [← hch]; exact hv
    · exact (cljpPass_change n Sp Sj Tp Tj s v hch).1
  · simp only [decide_eq_true_eq, hiC]
    simp [C_NODE, U_NODE]

/-- A pass with no unassigned node is the identity. -/
theorem cljpPass_id (n : ℤ) (Sp Sj Tp Tj : ℤ → ℤ) (s : CState)
    (h : ucount n s.split = 0) : cljpPass n Sp Sj Tp Tj s = s := by
  have hD : cljpDlist n Sp Sj Tp Tj s = [] := by
    unfold cljpDlist
    rw [List.filter_eq_nil]
    intro i hi
    have hnotU : ¬ (s.split i = U_NODE) := by
      intro hU
      unfold ucount at h
      have : i ∈ (irange 0 n).filter (fun v => decide (s.split v = U_NODE)) :=
        List.mem_filter.mpr ⟨hi, by simpa using hU⟩
      rw [List.length_eq_zero] at h
      rw [h] at this
      cases this
    unfold cljpCand
    simp only [Bool.and_eq_true, decide_eq_true_eq, not_and]
    intro hc
    exact absurd hc.1 hnotU
  unfold cljpPass
  rw [hD]
  rfl

/-- If at most `m` nodes are unassigned, `m` passes assign everything. -/
theorem cljpPasses_zero (n : ℤ) (Sp Sj Tp Tj : ℤ → ℤ)
    (hS : CSRWF n Sp Sj) (hT : CSRWF n Tp Tj) :
    ∀ (m : ℕ) (s : CState), ucount n s.split ≤ m →
      ucount n (cljpPasses n Sp Sj Tp Tj m s).split = 0 := by
  intro m
  induction m with
  | zero => intro s h; simpa using h
  | succ m ih =>
    intro s h
    show ucount n (cljpPasses n Sp Sj Tp Tj m (cljpPass n Sp Sj Tp Tj s)).split = 0
    by_cases h0 : 0 < ucount n s.split
    · have := cljpPass_ucount_lt n Sp Sj Tp Tj hS hT s h0
      exact ih _ (by omega)
    · have hz : ucount n s.split = 0 := by omega
      rw [cljpPass_id n Sp Sj Tp Tj s hz]
      exact ih s (by omega)

/-- **C3.**  For well-formed `S` (with transpose `T`), every iteration of
the CLJP selection loop that starts with at least one unassigned node
strictly decreases the number of `U_NODE` nodes (the quantity tracked by
`unassigned`), and after at most `n` passes the count reaches zero — the
loop terminates. -/
theorem cljp_unassigned_decreases :
    (∀ (n : ℤ) (Sp Sj Tp Tj : ℤ → ℤ), CSRWF n Sp Sj → CSRWF n Tp Tj →
      ∀ (s : CState), 0 < ucount n s.split →
        ucount n (cljpPass n Sp Sj Tp Tj s).split < ucount n s.split) ∧
    (∀ (n : ℤ) (Sp Sj Tp Tj : ℤ → ℤ), CSRWF n Sp Sj → CSRWF n Tp Tj →
      ∀ (base : ℤ → ℚ) (sp0 : ℤ → ℤ),
        ucount n (cljpPasses n Sp Sj Tp Tj n.toNat (cljpInit n Sp Sj base sp0)).split = 0) := by
  constructor
  · intro n Sp Sj Tp Tj hS hT s h
    exact cljpPass_ucount_lt n Sp Sj Tp Tj hS hT s h
  · intro n Sp Sj Tp Tj hS hT base sp0
    refine cljpPasses_zero n Sp Sj Tp Tj hS hT n.toNat _ ?_
    unfold ucount
    calc ((irange 0 n).filter (fun v => decide ((cljpInit n Sp Sj base sp0).split v = U_NODE))).length
        ≤ (irange 0 n).length := List.length_filter_le _ _
      _ = n.toNat := by rw [length_irange]; omega

/-- Closed witness for `cljp_unassigned_decreases`: the empty-graph
instance on one node. -/
theorem cljp_unassigned_decreases_witness :
    (0 < ucount 1 (cljpInit 1 (fun _ => 0) (fun _ => 0) (fun _ => (0:ℚ)) (fun _ => 0)).split ∧
      ucount 1 (cljpPass 1 (fun _ => 0) (fun _ => 0) (fun _ => 0) (fun _ => 0)
          (cljpInit 1 (fun _ => 0) (fun _ => 0) (fun _ => (0:ℚ)) (fun _ => 0))).split <
        ucount 1 (cljpInit 1 (fun _ => 0) (fun _ => 0) (fun _ => (0:ℚ)) (fun _ => 0)).split) ∧
    ucount 1 (cljpPasses 1 (fun _ => 0) (fun _ => 0) (fun _ => 0) (fun _ => 0) (1:ℤ).toNat
        (cljpInit 1 (fun _ => 0) (fun _ => 0) (fun _ => (0:ℚ)) (fun _ => 0))).split = 0 := by
  have hwf : CSRWF 1 (fun _ => (0:ℤ)) (fun _ => (0:ℤ)) :=
    ⟨rfl, fun i _ _ => le_rfl, fun jj h1 h2 => absurd h2 (by omega)⟩
  exact ⟨⟨by decide,
      cljp_unassigned_decreases.1 1 (fun _ => 0) (fun _ => 0) (fun _ => 0) (fun _ => 0)
        hwf hwf (cljpInit 1 (fun _ => 0) (fun _ => 0) (fun _ => (0:ℚ)) (fun _ => 0)) (by decide)⟩,
    cljp_unassigned_decreases.2 1 (fun _ => 0) (fun _ => 0) (fun _ => 0) (fun _ => 0)
      hwf hwf (fun _ => (0:ℚ)) (fun _ => 0)⟩

/-! ### The CLJP independent-set property (C7) -/

/-- Concrete 2-node graph with the single symmetric edge `0 ↔ 1`: row
pointer `[0,1,2]`. -/
def Sp2 : ℤ → ℤ := fun i => if i ≤ 0 then 0 else if i = 1 then 1 else 2

/-- Column indices `[1, 0]` for the 2-cycle. -/
def Sj2 : ℤ → ℤ := fun jj => if jj = 0 then 1 else 0

/-- **C7, counterexample.**  On the symmetric 2-cycle with equal seed
weights (both nodes get base weight `0` and one incoming edge, hence
weight `1`), *both* nodes pass the candidate test — neither has a
neighbour of *strictly* greater weight — so the selected set `D = {0, 1}`
contains the edge `(0,1) ∈ S`: `D` is not independent. -/
theorem cljpInitWeight2_eval (v : ℤ) (hv : v = 0 ∨ v = 1) :
    cljpInitWeight 2 Sp2 Sj2 (fun _ => (0:ℚ)) v = 1 := by
  unfold cljpInitWeight
  rw [show irange 0 2 = [0, 1] from by decide]
  simp only [List.foldl_cons, List.foldl_nil]
  rw [show csrRow Sp2 Sj2 0 = [1] from by decide,
      show csrRow Sp2 Sj2 1 = [0] from by decide]
  simp only [List.foldl_cons, List.foldl_nil]
  rcases hv with rfl | rfl <;> norm_num [aupd]

theorem cljpDlist2_eval :
    cljpDlist 2 Sp2 Sj2 Sp2 Sj2 (cljpInit 2 Sp2 Sj2 (fun _ => (0:ℚ)) (fun _ => 0))
      = [0, 1] := by
  have hsp : ∀ v : ℤ, v = 0 ∨ v = 1 →
      (cljpInit 2 Sp2 Sj2 (fun _ => (0:ℚ)) (fun _ => 0)).split v = U_NODE := by
    intro v hv
    rcases hv with rfl | rfl <;> rfl
  have hw : ∀ v : ℤ, v = 0 ∨ v = 1 →
      (cljpInit 2 Sp2 Sj2 (fun _ => (0:ℚ)) (fun _ => 0)).weight v = 1 :=
    fun v hv => cljpInitWeight2_eval v hv
  have hcand : ∀ v : ℤ, v = 0 ∨ v = 1 →
      cljpCand Sp2 Sj2 Sp2 Sj2 (cljpInit 2 Sp2 Sj2 (fun _ => (0:ℚ)) (fun _ => 0)) v
        = true := by
    intro v hv
    unfold cljpCand
    have h01 : Sj2 0 = 1 ∧ Sj2 1 = 0 := by decide
    rcases hv with rfl | rfl
    · rw [show csrRow Sp2 Sj2 0 = [1] from by decide]
      simp only [List.all_cons, List.all_nil, Bool.and_true]
      rw [hsp 0 (Or.inl rfl), hsp 1 (Or.inr rfl), hw 0 (Or.inl rfl), hw 1 (Or.inr rfl)]
      simp [U_NODE]
    · rw [show csrRow Sp2 Sj2 1 = [0] from by decide]
      simp only [List.all_cons, List.all_nil, Bool.and_true]
      rw [hsp 0 (Or.inl rfl), hsp 1 (Or.inr rfl), hw 0 (Or.inl rfl), hw 1 (Or.inr rfl)]
      simp [U_NODE]
  unfold cljpDlist
  rw [show irange 0 2 = [0, 1] from by decide]
  rw [List.filter_cons, List.filter_cons, List.filter_nil,
      hcand 0 (Or.inl rfl), hcand 1 (Or.inr rfl)]
  rfl

/-- **C7, counterexample** (statement): on the symmetric 2-cycle with the
seed weights all zero — a weight assignment the random seeding can
produce — both endpoints of the edge `(0,1)` are selected into `D`. -/
theorem cljp_independent_counterexample :
    (0 : ℤ) ∈ cljpDlist 2 Sp2 Sj2 Sp2 Sj2
        (cljpInit 2 Sp2 Sj2 (fun _ => (0:ℚ)) (fun _ => 0)) ∧
    (1 : ℤ) ∈ cljpDlist 2 Sp2 Sj2 Sp2 Sj2
        (cljpInit 2 Sp2 Sj2 (fun _ => (0:ℚ)) (fun _ => 0)) ∧
    (1 : ℤ) ∈ csrRow Sp2 Sj2 0 := by
  rw [cljpDlist2_eval]
  refine ⟨by simp, by simp, by decide⟩

/-- **C7, amended.**  The set `D` selected in one CLJP pass is
independent in `S ∪ Sᵀ` *provided adjacent unassigned nodes carry
distinct weights* (with equal weights on an adjacent pair both endpoints
can be selected simultaneously, as the counterexample shows).  `T` is
assumed to be the transpose of `S`. -/
theorem cljp_select_independent (n : ℤ) (Sp Sj Tp Tj : ℤ → ℤ) (s : CState)
    (htr : ∀ i j, 0 ≤ i → i < n → 0 ≤ j → j < n →
      (j ∈ csrRow Sp Sj i ↔ i ∈ csrRow Tp Tj j))
    (hS : CSRWF n Sp Sj) (hT : CSRWF n Tp Tj)
    (hdist : ∀ i j, 0 ≤ i → i < n → 0 ≤ j → j < n → i ≠ j →
      s.split i = U_NODE → s.split j = U_NODE →
      (j ∈ csrRow Sp Sj i ∨ j ∈ csrRow Tp Tj i) → s.weight i ≠ s.weight j) :
    ∀ i ∈ cljpDlist n Sp Sj Tp Tj s, ∀ j ∈ cljpDlist n Sp Sj Tp Tj s, i ≠ j →
      j ∉ csrRow Sp Sj i ∧ j ∉ csrRow Tp Tj i := by
  intro i hi j hj hij
  have hiU : s.split i = U_NODE := cljpCand_U (List.of_mem_filter hi)
  have hjU : s.split j = U_NODE := cljpCand_U (List.of_mem_filter hj)
  have hin : 0 ≤ i ∧ i < n := mem_irange.mp (List.mem_of_mem_filter hi)
  have hjn : 0 ≤ j ∧ j < n := mem_irange.mp (List.mem_of_mem_filter hj)
  have hcand : ∀ a ∈ cljpDlist n Sp Sj Tp Tj s,
      (∀ b ∈ csrRow Sp Sj a, s.split b = U_NODE → s.weight b ≤ s.weight a) ∧
      (∀ b ∈ csrRow Tp Tj a, s.split b = U_NODE → s.weight b ≤ s.weight a) := by
    intro a ha
    have hc := List.of_mem_filter ha
    unfold cljpCand at hc
    simp only [Bool.and_eq_true, List.all_eq_true, Bool.not_eq_true',
      Bool.and_eq_false_iff, decide_eq_true_eq, decide_eq_false_iff_not] at hc
    constructor
    · intro b hb hbU
      rcases hc.1.2 b hb with h | h
      · exact absurd hbU h
      · exact not_lt.mp h
    · intro b hb hbU
      rcases hc.2 b hb with h | h
      · exact absurd hbU h
      · exact not_lt.mp h
  constructor
  · intro hedge
    have h1 : s.weight j ≤ s.weight i := (hcand i hi).1 j hedge hjU
    have h2 : s.weight i ≤ s.weight j := by
      have : i ∈ csrRow Tp Tj j := (htr i j hin.1 hin.2 hjn.1 hjn.2).mp hedge
      exact (hcand j hj).2 i this hiU
    exact hdist i j hin.1 hin.2 hjn.1 hjn.2 hij hiU hjU (Or.inl hedge)
      (le_antisymm h2 h1)
  · intro hedge
    have h1 : s.weight j ≤ s.weight i := (hcand i hi).2 j hedge hjU
    have h2 : s.weight i ≤ s.weight j := by
      have : i ∈ csrRow Sp Sj j := (htr j i hjn.1 hjn.2 hin.1 hin.2).mpr hedge
      exact (hcand j hj).1 i this hiU
    exact hdist i j hin.1 hin.2 hjn.1 hjn.2 hij hiU hjU (Or.inr hedge)
      (le_antisymm h2 h1)

theorem cljpInitWeight2d_eval :
    cljpInitWeight 2 Sp2 Sj2 (fun v => if v = 1 then (1:ℚ) else 0) 0 = 1 ∧
    cljpInitWeight 2 Sp2 Sj2 (fun v => if v = 1 then (1:ℚ) else 0) 1 = 2 := by
  unfold cljpInitWeight
  rw [show irange 0 2 = [0, 1] from by decide]
  simp only [List.foldl_cons, List.foldl_nil]
  rw [show csrRow Sp2 Sj2 0 = [1] from by decide,
      show csrRow Sp2 Sj2 1 = [0] from by decide]
  simp only [List.foldl_cons, List.foldl_nil]
  norm_num [aupd]

/-- Two disjoint symmetric 2-cycles `0 ↔ 1` and `2 ↔ 3`: row pointer
`[0,1,2,3,4]`. -/
def Sp4 : ℤ → ℤ :=
  fun i => if i ≤ 0 then 0 else if i = 1 then 1 else if i = 2 then 2
    else if i = 3 then 3 else 4

/-- Column indices `[1,0,3,2]` for the two 2-cycles. -/
def Sj4 : ℤ → ℤ :=
  fun jj => if jj = 0 then 1 else if jj = 1 then 0 else if jj = 2 then 3 else 2

/-- Seed weights making each cycle's endpoints distinct. -/
def b4 : ℤ → ℚ := fun v => if v = 1 ∨ v = 3 then 1 else 0

theorem cljpInitWeight4_eval :
    cljpInitWeight 4 Sp4 Sj4 b4 0 = 1 ∧ cljpInitWeight 4 Sp4 Sj4 b4 1 = 2 ∧
    cljpInitWeight 4 Sp4 Sj4 b4 2 = 1 ∧ cljpInitWeight 4 Sp4 Sj4 b4 3 = 2 := by
  unfold cljpInitWeight
  rw [show irange 0 4 = [0, 1, 2, 3] from by decide]
  simp only [List.foldl_cons, List.foldl_nil]
  rw [show csrRow Sp4 Sj4 0 = [1] from by decide,
      show csrRow Sp4 Sj4 1 = [0] from by decide,
      show csrRow Sp4 Sj4 2 = [3] from by decide,
      show csrRow Sp4 Sj4 3 = [2] from by decide]
  simp only [List.foldl_cons, List.foldl_nil]
  norm_num [aupd, b4]

/-- Closed witness for `cljp_select_independent`: on the two 2-cycles
with distinct weights within each cycle, nodes `1` and `3` are both
selected and are not adjacent. -/
theorem cljp_select_independent_witness :
    (3 : ℤ) ∉ csrRow Sp4 Sj4 1 ∧ (3 : ℤ) ∉ csrRow Sp4 Sj4 1 := by
  have hw := cljpInitWeight4_eval
  have hw0 : (cljpInit 4 Sp4 Sj4 b4 (fun _ => 0)).weight 0 = 1 := hw.1
  have hw1 : (cljpInit 4 Sp4 Sj4 b4 (fun _ => 0)).weight 1 = 2 := hw.2.1
  have hw2 : (cljpInit 4 Sp4 Sj4 b4 (fun _ => 0)).weight 2 = 1 := hw.2.2.1
  have hw3 : (cljpInit 4 Sp4 Sj4 b4 (fun _ => 0)).weight 3 = 2 := hw.2.2.2
  have hsp : ∀ v : ℤ, 0 ≤ v → v < 4 →
      (cljpInit 4 Sp4 Sj4 b4 (fun _ => 0)).split v = U_NODE := by
    intro v h1 h2
    show (if 0 ≤ v ∧ v < 4 then U_NODE else 0) = U_NODE
    rw [if_pos ⟨h1, h2⟩]
  have hcand1 : cljpCand Sp4 Sj4 Sp4 Sj4 (cljpInit 4 Sp4 Sj4 b4 (fun _ => 0)) 1
      = true := by
    unfold cljpCand
    rw [show csrRow Sp4 Sj4 1 = [0] from by decide]
    simp only [List.all_cons, List.all_nil, Bool.and_true]
    rw [hsp 0 (by omega) (by omega), hsp 1 (by omega) (by omega), hw0, hw1]
    norm_num [U_NODE]
  have hcand3 : cljpCand Sp4 Sj4 Sp4 Sj4 (cljpInit 4 Sp4 Sj4 b4 (fun _ => 0)) 3
      = true := by
    unfold cljpCand
    rw [show csrRow Sp4 Sj4 3 = [2] from by decide]
    simp only [List.all_cons, List.all_nil, Bool.and_true]
    rw [hsp 2 (by omega) (by omega), hsp 3 (by omega) (by omega), hw2, hw3]
    norm_num [U_NODE]
  have hmem1 : (1 : ℤ) ∈ cljpDlist 4 Sp4 Sj4 Sp4 Sj4
      (cljpInit 4 Sp4 Sj4 b4 (fun _ => 0)) :=
    List.mem_filter.mpr ⟨by decide, hcand1⟩
  have hmem3 : (3 : ℤ) ∈ cljpDlist 4 Sp4 Sj4 Sp4 Sj4
      (cljpInit 4 Sp4 Sj4 b4 (fun _ => 0)) :=
    List.mem_filter.mpr ⟨by decide, hcand3⟩
  have htr : ∀ i j : ℤ, 0 ≤ i → i < 4 → 0 ≤ j → j < 4 →
      (j ∈ csrRow Sp4 Sj4 i ↔ i ∈ csrRow Sp4 Sj4 j) := by
    intro i j h1 h2 h3 h4
    have hi : i = 0 ∨ i = 1 ∨ i = 2 ∨ i = 3 := by omega
    have hj : j = 0 ∨ j = 1 ∨ j = 2 ∨ j = 3 := by omega
    rcases hi with rfl | rfl | rfl | rfl <;>
      rcases hj with rfl | rfl | rfl | rfl <;> decide
  have hwf : CSRWF 4 Sp4 Sj4 := by
    refine ⟨by decide, ?_, ?_⟩
    · intro i h1 h2
      have hi : i = 0 ∨ i = 1 ∨ i = 2 ∨ i = 3 := by omega
      rcases hi with rfl | rfl | rfl | rfl <;> decide
    · intro jj h1 h2
      have h3 : Sp4 4 = 4 := by decide
      rw [h3] at h2
      have hjj : jj = 0 ∨ jj = 1 ∨ jj = 2 ∨ jj = 3 := by omega
      rcases hjj with rfl | rfl | rfl | rfl <;> decide
  have hdist : ∀ i j : ℤ, 0 ≤ i → i < 4 → 0 ≤ j → j < 4 → i ≠ j →
      (cljpInit 4 Sp4 Sj4 b4 (fun _ => 0)).split i = U_NODE →
      (cljpInit 4 Sp4 Sj4 b4 (fun _ => 0)).split j = U_NODE →
      (j ∈ csrRow Sp4 Sj4 i ∨ j ∈ csrRow Sp4 Sj4 i) →
      (cljpInit 4 Sp4 Sj4 b4 (fun _ => 0)).weight i ≠
        (cljpInit 4 Sp4 Sj4 b4 (fun _ => 0)).weight j := by
    intro i j h1 h2 h3 h4 hij _ _ hadj
    have hadj2 : j ∈ csrRow Sp4 Sj4 i := by
      rcases hadj with h | h <;> exact h
    have hi : i = 0 ∨ i = 1 ∨ i = 2 ∨ i = 3 := by omega
    have hj : j = 0 ∨ j = 1 ∨ j = 2 ∨ j = 3 := by omega
    rcases hi with rfl | rfl | rfl | rfl <;> rcases hj with rfl | rfl | rfl | rfl <;>
      first
        | exact absurd rfl hij
        | exact absurd hadj2 (by decide)
        | (rw [hw0, hw1]; norm_num)
        | (rw [hw1, hw0]; norm_num)
        | (rw [hw2, hw3]; norm_num)
        | (rw [hw3, hw2]; norm_num)
  exact cljp_select_independent 4 Sp4 Sj4 Sp4 Sj4
    (cljpInit 4 Sp4 Sj4 b4 (fun _ => 0)) htr hwf hwf hdist
    1 hmem1 3 hmem3 (by decide)

/-! ### All labels binary after `cljp_naive_splitting` (for C2) -/

theorem cljpSweep_foldl_eval (l : List ℤ) (hnd : l.Nodup) (sp : ℤ → ℤ) (v : ℤ) :
    (l.foldl (fun sp i => if sp i = U_NODE then aupd sp i F_NODE else sp) sp) v
      = if v ∈ l ∧ sp v = U_NODE then F_NODE else sp v := by
  induction l generalizing sp with
  | nil => simp
  | cons x xs ih =>
    have hnd' : xs.Nodup := (List.nodup_cons.mp hnd).2
    have hxnot : x ∉ xs := (List.nodup_cons.mp hnd).1
    simp only [List.foldl_cons]
    rw [ih hnd']
    by_cases hv : v = x
    · subst hv
      by_cases hU : sp v = U_NODE
      · rw [if_pos hU, aupd_same]
        rw [if_neg (fun hc : _ ∈ xs ∧ _ => hxnot hc.1)]
        rw [if_pos ⟨List.mem_cons_self _ _, hU⟩]
      · rw [if_neg hU]
        rw [if_neg (fun hc : _ ∈ xs ∧ _ => hU hc.2)]
        rw [if_neg (fun hc : _ ∈ (v :: xs) ∧ _ => hU hc.2)]
    · have hsp1 : (if sp x = U_NODE then aupd sp x F_NODE else sp) v = sp v := by
        split_ifs with h
        · exact aupd_other _ _ _ hv
        · rfl
      rw [hsp1]
      by_cases hc : v ∈ xs ∧ sp v = U_NODE
      · rw [if_pos hc, if_pos ⟨List.mem_cons_of_mem _ hc.1, hc.2⟩]
      · rw [if_neg hc,
            if_neg (fun h2 : _ ∈ (x :: xs) ∧ _ =>
              hc ⟨(List.mem_cons.mp h2.1).resolve_left hv, h2.2⟩)]

theorem cljpSweep_eval (n : ℤ) (sp : ℤ → ℤ) (v : ℤ) :
    cljpSweep n sp v
      = if (0 ≤ v ∧ v < n) ∧ sp v = U_NODE then F_NODE else sp v := by
  unfold cljpSweep
  rw [cljpSweep_foldl_eval _ (irange_nodup 0 n)]
  by_cases h : v ∈ irange 0 n ∧ sp v = U_NODE
  · rw [if_pos h, if_pos ⟨mem_irange.mp h.1, h.2⟩]
  · rw [if_neg h, if_neg (fun hc => h ⟨mem_irange.mpr hc.1, hc.2⟩)]

/-- After the passes, every node of `[0,n)` is `U`, `C` or `F`; after the
sweep the `U`s are gone.  (Helper for C2; no well-formedness needed.) -/
theorem cljp_split_values (n : ℤ) (Sp Sj Tp Tj : ℤ → ℤ) (base : ℤ → ℚ) (sp0 : ℤ → ℤ)
    (v : ℤ) (h0 : 0 ≤ v) (h1 : v < n) :
    cljp_naive_splitting n Sp Sj Tp Tj base sp0 v = F_NODE ∨
      cljp_naive_splitting n Sp Sj Tp Tj base sp0 v = C_NODE := by
  have hinv : ∀ (m : ℕ) (s : CState),
      (∀ w, 0 ≤ w → w < n →
        s.split w = U_NODE ∨ s.split w = C_NODE ∨ s.split w = F_NODE) →
      (∀ w, 0 ≤ w → w < n →
        (cljpPasses n Sp Sj Tp Tj m s).split w = U_NODE ∨
        (cljpPasses n Sp Sj Tp Tj m s).split w = C_NODE ∨
        (cljpPasses n Sp Sj Tp Tj m s).split w = F_NODE) := by
    intro m
    induction m with
    | zero => intro s hs; exact hs
    | succ m ih =>
      intro s hs
      refine ih (cljpPass n Sp Sj Tp Tj s) ?_
      intro w hw0 hw1
      by_cases hch : (cljpPass n Sp Sj Tp Tj s).split w = s.split w
      · rw [hch]; exact hs w hw0 hw1
      · rcases (cljpPass_change n Sp Sj Tp Tj s w hch).2 with h | h
        · exact Or.inr (Or.inl h)
        · exact Or.inr (Or.inr h)
  have hfin := hinv n.toNat (cljpInit n Sp Sj base sp0)
    (by
      intro w hw0 hw1
      left
      unfold cljpInit
      simp only
      rw [if_pos ⟨hw0, hw1⟩])
    v h0 h1
  unfold cljp_naive_splitting
  rw [cljpSweep_eval]
  rcases hfin with h | h | h
  · rw [if_pos ⟨⟨h0, h1⟩, h⟩]; exact Or.inl rfl
  · rw [if_neg (fun hc => by rw [h] at hc; exact absurd hc.2 (by decide))]
    exact Or.inr h
  · rw [if_neg (fun hc => by rw [h] at hc; exact absurd hc.2 (by decide))]
    exact Or.inl h

/-! ## `cr_helper` — final index rebuild (ruge_stuben.h lines 950–967)

```cpp
num_Fpts = 0;            // num_Fpts is a reference to indices[0]
I next_Find = 1;
I next_Cind = n;
for (I i=0; i<n; i++) {
    if (splitting[i] == 0) {
        indices[next_Find] = i; next_Find += 1; num_Fpts += 1;
    } else {
        indices[next_Cind] = i; next_Cind -= 1;
    }
}
```
The earlier phases of `cr_helper` (candidate measure, weighted
independent set) read but never write `indices[]` beyond this rebuild,
which overwrites the packed structure entirely from the final
`splitting`; the rebuild is therefore modelled as a function of the
splitting at that point. -/

/-- The state of the rebuild loop: the `indices` array (whose slot `0`
is aliased by the reference `num_Fpts`), `next_Find` and `next_Cind`. -/
def crStep (split : ℤ → ℤ) (st : (ℤ → ℤ) × ℤ × ℤ) (i : ℤ) : (ℤ → ℤ) × ℤ × ℤ :=
  if split i = 0 then
    let idx1 := aupd st.1 st.2.1 i
    (aupd idx1 0 (idx1 0 + 1), st.2.1 + 1, st.2.2)
  else
    (aupd st.1 st.2.2 i, st.2.1, st.2.2 - 1)

/-- The index rebuild at the end of `cr_helper`. -/
def cr_reindex (n : ℤ) (split : ℤ → ℤ) (idx0 : ℤ → ℤ) : ℤ → ℤ :=
  ((irange 0 n).foldl (crStep split) (aupd idx0 0 0, 1, n)).1

theorem length_filter_add_length_filter_not (l : List ℤ) (p : ℤ → Bool) :
    (l.filter p).length + (l.filter (fun x => !(p x))).length = l.length := by
  induction l with
  | nil => rfl
  | cons x xs ih =>
    simp only [List.filter_cons]
    cases hp : p x <;> simp [hp, List.length_cons] <;> omega

/-- The loop invariant of the rebuild, after processing nodes `[0, m)`:
`next_Find`/`next_Cind` frame the written region, `indices[0]` counts the
F-points so far, positions `1..` hold the F-points in ascending order and
positions `n, n-1, ..` hold the C-points in ascending order from the top
(hence descending when the tail is read upward). -/
theorem cr_reindex_loop (n : ℤ) (split idx0 : ℤ → ℤ) :
    ∀ m : ℕ, (m : ℤ) ≤ n →
      (((irange 0 (m : ℤ)).foldl (crStep split) (aupd idx0 0 0, 1, n)).2.1
          = 1 + (((irange 0 (m : ℤ)).filter (fun v => split v = 0)).length : ℤ)) ∧
      (((irange 0 (m : ℤ)).foldl (crStep split) (aupd idx0 0 0, 1, n)).2.2
          = n - (((irange 0 (m : ℤ)).filter (fun v => !(decide (split v = 0)))).length : ℤ)) ∧
      (((irange 0 (m : ℤ)).foldl (crStep split) (aupd idx0 0 0, 1, n)).1 0
          = (((irange 0 (m : ℤ)).filter (fun v => split v = 0)).length : ℤ)) ∧
      (∀ k : ℕ, k < ((irange 0 (m : ℤ)).filter (fun v => split v = 0)).length →
        ((irange 0 (m : ℤ)).foldl (crStep split) (aupd idx0 0 0, 1, n)).1 (1 + (k : ℤ))
          = ((irange 0 (m : ℤ)).filter (fun v => split v = 0)).getD k 0) ∧
      (∀ k : ℕ, k < ((irange 0 (m : ℤ)).filter (fun v => !(decide (split v = 0)))).length →
        ((irange 0 (m : ℤ)).foldl (crStep split) (aupd idx0 0 0, 1, n)).1 (n - (k : ℤ))
          = ((irange 0 (m : ℤ)).filter (fun v => !(decide (split v = 0)))).getD k 0) := by
  intro m
  induction m with
  | zero =>
    intro _
    simp only [Nat.cast_zero, irange_empty (le_refl (0 : ℤ))]
    refine ⟨by simp, by simp, by simp [aupd], ?_, ?_⟩
    · intro k hk; simp at hk
    · intro k hk; simp at hk
  | succ m ih =>
    intro hm1
    have hmn : (m : ℤ) ≤ n := by push_cast at hm1 ⊢; omega
    obtain ⟨hF, hC, h0, hgetF, hgetC⟩ := ih hmn
    have hsplit : irange 0 ((m + 1 : ℕ) : ℤ) = irange 0 (m : ℤ) ++ [(m : ℤ)] := by
      have h' : ((m + 1 : ℕ) : ℤ) = (m : ℤ) + 1 := by push_cast; ring
      rw [h', irange_succ_right (by positivity)]
    set Fm := (irange 0 (m : ℤ)).filter (fun v => split v = 0) with hFm
    set Cm := (irange 0 (m : ℤ)).filter (fun v => !(decide (split v = 0))) with hCm
    have hsum : Fm.length + Cm.length = m := by
      have hh := length_filter_add_length_filter_not (irange 0 (m : ℤ))
        (fun v => decide (split v = 0))
      rw [length_irange] at hh
      simp only [hFm, hCm]
      omega
    set st := (irange 0 (m : ℤ)).foldl (crStep split) (aupd idx0 0 0, 1, n) with hst
    rw [hsplit, List.foldl_append]
    simp only [List.foldl_cons, List.foldl_nil]
    rw [← hst]
    by_cases hsm : split (m : ℤ) = 0
    · -- F branch: indices[next_Find] = m; next_Find++; indices[0]++
      have hstep : crStep split st (m : ℤ)
          = (aupd (aupd st.1 st.2.1 (m : ℤ)) 0 ((aupd st.1 st.2.1 (m : ℤ)) 0 + 1),
             st.2.1 + 1, st.2.2) := by
        unfold crStep
        rw [if_pos hsm]
      have hfF : (irange 0 (m : ℤ) ++ [(m : ℤ)]).filter (fun v => split v = 0)
          = Fm ++ [(m : ℤ)] := by
        rw [List.filter_append]
        simp [hsm]
      have hfC : (irange 0 (m : ℤ) ++ [(m : ℤ)]).filter (fun v => !(decide (split v = 0)))
          = Cm := by
        rw [List.filter_append]
        simp [hsm]
      have h2 : (aupd st.1 st.2.1 (m : ℤ)) 0 = st.1 0 :=
        aupd_other _ _ _ (by rw [hF]; omega)
      rw [hstep, hfF, hfC]
      refine ⟨?_, ?_, ?_, ?_, ?_⟩
      · show st.2.1 + 1 = 1 + ((Fm ++ [(m : ℤ)]).length : ℤ)
        rw [hF]
        simp only [List.length_append, List.length_singleton]
        push_cast
        ring
      · exact hC
      · show aupd (aupd st.1 st.2.1 (m : ℤ)) 0 ((aupd st.1 st.2.1 (m : ℤ)) 0 + 1) 0
            = ((Fm ++ [(m : ℤ)]).length : ℤ)
        rw [aupd_same, h2, h0]
        simp only [List.length_append, List.length_singleton]
        push_cast
        ring
      · intro k hk
        show aupd (aupd st.1 st.2.1 (m : ℤ)) 0 ((aupd st.1 st.2.1 (m : ℤ)) 0 + 1) (1 + (k : ℤ))
            = (Fm ++ [(m : ℤ)]).getD k 0
        simp only [List.length_append, List.length_singleton] at hk
        rw [aupd_other _ _ _ (by omega : (1 : ℤ) + (k : ℤ) ≠ 0)]
        by_cases hkF : k < Fm.length
        · rw [aupd_other _ _ _ (by rw [hF]; omega : (1 : ℤ) + (k : ℤ) ≠ st.2.1)]
          rw [hgetF k hkF]
          rw [List.getD_eq_getElem?_getD, List.getD_eq_getElem?_getD,
              List.getElem?_append_left hkF]
        · have hkeq : k = Fm.length := by omega
          subst hkeq
          rw [show (1 : ℤ) + (Fm.length : ℤ) = st.2.1 from by rw [hF], aupd_same]
          rw [List.getD_eq_getElem?_getD, List.getElem?_append_right (le_refl _)]
          simp
      · intro k hk
        show aupd (aupd st.1 st.2.1 (m : ℤ)) 0 ((aupd st.1 st.2.1 (m : ℤ)) 0 + 1) (n - (k : ℤ))
            = Cm.getD k 0
        have hk0 : n - (k : ℤ) ≠ 0 := by omega
        have hkF : n - (k : ℤ) ≠ st.2.1 := by
          rw [hF]
          omega
        rw [aupd_other _ _ _ hk0, aupd_other _ _ _ hkF]
        exact hgetC k hk
    · -- C branch: indices[next_Cind] = m; next_Cind--
      have hstep : crStep split st (m : ℤ) = (aupd st.1 st.2.2 (m : ℤ), st.2.1, st.2.2 - 1) := by
        unfold crStep
        rw [if_neg hsm]
      have hfF : (irange 0 (m : ℤ) ++ [(m : ℤ)]).filter (fun v => split v = 0) = Fm := by
        rw [List.filter_append]
        simp [hsm]
      have hfC : (irange 0 (m : ℤ) ++ [(m : ℤ)]).filter (fun v => !(decide (split v = 0)))
          = Cm ++ [(m : ℤ)] := by
        rw [List.filter_append]
        simp [hsm]
      rw [hstep, hfF, hfC]
      have hC2 : st.2.2 = n - (Cm.length : ℤ) := hC
      have hCne0 : st.2.2 ≠ 0 := by rw [hC2]; omega
      refine ⟨hF, ?_, ?_, ?_, ?_⟩
      · show st.2.2 - 1 = n - ((Cm ++ [(m : ℤ)]).length : ℤ)
        rw [hC2]
        simp only [List.length_append, List.length_singleton]
        push_cast
        ring
      · show aupd st.1 st.2.2 (m : ℤ) 0 = (Fm.length : ℤ)
        rw [aupd_other _ _ _ (fun hc => hCne0 hc.symm)]
        exact h0
      · intro k hk
        show aupd st.1 st.2.2 (m : ℤ) (1 + (k : ℤ)) = Fm.getD k 0
        have hne : (1 : ℤ) + (k : ℤ) ≠ st.2.2 := by
          rw [hC2]
          omega
        rw [aupd_other _ _ _ hne]
        exact hgetF k hk
      · intro k hk
        show aupd st.1 st.2.2 (m : ℤ) (n - (k : ℤ)) = (Cm ++ [(m : ℤ)]).getD k 0
        simp only [List.length_append, List.length_singleton] at hk
        by_cases hkC : k < Cm.length
        · have hne : n - (k : ℤ) ≠ st.2.2 := by
            rw [hC2]
            omega
          rw [aupd_other _ _ _ hne, hgetC k hkC]
          rw [List.getD_eq_getElem?_getD, List.getD_eq_getElem?_getD,
              List.getElem?_append_left hkC]
        · have hkeq : k = Cm.length := by omega
          subst hkeq
          rw [show n - (Cm.length : ℤ) = st.2.2 from by rw [hC2], aupd_same]
          rw [List.getD_eq_getElem?_getD, List.getElem?_append_right (le_refl _)]
          simp

/-- **C9.**  On exit from `cr_helper`, the rebuilt packed `indices[]`
satisfies: `indices[0]` is the number of nodes with `splitting = 0`;
positions `1 .. indices[0]` list those nodes in ascending node order; and
the tail positions `indices[0]+1 .. n` list the nodes with
`splitting = 1` in descending node order.  (The rebuild overwrites
`indices[]` entirely from the final splitting, so it is stated for an
arbitrary `{0,1}`-valued splitting.) -/
theorem cr_helper_reindex_spec (n : ℤ) (split idx0 : ℤ → ℤ) (hn : 0 ≤ n)
    (hs : ∀ v, 0 ≤ v → v < n → split v = 0 ∨ split v = 1) :
    cr_reindex n split idx0 0
        = (((irange 0 n).filter (fun v => split v = 0)).length : ℤ) ∧
    (∀ k : ℕ, k < ((irange 0 n).filter (fun v => split v = 0)).length →
      cr_reindex n split idx0 (1 + (k : ℤ))
        = ((irange 0 n).filter (fun v => split v = 0)).getD k 0) ∧
    (∀ j : ℕ, j < ((irange 0 n).filter (fun v => split v = 1)).length →
      cr_reindex n split idx0
          ((((irange 0 n).filter (fun v => split v = 0)).length : ℤ) + 1 + (j : ℤ))
        = ((irange 0 n).filter (fun v => split v = 1)).reverse.getD j 0) := by
  have hcast : ((n.toNat : ℕ) : ℤ) = n := by omega
  have hloop := cr_reindex_loop n split idx0 n.toNat (by omega)
  rw [hcast] at hloop
  obtain ⟨hF, hC, h0, hgetF, hgetC⟩ := hloop
  have hCeq : (irange 0 n).filter (fun v => split v = 1)
      = (irange 0 n).filter (fun v => !(decide (split v = 0))) := by
    apply List.filter_congr
    intro v hv
    rw [mem_irange] at hv
    rcases hs v hv.1 hv.2 with h | h <;> simp [h]
  have hsum : ((irange 0 n).filter (fun v => split v = 0)).length
      + ((irange 0 n).filter (fun v => !(decide (split v = 0)))).length = n.toNat := by
    have hh := length_filter_add_length_filter_not (irange 0 n)
      (fun v => decide (split v = 0))
    rw [length_irange] at hh
    omega
  refine ⟨h0, hgetF, ?_⟩
  intro j hj
  rw [hCeq] at hj
  rw [hCeq]
  set C := (irange 0 n).filter (fun v => !(decide (split v = 0))) with hCdef
  set F := (irange 0 n).filter (fun v => split v = 0) with hFdef
  have hk := hgetC (C.length - 1 - j) (by omega)
  have hpos : n - ((C.length - 1 - j : ℕ) : ℤ) = (F.length : ℤ) + 1 + (j : ℤ) := by
    have h1 : (F.length : ℤ) + (C.length : ℤ) = n := by
      push_cast at hsum ⊢
      omega
    push_cast
    omega
  rw [hpos] at hk
  have hrev : C.reverse.getD j 0 = C.getD (C.length - 1 - j) 0 := by
    have hj' : j < C.reverse.length := by simpa using hj
    rw [List.getD_eq_getElem _ _ hj', List.getD_eq_getElem _ _ (by omega)]
    rw [List.getElem_reverse]
  show (List.foldl (crStep split) (aupd idx0 0 0, 1, n) (irange 0 n)).1
      ((F.length : ℤ) + 1 + (j : ℤ)) = C.reverse.getD j 0
  rw [hk]
  exact hrev.symm

/-- Closed witness for `cr_helper_reindex_spec` on `n = 3`,
`splitting = [0, 1, 0]`: `indices = [2, 0, 2, 1]` — two F-points `0, 2`
ascending, then the C-point `1`. -/
theorem cr_helper_reindex_spec_witness :
    (cr_reindex 3 (fun v => if v = 1 then 1 else 0) (fun _ => 7) 0
        = ((((irange 0 3).filter (fun v => (if v = (1:ℤ) then (1:ℤ) else 0) = 0)).length : ℕ) : ℤ) ∧
      (∀ k : ℕ, k < ((irange 0 3).filter (fun v => (if v = (1:ℤ) then (1:ℤ) else 0) = 0)).length →
        cr_reindex 3 (fun v => if v = 1 then 1 else 0) (fun _ => 7) (1 + (k : ℤ))
          = ((irange 0 3).filter (fun v => (if v = (1:ℤ) then (1:ℤ) else 0) = 0)).getD k 0) ∧
      (∀ j : ℕ, j < ((irange 0 3).filter (fun v => (if v = (1:ℤ) then (1:ℤ) else 0) = 1)).length →
        cr_reindex 3 (fun v => if v = 1 then 1 else 0) (fun _ => 7)
            (((((irange 0 3).filter (fun v => (if v = (1:ℤ) then (1:ℤ) else 0) = 0)).length : ℕ) : ℤ) + 1 + (j : ℤ))
          = ((irange 0 3).filter (fun v => (if v = (1:ℤ) then (1:ℤ) else 0) = 1)).reverse.getD j 0)) :=
  cr_helper_reindex_spec 3 (fun v => if v = 1 then 1 else 0) (fun _ => 7) (by omega)
    (fun v _ _ => by by_cases hv : v = (1:ℤ) <;> simp [hv])

/-! ## `rs_direct_interpolation_pass2` (ruge_stuben.h lines 587–663)

Row-local computation; rows of `A` and `S` are consumed in parallel and
the coarse-column remap (lines 655–662) is applied to every produced
entry. -/

/-- The strong-sum loop (lines 606–614): returns
`(sum_strong_neg, sum_strong_pos)` over the off-diagonal C-point entries
of the `S`-row. -/
def directSums (split : ℤ → ℤ) (i : ℤ) (Srow : Row) : ℚ × ℚ :=
  Srow.foldl
    (fun acc e =>
      if split e.1 = C_NODE ∧ e.1 ≠ i then
        if e.2 < 0 then (acc.1 + e.2, acc.2) else (acc.1, acc.2 + e.2)
      else acc)
    (0, 0)

/-- The `A`-row loop (lines 616–627): returns
`(diag, sum_all_neg, sum_all_pos)`. -/
def directASums (i : ℤ) (Arow : Row) : ℚ × ℚ × ℚ :=
  Arow.foldl
    (fun acc e =>
      if e.1 = i then (acc.1 + e.2, acc.2.1, acc.2.2)
      else if e.2 < 0 then (acc.1, acc.2.1 + e.2, acc.2.2)
      else (acc.1, acc.2.1, acc.2.2 + e.2))
    (0, 0, 0)

/-- `alpha = sum_all_neg / sum_strong_neg` (line 629). -/
def directAlpha (split : ℤ → ℤ) (i : ℤ) (Arow Srow : Row) : ℚ :=
  (directASums i Arow).2.1 / (directSums split i Srow).1

/-- `beta` after the `sum_strong_pos == 0` override (lines 630, 632–635):
the `0/0` the C++ computes first in that branch is discarded by the
override, so only the override is observable. -/
def directBeta (split : ℤ → ℤ) (i : ℤ) (Arow Srow : Row) : ℚ :=
  if (directSums split i Srow).2 = 0 then 0
  else (directASums i Arow).2.2 / (directSums split i Srow).2

/-- `diag` after the `sum_strong_pos == 0` adjustment (lines 617, 632–635). -/
def directDiag (split : ℤ → ℤ) (i : ℤ) (Arow Srow : Row) : ℚ :=
  if (directSums split i Srow).2 = 0 then
    (directASums i Arow).1 + (directASums i Arow).2.2
  else (directASums i Arow).1

/-- One row of the second pass, before the coarse-column remap
(lines 601–652).  Division by zero is `0` in `ℚ`; the C++ code lets IEEE
non-finite values propagate there (spec §4.4/§7). -/
def directRow (split : ℤ → ℤ) (i : ℤ) (Arow Srow : Row) : Row :=
  if split i = C_NODE then [(i, 1)]
  else
    Srow.foldl
      (fun acc e =>
        if split e.1 = C_NODE ∧ e.1 ≠ i then
          acc ++ [(e.1,
            if e.2 < 0 then
              (-directAlpha split i Arow Srow / directDiag split i Arow Srow) * e.2
            else
              (-directBeta split i Arow Srow / directDiag split i Arow Srow) * e.2)]
        else acc)
      []

/-- The coarse-index map (lines 655–659): `map[j] = Σ_{k<j} splitting[k]`. -/
def cmap (split : ℤ → ℤ) (j : ℤ) : ℤ :=
  ((irange 0 j).map split).sum

/-- `rs_direct_interpolation_pass2`: per-row production followed by the
coarse-column remap of every produced column index. -/
def rs_direct_interpolation_pass2 (split : ℤ → ℤ) (A S : Mat) : Mat :=
  (A.zip S).enum.map
    (fun p => (directRow split (p.1 : ℤ) p.2.1 p.2.2).map
      (fun e => (cmap split e.1, e.2)))

theorem foldl_filter_map {α β : Type} (p : α → Prop) [DecidablePred p] (f : α → β)
    (l : List α) (acc : List β) :
    l.foldl (fun acc e => if p e then acc ++ [f e] else acc) acc
      = acc ++ (l.filter (fun e => decide (p e))).map f := by
  induction l generalizing acc with
  | nil => simp
  | cons x xs ih =>
    simp only [List.foldl_cons, List.filter_cons]
    by_cases hp : p x
    · rw [if_pos hp, ih]
      simp [hp]
    · rw [if_neg hp, ih]
      simp [hp]

/-- Characterisation of a non-C row of `rs_direct_interpolation_pass2`
(helper for C5). -/
theorem directRow_characterization (split : ℤ → ℤ) (A S : Mat) (i : ℕ)
    (hiA : i < A.length) (hiS : i < S.length) (hC : split (i : ℤ) ≠ C_NODE) :
    ((directSums split (i : ℤ) (S.getD i [])).2 = 0 →
        directBeta split (i : ℤ) (A.getD i []) (S.getD i []) = 0 ∧
        directDiag split (i : ℤ) (A.getD i []) (S.getD i [])
          = (directASums (i : ℤ) (A.getD i [])).1
            + (directASums (i : ℤ) (A.getD i [])).2.2) ∧
    (rs_direct_interpolation_pass2 split A S).getD i []
      = ((S.getD i []).filter
            (fun e => decide (split e.1 = C_NODE ∧ e.1 ≠ (i : ℤ)))).map
          (fun e =>
            (cmap split e.1,
             if e.2 < 0 then
               -(directAlpha split (i : ℤ) (A.getD i []) (S.getD i [])) * e.2
                 / directDiag split (i : ℤ) (A.getD i []) (S.getD i [])
             else
               -(directBeta split (i : ℤ) (A.getD i []) (S.getD i [])) * e.2
                 / directDiag split (i : ℤ) (A.getD i []) (S.getD i []))) := by
  constructor
  · intro hz
    unfold directBeta directDiag
    rw [if_pos hz, if_pos hz]
    exact ⟨rfl, rfl⟩
  have hlen : i < (A.zip S).length := by
    rw [List.length_zip]
    omega
  unfold rs_direct_interpolation_pass2
  rw [getD_enum_map (A.zip S)
    (fun p => (directRow split (p.1 : ℤ) p.2.1 p.2.2).map
      (fun e => (cmap split e.1, e.2))) i hlen [] ([], [])]
  have hzip : (A.zip S).getD i ([], []) = (A.getD i [], S.getD i []) := by
    rw [List.getD_eq_getElem _ _ hlen, List.getD_eq_getElem _ _ hiA,
        List.getD_eq_getElem _ _ hiS]
    exact List.getElem_zip
  rw [hzip]
  show ((directRow split (i : ℤ) (A.getD i []) (S.getD i [])).map
      (fun e => (cmap split e.1, e.2))) = _
  unfold directRow
  rw [if_neg hC]
  rw [foldl_filter_map (fun e : ℤ × ℚ => split e.1 = C_NODE ∧ e.1 ≠ (i : ℤ))
    (fun e : ℤ × ℚ =>
      (e.1,
       if e.2 < 0 then
         (-directAlpha split (i : ℤ) (A.getD i []) (S.getD i [])
            / directDiag split (i : ℤ) (A.getD i []) (S.getD i [])) * e.2
       else
         (-directBeta split (i : ℤ) (A.getD i []) (S.getD i [])
            / directDiag split (i : ℤ) (A.getD i []) (S.getD i [])) * e.2))
    (S.getD i []) []]
  rw [List.nil_append, List.map_map]
  apply List.map_congr_left
  intro e _
  simp only [Function.comp_apply]
  by_cases hneg : e.2 < 0
  · rw [if_pos hneg, if_pos hneg]
    refine congrArg (fun q => ((cmap split e.1 : ℤ), q)) ?_
    ring
  · rw [if_neg hneg, if_neg hneg]
    refine congrArg (fun q => ((cmap split e.1 : ℤ), q)) ?_
    ring

/-- The concrete scenario S4 (helper for C5): `A`-row
`{(i,i):4, (i,j):−2}`, `S`-row `{(i,j):−2, (i,i):4}`,
`splitting = [F, C]` — the produced row of `P` is the single value `1/2`
at column `map(j) = 0`. -/
theorem directRow_S4 :
    (rs_direct_interpolation_pass2 (fun v => if v = 1 then C_NODE else F_NODE)
        [[(0, 4), (1, -2)], [(1, 1)]] [[(1, -2), (0, 4)], [(1, 1)]]).getD 0 []
      = [(0, 1/2)] := by
  have h := (directRow_characterization (fun v => if v = 1 then C_NODE else F_NODE)
    [[(0, 4), (1, -2)], [(1, 1)]] [[(1, -2), (0, 4)], [(1, 1)]] 0
    (by norm_num) (by norm_num) (by norm_num [C_NODE, F_NODE])).2
  rw [h]
  have hfil : (([[(1, -2), (0, 4)], [(1, 1)]] : Mat).getD 0 []).filter
      (fun e => decide ((fun v : ℤ => if v = 1 then C_NODE else F_NODE) e.1 = C_NODE
        ∧ e.1 ≠ ((0 : ℕ) : ℤ)))
      = [((1 : ℤ), (-2 : ℚ))] := by
    decide
  rw [hfil]
  have hsums : directSums (fun v => if v = 1 then C_NODE else F_NODE) ((0 : ℕ) : ℤ)
      (([[(1, -2), (0, 4)], [(1, 1)]] : Mat).getD 0 []) = (-2, 0) := by
    unfold directSums
    norm_num [C_NODE, F_NODE]
  have hasums : directASums ((0 : ℕ) : ℤ)
      (([[(0, 4), (1, -2)], [(1, 1)]] : Mat).getD 0 []) = (4, -2, 0) := by
    unfold directASums
    norm_num
  have halpha : directAlpha (fun v => if v = 1 then C_NODE else F_NODE) ((0 : ℕ) : ℤ)
      (([[(0, 4), (1, -2)], [(1, 1)]] : Mat).getD 0 [])
      (([[(1, -2), (0, 4)], [(1, 1)]] : Mat).getD 0 []) = 1 := by
    unfold directAlpha
    rw [hsums, hasums]
    norm_num
  have hdiag : directDiag (fun v => if v = 1 then C_NODE else F_NODE) ((0 : ℕ) : ℤ)
      (([[(0, 4), (1, -2)], [(1, 1)]] : Mat).getD 0 [])
      (([[(1, -2), (0, 4)], [(1, 1)]] : Mat).getD 0 []) = 4 := by
    unfold directDiag
    rw [hsums, hasums]
    norm_num
  have hmap : cmap (fun v => if v = 1 then C_NODE else F_NODE) 1 = 0 := by
    unfold cmap
    rw [show irange 0 1 = [0] from by decide]
    norm_num [F_NODE]
  simp only [List.map_cons, List.map_nil]
  rw [halpha, hdiag, hmap]
  norm_num

/-- **C5.**  For every non-C row `i` of `rs_direct_interpolation_pass2`:
when `sum_strong_pos = 0`, `β` is `0` and `sum_all_pos` is added to the
diagonal before dividing; the row consists of one entry per strong
off-diagonal C-neighbour `j`, in `S`-row order, at remapped column
`map(j)`, with value `−α·Sx[jj]/diag` when `Sx[jj] < 0` and
`−β·Sx[jj]/diag` otherwise.  In particular, on the concrete scenario S4
the produced row of `P` is the single value `1/2` at column `map(j)`. -/
theorem rs_direct_pass2_spec :
    (∀ (split : ℤ → ℤ) (A S : Mat) (i : ℕ),
      i < A.length → i < S.length → split (i : ℤ) ≠ C_NODE →
      ((directSums split (i : ℤ) (S.getD i [])).2 = 0 →
          directBeta split (i : ℤ) (A.getD i []) (S.getD i []) = 0 ∧
          directDiag split (i : ℤ) (A.getD i []) (S.getD i [])
            = (directASums (i : ℤ) (A.getD i [])).1
              + (directASums (i : ℤ) (A.getD i [])).2.2) ∧
      (rs_direct_interpolation_pass2 split A S).getD i []
        = ((S.getD i []).filter
              (fun e => decide (split e.1 = C_NODE ∧ e.1 ≠ (i : ℤ)))).map
            (fun e =>
              (cmap split e.1,
               if e.2 < 0 then
                 -(directAlpha split (i : ℤ) (A.getD i []) (S.getD i [])) * e.2
                   / directDiag split (i : ℤ) (A.getD i []) (S.getD i [])
               else
                 -(directBeta split (i : ℤ) (A.getD i []) (S.getD i [])) * e.2
                   / directDiag split (i : ℤ) (A.getD i []) (S.getD i [])))) ∧
    (rs_direct_interpolation_pass2 (fun v => if v = 1 then C_NODE else F_NODE)
        [[(0, 4), (1, -2)], [(1, 1)]] [[(1, -2), (0, 4)], [(1, 1)]]).getD 0 []
      = [(0, 1/2)] :=
  ⟨directRow_characterization, directRow_S4⟩

/-- Closed witness for `rs_direct_pass2_spec`, instantiated at the S4
data. -/
theorem rs_direct_pass2_row_witness :
    ((directSums (fun v => if v = 1 then C_NODE else F_NODE) ((0 : ℕ) : ℤ)
        (([[(1, -2), (0, 4)], [(1, 1)]] : Mat).getD 0 [])).2 = 0 →
      directBeta (fun v => if v = 1 then C_NODE else F_NODE) ((0 : ℕ) : ℤ)
          (([[(0, 4), (1, -2)], [(1, 1)]] : Mat).getD 0 [])
          (([[(1, -2), (0, 4)], [(1, 1)]] : Mat).getD 0 []) = 0 ∧
      directDiag (fun v => if v = 1 then C_NODE else F_NODE) ((0 : ℕ) : ℤ)
          (([[(0, 4), (1, -2)], [(1, 1)]] : Mat).getD 0 [])
          (([[(1, -2), (0, 4)], [(1, 1)]] : Mat).getD 0 [])
        = (directASums ((0 : ℕ) : ℤ) (([[(0, 4), (1, -2)], [(1, 1)]] : Mat).getD 0 [])).1
          + (directASums ((0 : ℕ) : ℤ) (([[(0, 4), (1, -2)], [(1, 1)]] : Mat).getD 0 [])).2.2) ∧
    (rs_direct_interpolation_pass2 (fun v => if v = 1 then C_NODE else F_NODE)
        [[(0, 4), (1, -2)], [(1, 1)]] [[(1, -2), (0, 4)], [(1, 1)]]).getD 0 []
      = ((([[(1, -2), (0, 4)], [(1, 1)]] : Mat).getD 0 []).filter
            (fun e => decide ((fun v : ℤ => if v = 1 then C_NODE else F_NODE) e.1 = C_NODE
              ∧ e.1 ≠ ((0 : ℕ) : ℤ)))).map
          (fun e =>
            (cmap (fun v => if v = 1 then C_NODE else F_NODE) e.1,
             if e.2 < 0 then
               -(directAlpha (fun v => if v = 1 then C_NODE else F_NODE) ((0 : ℕ) : ℤ)
                   (([[(0, 4), (1, -2)], [(1, 1)]] : Mat).getD 0 [])
                   (([[(1, -2), (0, 4)], [(1, 1)]] : Mat).getD 0 [])) * e.2
                 / directDiag (fun v => if v = 1 then C_NODE else F_NODE) ((0 : ℕ) : ℤ)
                   (([[(0, 4), (1, -2)], [(1, 1)]] : Mat).getD 0 [])
                   (([[(1, -2), (0, 4)], [(1, 1)]] : Mat).getD 0 [])
             else
               -(directBeta (fun v => if v = 1 then C_NODE else F_NODE) ((0 : ℕ) : ℤ)
                   (([[(0, 4), (1, -2)], [(1, 1)]] : Mat).getD 0 [])
                   (([[(1, -2), (0, 4)], [(1, 1)]] : Mat).getD 0 [])) * e.2
                 / directDiag (fun v => if v = 1 then C_NODE else F_NODE) ((0 : ℕ) : ℤ)
                   (([[(0, 4), (1, -2)], [(1, 1)]] : Mat).getD 0 [])
                   (([[(1, -2), (0, 4)], [(1, 1)]] : Mat).getD 0 []))) :=
  rs_direct_pass2_spec.1 (fun v => if v = 1 then C_NODE else F_NODE)
    [[(0, 4), (1, -2)], [(1, 1)]] [[(1, -2), (0, 4)], [(1, 1)]] 0
    (by norm_num) (by norm_num) (by norm_num [C_NODE, F_NODE])

/-! ## `approx_ideal_restriction_pass1` / `pass2` (ruge_stuben.h lines 971–1113)

Rows of `C` are indexed by node id (`ℕ` here, as list indices); `Cpts`
lists the C-point row ids.  `least_squares` (linalg.h) is external to
this source: it is modelled as an arbitrary solver parameter `ls`
returning the `size_N` solution values, which is all the claims about
these passes depend on. -/

/-- Models the C++ double literal `1e-16` (the threshold on `|C_data|`);
the claims do not depend on its exact value, only on `0 < eps16`. -/
def eps16 : ℚ := 1 / 10 ^ (16 : ℕ)

/-- The strength test of both passes:
`splitting[C_colinds[i]] == F_NODE && std::abs(C_data[i]) > 1e-16`. -/
def airStrong (split : ℤ → ℤ) (e : ℤ × ℚ) : Bool :=
  decide (split e.1 = F_NODE) && decide (|e.2| > eps16)

/-- The `(position, value)` neighborhood list of pass 1 (lines 996–1001),
positions being in-row storage positions. -/
def airNbhd (split : ℤ → ℤ) (row : Row) : List (ℕ × ℚ) :=
  row.enum.filterMap
    (fun p => if airStrong split p.2 then some (p.1, p.2.2) else none)

/-- `C_data[neighborhood[i].first] = 0` (line 1010): zero the value at a
stored position, keeping the column index. -/
def airZap (r : Row) (p : ℕ × ℚ) : Row :=
  r.set p.1 ((r.getD p.1 (0, 0)).1, 0)

/-- Pass 1 for one C-point row (lines 991–1016): when the neighborhood
exceeds `max_row`, sort it ascending by value (`std::sort` on the second
component) and zero the weakest `size - max_row` entries in place;
return the mutated row and `min(size, max_row)`. -/
def airRow1 (split : ℤ → ℤ) (max_row : ℕ) (row : Row) : Row × ℕ :=
  let nb := airNbhd split row
  let size := nb.length
  if max_row < size then
    (((nb.mergeSort (fun a b => decide (a.2 < b.2))).drop max_row).foldl airZap row,
     max_row)
  else (row, size)

/-- One iteration of pass 1's outer loop over C-points: mutate the
C-point's row and append the updated `nnz` to the row pointer. -/
def airStep (split : ℤ → ℤ) (max_row : ℕ) (st : Mat × List ℕ × ℕ)
    (cpoint : ℕ) : Mat × List ℕ × ℕ :=
  let pr := airRow1 split max_row (st.1.getD cpoint [])
  (st.1.set cpoint pr.1, st.2.1 ++ [st.2.2 + 1 + pr.2], st.2.2 + 1 + pr.2)

/-- `approx_ideal_restriction_pass1`: threads the mutated `C` through the
C-point rows and accumulates the row pointer `[0, nnz₁, nnz₂, …]` with
`nnz += 1 + min(size, max_row)` per row. -/
def approx_ideal_restriction_pass1 (split : ℤ → ℤ) (max_row : ℕ) (C : Mat)
    (Cpts : List ℕ) : Mat × List ℕ × ℕ :=
  Cpts.foldl (airStep split max_row) (C, [0], 0)

/-- First-match lookup of `A[r,c]`, `0` when absent (the `found_ind`
search loops of pass 2). -/
def alookup (A : Mat) (r : ℤ) (c : ℤ) : ℚ :=
  ((A.getD r.toNat []).find? (fun e => decide (e.1 = c))).elim 0 (fun e => e.2)

/-- Pass 2 for one C-point row (lines 1034–1112): columns are the
strongly connected F-points of the (mutated) `C`-row; the dense local
system `A0` (column-major: column `j` is `A`-row `cols[j]` restricted to
`cols`) and right-hand side `b0 = A[cp, cols[·]]` feed the external
solver, whose `size_N` values fill the row, followed by the identity
entry `(cp, 1)`. -/
def airRow2 (ls : List ℚ → List ℚ → ℕ → List ℚ) (split : ℤ → ℤ)
    (A Cm : Mat) (cpoint : ℕ) : Row :=
  let cols : List ℤ := ((Cm.getD cpoint []).filter (airStrong split)).map (fun e => e.1)
  let A0 : List ℚ := cols.bind (fun cj => cols.map (fun ci => alookup A cj ci))
  let b0 : List ℚ := cols.map (fun ci => alookup A (cpoint : ℤ) ci)
  (cols.zip (ls A0 b0 cols.length)) ++ [((cpoint : ℤ), 1)]

/-- `approx_ideal_restriction_pass2` over all C-point rows. -/
def approx_ideal_restriction_pass2 (ls : List ℚ → List ℚ → ℕ → List ℚ)
    (split : ℤ → ℤ) (A Cm : Mat) (Cpts : List ℕ) : Mat :=
  Cpts.map (fun cp => airRow2 ls split A Cm cp)

/-- The strong-entry count of a row. -/
def strongCount (split : ℤ → ℤ) (row : Row) : ℕ :=
  (row.filter (airStrong split)).length

theorem eps16_pos : 0 < eps16 := by
  unfold eps16
  positivity

theorem airStrong_zero (split : ℤ → ℤ) (c : ℤ) : airStrong split (c, 0) = false := by
  show (decide (split c = F_NODE) && decide (|(0:ℚ)| > eps16)) = false
  have h2 : decide (|(0:ℚ)| > eps16) = false := by
    simp only [abs_zero, gt_iff_lt, decide_eq_false_iff_not, not_lt]
    exact le_of_lt eps16_pos
  rw [h2, Bool.and_false]

theorem strongCount_set (split : ℤ → ℤ) :
    ∀ (row : Row) (q : ℕ) (v : ℤ × ℚ) (hq : q < row.length),
      strongCount split (row.set q v)
          + (if airStrong split (row.get ⟨q, hq⟩) = true then 1 else 0)
        = strongCount split row + (if airStrong split v = true then 1 else 0) := by
  intro row
  induction row with
  | nil => intro q v hq; cases hq
  | cons x xs ih =>
    intro q v hq
    cases q with
    | zero =>
      simp only [List.set_cons_zero, List.get_cons_zero]
      unfold strongCount
      simp only [List.filter_cons]
      cases hx : airStrong split x <;> cases hv : airStrong split v <;>
        simp [hx, hv] <;> omega
    | succ q =>
      have hq' : q < xs.length := by simpa using hq
      have := ih q v hq'
      simp only [List.set_cons_succ]
      unfold strongCount at this ⊢
      simp only [List.filter_cons, List.get_cons_succ]
      cases hx : airStrong split x
      · simpa [hx] using this
      · simp only [hx, if_true, List.length_cons]
        omega

theorem airNbhd_mem {split : ℤ → ℤ} {row : Row} {q : ℕ} {w : ℚ}
    (h : (q, w) ∈ airNbhd split row) :
    ∃ hq : q < row.length, airStrong split (row.get ⟨q, hq⟩) = true := by
  unfold airNbhd at h
  rcases List.mem_filterMap.mp h with ⟨p, hp, heq⟩
  by_cases hs : airStrong split p.2 = true
  · rw [if_pos hs] at heq
    have hfst : p.1 = q := congrArg Prod.fst (Option.some.inj heq)
    have hget : row.get? p.1 = some p.2 := List.mem_enum_iff_get?.mp hp
    have hlt : p.1 < row.length := (List.get?_eq_some.mp hget).1
    obtain ⟨hb, hv⟩ := List.get?_eq_some.mp hget
    refine ⟨hfst ▸ hb, ?_⟩
    subst hfst
    rw [hv]
    exact hs
  · rw [if_neg hs] at heq
    cases heq

theorem airNbhd_fst_sublist (split : ℤ → ℤ) (l : List (ℕ × (ℤ × ℚ))) :
    List.Sublist
      ((l.filterMap
        (fun p => if airStrong split p.2 then some (p.1, p.2.2) else none)).map Prod.fst)
      (l.map Prod.fst) := by
  induction l with
  | nil => simp
  | cons x xs ih =>
    simp only [List.filterMap_cons, List.map_cons]
    by_cases hs : airStrong split x.2 = true
    · rw [if_pos hs]
      simp only [List.map_cons]
      exact List.Sublist.cons₂ _ ih
    · rw [if_neg hs]
      exact List.Sublist.cons _ ih

theorem airNbhd_fst_nodup (split : ℤ → ℤ) (row : Row) :
    ((airNbhd split row).map Prod.fst).Nodup := by
  have hsub := airNbhd_fst_sublist split row.enum
  have henum : row.enum.map Prod.fst = List.range row.length := List.enum_map_fst row
  rw [henum] at hsub
  exact hsub.nodup (List.nodup_range _)

theorem airNbhd_length (split : ℤ → ℤ) (row : Row) :
    (airNbhd split row).length = strongCount split row := by
  unfold airNbhd strongCount
  have : ∀ l : List (ℕ × (ℤ × ℚ)),
      (l.filterMap
        (fun p => if airStrong split p.2 then some (p.1, p.2.2) else none)).length
        = (l.filter (fun p => airStrong split p.2)).length := by
    intro l
    induction l with
    | nil => rfl
    | cons x xs ih =>
      simp only [List.filterMap_cons, List.filter_cons]
      by_cases hs : airStrong split x.2 = true
      · rw [if_pos hs, hs]
        simp [ih]
      · rw [if_neg hs]
        rw [Bool.not_eq_true] at hs
        rw [hs]
        simpa using ih
  rw [this row.enum]
  have : ∀ (n : ℕ) (l : Row),
      ((List.enumFrom n l).filter (fun p => airStrong split p.2)).length
        = (l.filter (airStrong split)).length := by
    intro n l
    induction l generalizing n with
    | nil => rfl
    | cons x xs ih =>
      simp only [List.enumFrom, List.filter_cons]
      cases hs : airStrong split x <;> simp [hs, ih]
  exact this 0 row

theorem airZap_fold (split : ℤ → ℤ) :
    ∀ (L : List (ℕ × ℚ)) (row : Row),
      (L.map Prod.fst).Nodup →
      (∀ p ∈ L, ∃ hq : p.1 < row.length, airStrong split (row.get ⟨p.1, hq⟩) = true) →
      strongCount split (L.foldl airZap row) + L.length = strongCount split row ∧
      (L.foldl airZap row).length = row.length := by
  intro L
  induction L with
  | nil => intro row _ _; simp
  | cons p L' ih =>
    intro row hnd hmem
    obtain ⟨hq, hstrong⟩ := hmem p (List.mem_cons_self _ _)
    have hrow' : airZap row p = row.set p.1 ((row.get ⟨p.1, hq⟩).1, 0) := by
      unfold airZap
      rw [List.getD_eq_getElem _ _ hq]
      rfl
    have hcount : strongCount split (airZap row p) + 1 = strongCount split row := by
      rw [hrow']
      have := strongCount_set split row p.1 ((row.get ⟨p.1, hq⟩).1, 0) hq
      rw [if_pos hstrong, airStrong_zero] at this
      simpa using this
    have hlen : (airZap row p).length = row.length := by
      rw [hrow', List.length_set]
    have hnd' : (L'.map Prod.fst).Nodup := (List.nodup_cons.mp (by simpa using hnd)).2
    have hfst : p.1 ∉ L'.map Prod.fst := (List.nodup_cons.mp (by simpa using hnd)).1
    have hmem' : ∀ p' ∈ L', ∃ hq' : p'.1 < (airZap row p).length,
        airStrong split ((airZap row p).get ⟨p'.1, hq'⟩) = true := by
      intro p' hp'
      obtain ⟨hq', hs'⟩ := hmem p' (List.mem_cons_of_mem _ hp')
      have hne : p'.1 ≠ p.1 := by
        intro hc
        exact hfst (hc ▸ List.mem_map_of_mem Prod.fst hp')
      refine ⟨by rw [hlen]; exact hq', ?_⟩
      have hb : p'.1 < (airZap row p).length := by rw [hlen]; exact hq'
      have hget : (airZap row p).get? p'.1 = row.get? p'.1 := by
        rw [hrow']
        exact List.get?_set_ne _ _ (by omega)
      have h1 : (airZap row p).get? p'.1 = some ((airZap row p).get ⟨p'.1, hb⟩) :=
        List.get?_eq_get hb
      have h2 : row.get? p'.1 = some (row.get ⟨p'.1, hq'⟩) := List.get?_eq_get hq'
      have : (airZap row p).get ⟨p'.1, hb⟩ = row.get ⟨p'.1, hq'⟩ := by
        have := h1.symm.trans (hget.trans h2)
        exact Option.some.inj this
      rw [this]
      exact hs'
    simp only [List.foldl_cons]
    obtain ⟨hc, hl⟩ := ih (airZap row p) hnd' hmem'
    constructor
    · rw [List.length_cons]
      omega
    · rw [hl, hlen]

/-- After pass 1's per-row mutation, exactly `min(|N_f|, max_row)` strong
entries survive, and the reported count equals the same quantity. -/
theorem airRow1_count (split : ℤ → ℤ) (max_row : ℕ) (row : Row) :
    strongCount split (airRow1 split max_row row).1
        = min (strongCount split row) max_row ∧
      (airRow1 split max_row row).2 = min (strongCount split row) max_row := by
  unfold airRow1
  by_cases hgt : max_row < (airNbhd split row).length
  · rw [if_pos hgt]
    set nb := airNbhd split row with hnb
    set sorted := nb.mergeSort (fun a b => decide (a.2 < b.2)) with hsorted
    have hperm : List.Perm sorted nb := List.mergeSort_perm nb _
    set L := sorted.drop max_row with hL
    have hLsub : ∀ p ∈ L, p ∈ nb := by
      intro p hp
      exact hperm.mem_iff.mp ((List.drop_sublist _ _).subset hp)
    have hnd : (L.map Prod.fst).Nodup := by
      have h1 : (sorted.map Prod.fst).Nodup :=
        (hperm.map Prod.fst).nodup_iff.mpr (airNbhd_fst_nodup split row)
      have h2 : L.map Prod.fst = (sorted.map Prod.fst).drop max_row := by
        rw [hL, List.map_drop]
      rw [h2]
      exact (List.drop_sublist _ _).nodup h1
    have hmem : ∀ p ∈ L, ∃ hq : p.1 < row.length,
        airStrong split (row.get ⟨p.1, hq⟩) = true := by
      intro p hp
      have : (p.1, p.2) ∈ airNbhd split row := hLsub p hp
      exact airNbhd_mem this
    obtain ⟨hc, _⟩ := airZap_fold split L row hnd hmem
    have hLlen : L.length = nb.length - max_row := by
      rw [hL, List.length_drop, hperm.length_eq]
    have hsize : nb.length = strongCount split row := airNbhd_length split row
    constructor
    · rw [hsize] at hLlen hgt
      rw [min_eq_right (le_of_lt hgt)]
      show strongCount split (L.foldl airZap row) = max_row
      omega
    · rw [hsize] at hgt
      rw [min_eq_right (le_of_lt hgt)]
  · rw [if_neg hgt]
    have hsize : (airNbhd split row).length = strongCount split row :=
      airNbhd_length split row
    rw [not_lt] at hgt
    rw [hsize] at hgt
    exact ⟨by rw [min_eq_left hgt], by rw [airNbhd_length split row, min_eq_left hgt]⟩

theorem getD_set_self_row (M : Mat) (i : ℕ) (v : Row) (h : i < M.length) :
    (M.set i v).getD i [] = v := by
  rw [List.getD_eq_getElem _ _ (by simpa using h)]
  rw [List.getElem_set_self]

theorem getD_set_ne_row (M : Mat) (i j : ℕ) (v : Row) (h : i ≠ j) :
    (M.set i v).getD j [] = M.getD j [] := by
  rw [List.getD_eq_getElem?_getD, List.getD_eq_getElem?_getD, List.getElem?_set_ne h]

/-- The row-pointer tail accumulated by pass 1: running sums of
`1 + min(|N_f|, max_row)` over the C-point rows, with the counts taken on
the pre-mutation matrix (legitimate because each row is mutated once). -/
def airCum (split : ℤ → ℤ) (max_row : ℕ) (C : Mat) : ℕ → List ℕ → List ℕ
  | _, [] => []
  | nnz0, cp :: rest =>
      (nnz0 + 1 + min (strongCount split (C.getD cp [])) max_row)
        :: airCum split max_row C
            (nnz0 + 1 + min (strongCount split (C.getD cp [])) max_row) rest

theorem airCum_congr (split : ℤ → ℤ) (max_row : ℕ) (C C' : Mat) :
    ∀ (l : List ℕ) (nnz0 : ℕ),
      (∀ cp ∈ l, C'.getD cp [] = C.getD cp []) →
      airCum split max_row C' nnz0 l = airCum split max_row C nnz0 l := by
  intro l
  induction l with
  | nil => intro nnz0 _; rfl
  | cons cp rest ih =>
    intro nnz0 hrow
    have h0 : C'.getD cp [] = C.getD cp [] := hrow cp (List.mem_cons_self _ _)
    unfold airCum
    rw [h0, ih _ (fun q hq => hrow q (List.mem_cons_of_mem _ hq))]

theorem airCum_getD (split : ℤ → ℤ) (max_row : ℕ) (C : Mat) :
    ∀ (l : List ℕ) (nnz0 : ℕ) (r : ℕ), r < l.length →
      (airCum split max_row C nnz0 l).getD r 0
        = (if r = 0 then nnz0 else (airCum split max_row C nnz0 l).getD (r - 1) 0)
          + 1 + min (strongCount split (C.getD (l.getD r 0) [])) max_row := by
  intro l
  induction l with
  | nil => intro nnz0 r hr; cases hr
  | cons cp rest ih =>
    intro nnz0 r hr
    cases r with
    | zero =>
      simp only [if_pos rfl, List.getD_cons_zero]
      rfl
    | succ k =>
      have hk : k < rest.length := by simpa using hr
      have hrec := ih (nnz0 + 1 + min (strongCount split (C.getD cp [])) max_row) k hk
      have hcons : airCum split max_row C nnz0 (cp :: rest)
          = (nnz0 + 1 + min (strongCount split (C.getD cp [])) max_row)
            :: airCum split max_row C
                (nnz0 + 1 + min (strongCount split (C.getD cp [])) max_row) rest := rfl
      rw [hcons, List.getD_cons_succ, List.getD_cons_succ, hrec]
      cases k with
      | zero => simp
      | succ j =>
        rw [if_neg (by omega : ¬ (j + 1 = 0)), if_neg (by omega : ¬ (j + 1 + 1 = 0))]
        simp only [Nat.add_sub_cancel, List.getD_cons_succ]

/-- The accumulated state of pass 1, characterised row by row: the matrix
keeps its shape, non-C-point rows are untouched, each C-point row is its
original row mutated by `airRow1`, and the row pointer is the running-sum
list `airCum`. -/
theorem air_pass1_fold (split : ℤ → ℤ) (max_row : ℕ) :
    ∀ (Cpts : List ℕ) (C : Mat) (rp0 : List ℕ) (nnz0 : ℕ),
      Cpts.Nodup →
      (Cpts.foldl (airStep split max_row) (C, rp0, nnz0)).1.length = C.length ∧
      (∀ q : ℕ, q ∉ Cpts →
        (Cpts.foldl (airStep split max_row) (C, rp0, nnz0)).1.getD q []
          = C.getD q []) ∧
      (∀ cp ∈ Cpts, cp < C.length →
        (Cpts.foldl (airStep split max_row) (C, rp0, nnz0)).1.getD cp []
          = (airRow1 split max_row (C.getD cp [])).1) ∧
      (Cpts.foldl (airStep split max_row) (C, rp0, nnz0)).2.1
        = rp0 ++ airCum split max_row C nnz0 Cpts := by
  intro Cpts
  induction Cpts with
  | nil =>
    intro C rp0 nnz0 _
    refine ⟨rfl, fun q _ => rfl, fun cp hcp => absurd hcp (List.not_mem_nil cp), ?_⟩
    show rp0 = rp0 ++ airCum split max_row C nnz0 []
    simp [airCum]
  | cons cp rest ih =>
    intro C rp0 nnz0 hnd
    obtain ⟨hcp_notin, hnd'⟩ := List.nodup_cons.mp hnd
    have hstep : airStep split max_row (C, rp0, nnz0) cp
        = (C.set cp (airRow1 split max_row (C.getD cp [])).1,
           rp0 ++ [nnz0 + 1 + (airRow1 split max_row (C.getD cp [])).2],
           nnz0 + 1 + (airRow1 split max_row (C.getD cp [])).2) := rfl
    have hfold : (cp :: rest).foldl (airStep split max_row) (C, rp0, nnz0)
        = rest.foldl (airStep split max_row)
            (C.set cp (airRow1 split max_row (C.getD cp [])).1,
             rp0 ++ [nnz0 + 1 + (airRow1 split max_row (C.getD cp [])).2],
             nnz0 + 1 + (airRow1 split max_row (C.getD cp [])).2) := by
      rw [List.foldl_cons, hstep]
    obtain ⟨ihlen, ihout, ihin, ihrp⟩ :=
      ih (C.set cp (airRow1 split max_row (C.getD cp [])).1)
        (rp0 ++ [nnz0 + 1 + (airRow1 split max_row (C.getD cp [])).2])
        (nnz0 + 1 + (airRow1 split max_row (C.getD cp [])).2) hnd'
    have hC1row : ∀ q : ℕ, q ≠ cp →
        (C.set cp (airRow1 split max_row (C.getD cp [])).1).getD q []
          = C.getD q [] := by
      intro q hq
      exact getD_set_ne_row C cp q _ (fun hc => hq hc.symm)
    refine ⟨?_, ?_, ?_, ?_⟩
    · rw [hfold, ihlen, List.length_set]
    · intro q hq
      have hq1 : q ≠ cp := fun hc => hq (hc ▸ List.mem_cons_self _ _)
      have hq2 : q ∉ rest := fun hc => hq (List.mem_cons_of_mem _ hc)
      rw [hfold, ihout q hq2, hC1row q hq1]
    · intro p hp hplt
      rcases List.mem_cons.mp hp with hpc | hpr
      · subst hpc
        rw [hfold, ihout p hcp_notin, getD_set_self_row C p _ hplt]
      · have hne : p ≠ cp := by
          intro hc
          exact hcp_notin (hc ▸ hpr)
        have hplt1 : p < (C.set cp (airRow1 split max_row (C.getD cp [])).1).length := by
          rw [List.length_set]; exact hplt
        rw [hfold, ihin p hpr hplt1, hC1row p hne]
    · rw [hfold, ihrp]
      have hcongr : airCum split max_row
            (C.set cp (airRow1 split max_row (C.getD cp [])).1)
            (nnz0 + 1 + (airRow1 split max_row (C.getD cp [])).2) rest
          = airCum split max_row C
            (nnz0 + 1 + (airRow1 split max_row (C.getD cp [])).2) rest := by
        refine airCum_congr split max_row C _ rest _ ?_
        intro q hq
        refine hC1row q ?_
        intro hc
        exact hcp_notin (hc ▸ hq)
      rw [hcongr, List.append_assoc]
      have h2 : (airRow1 split max_row (C.getD cp [])).2
          = min (strongCount split (C.getD cp [])) max_row :=
        (airRow1_count split max_row (C.getD cp [])).2
      rw [h2]
      rfl

/-! ## rs_cf_splitting (lines 159–364)

The splitter's working arrays, modelled as total functions: `lam` the
per-node weights, `iptr`/`icnt` the per-λ bucket intervals, `i2n`/`n2i`
the position permutation and its inverse, `split` the splitting array. -/

structure RSState where
  lam : ℤ → ℤ
  iptr : ℤ → ℤ
  icnt : ℤ → ℤ
  i2n : ℤ → ℤ
  n2i : ℤ → ℤ
  split : ℤ → ℤ

/-- `lambda[i] = Tp[i+1] - Tp[i] + influence[i]` (line 175). -/
def rsLam (Tp influence : ℤ → ℤ) : ℤ → ℤ :=
  fun v => Tp (v + 1) - Tp v + influence v

/-- The running maximum of `lambda` over the first loop (line 176). -/
def rsLamMax0 (n : ℤ) (lam : ℤ → ℤ) : ℤ :=
  (irange 0 n).foldl (fun acc i => if lam i > acc then lam i else acc) 0

/-- `lambda_max = lambda_max*2; if (n+1 > lambda_max) lambda_max = n+1`
(lines 189–190). -/
def rsLamMax (n lm0 : ℤ) : ℤ := if n + 1 > lm0 * 2 then n + 1 else lm0 * 2

/-- The histogram loop (lines 197–199). -/
def rsCnt1 (n : ℤ) (lam : ℤ → ℤ) : ℤ → ℤ :=
  (irange 0 n).foldl (fun c i => aupd c (lam i) (c (lam i) + 1)) (fun _ => 0)

/-- The cumulative-sum loop (lines 200–204): `interval_ptr[i] = cumsum`,
`cumsum += interval_count[i]`, `interval_count[i] = 0`. -/
def rsPtrCnt (lmax : ℤ) (cnt1 : ℤ → ℤ) : (ℤ → ℤ) × (ℤ → ℤ) × ℤ :=
  (irange 0 lmax).foldl
    (fun st i => (aupd st.1 i st.2.2, aupd st.2.1 i 0, st.2.2 + st.2.1 i))
    (fun _ => 0, cnt1, 0)

/-- The placement loop (lines 205–212): node `i` goes to position
`interval_ptr[lambda_i] + interval_count[lambda_i]`; returns
`(index_to_node, node_to_index, interval_count)`. -/
def rsPlace (n : ℤ) (lam iptr icnt0 : ℤ → ℤ) :
    (ℤ → ℤ) × (ℤ → ℤ) × (ℤ → ℤ) :=
  (irange 0 n).foldl
    (fun st i =>
      (aupd st.1 (iptr (lam i) + st.2.2 (lam i)) i,
       aupd st.2.1 i (iptr (lam i) + st.2.2 (lam i)),
       aupd st.2.2 (lam i) (st.2.2 (lam i) + 1)))
    (fun _ => 0, fun _ => 0, icnt0)

/-- `std::fill(U_NODE)` followed by the isolated-node pass
(lines 215–222): `lambda[i] == 0 || (lambda[i] == 1 && Tj[Tp[i]] == i)`
makes `i` an F-node. -/
def rsSplit0 (n : ℤ) (Tp Tj lam sp : ℤ → ℤ) : ℤ → ℤ :=
  (irange 0 n).foldl
    (fun s i =>
      if lam i = 0 ∨ (lam i = 1 ∧ Tj (Tp i) = i) then aupd s i F_NODE else s)
    ((irange 0 n).foldl (fun s i => aupd s i U_NODE) sp)

/-- The state on entry to the main selection loop. -/
def rsInit (n : ℤ) (Tp Tj influence sp : ℤ → ℤ) : RSState :=
  let lam := rsLam Tp influence
  let lmax := rsLamMax n (rsLamMax0 n lam)
  let pc := rsPtrCnt lmax (rsCnt1 n lam)
  let pl := rsPlace n lam pc.1 pc.2.1
  { lam := lam, iptr := pc.1, icnt := pl.2.2, i2n := pl.1, n2i := pl.2.1,
    split := rsSplit0 n Tp Tj lam sp }

/-- `interval_count[lambda_i]--` at the top of each iteration (line 241). -/
def rsDecTop (s : RSState) (t : ℤ) : RSState :=
  { s with
    icnt := aupd s.icnt (s.lam (s.i2n t)) (s.icnt (s.lam (s.i2n t)) - 1) }

/-- The max-index search over the remaining bucket interval
(lines 254–263), starting from the node at `top_index`; returns
`(max_node, max_index)`. -/
def rsSearch (s : RSState) (li t : ℤ) : ℤ × ℤ :=
  (irange (s.iptr li) (s.iptr li + s.icnt li)).foldl
    (fun mp j => if s.i2n j > mp.1 then (s.i2n j, j) else mp)
    (s.i2n t, t)

/-- The double `node_to_index` write and `std::swap` of positions `a`
and `b` (lines 265–269 and 308–310 and 346–348). -/
def rsSwapTop (s : RSState) (a b : ℤ) : RSState :=
  { s with
    n2i := aupd (aupd s.n2i (s.i2n a) b) (s.i2n b) a,
    i2n := aupd (aupd s.i2n a (s.i2n b)) b (s.i2n a) }

/-- Search plus swap: the selection step of the else-branch. -/
def rsSelect (s : RSState) (t : ℤ) : RSState :=
  rsSwapTop s t (rsSearch s (s.lam (s.i2n t)) t).2

/-- The λ-increment move of a node `k` to the first slot of the next
bucket (lines 303–318). -/
def rsIncMove (s : RSState) (k : ℤ) : RSState :=
  let lk := s.lam k
  let op := s.n2i k
  let np := s.iptr lk + s.icnt lk - 1
  { lam := aupd s.lam k (lk + 1),
    iptr := aupd s.iptr (lk + 1) np,
    icnt := aupd (aupd s.icnt lk (s.icnt lk - 1)) (lk + 1) (s.icnt (lk + 1) + 1),
    i2n := aupd (aupd s.i2n op (s.i2n np)) np (s.i2n op),
    n2i := aupd (aupd s.n2i (s.i2n op) np) (s.i2n np) op,
    split := s.split }

/-- Lines 294–327: a strong neighbour `k` of a new F-node gets its λ
incremented, guarded by `lambda[k] >= n_nodes - 1 → continue`. -/
def rsKstep (n : ℤ) (s : RSState) (k : ℤ) : RSState :=
  if s.split k = U_NODE then (if n - 1 ≤ s.lam k then s else rsIncMove s k)
  else s

/-- The λ-decrement move of a node `j` to the last slot of the previous
bucket (lines 341–357); note `interval_ptr[lambda_j-1]` is computed from
the already-updated `interval_ptr[lambda_j]` and
`interval_count[lambda_j-1]`. -/
def rsDecMove (s : RSState) (j : ℤ) : RSState :=
  let lj := s.lam j
  let op := s.n2i j
  let np := s.iptr lj
  let icnt' := aupd (aupd s.icnt lj (s.icnt lj - 1)) (lj - 1) (s.icnt (lj - 1) + 1)
  let p1 := aupd s.iptr lj (s.iptr lj + 1)
  { lam := aupd s.lam j (lj - 1),
    iptr := aupd p1 (lj - 1) (p1 lj - icnt' (lj - 1)),
    icnt := icnt',
    i2n := aupd (aupd s.i2n op (s.i2n np)) np (s.i2n op),
    n2i := aupd (aupd s.n2i (s.i2n op) np) (s.i2n np) op,
    split := s.split }

/-- Lines 335–359: a strong neighbour `j` of the new C-node gets its λ
decremented, guarded by `lambda[j] == 0 → continue`. -/
def rsJstep (s : RSState) (j : ℤ) : RSState :=
  if s.split j = U_NODE then (if s.lam j = 0 then s else rsDecMove s j) else s

/-- Lines 278–282: mark `S^T_i ∩ U` as `PRE_F_NODE`. -/
def rsPhase1 (Tp Tj : ℤ → ℤ) (s : RSState) (i : ℤ) : RSState :=
  (irange (Tp i) (Tp (i + 1))).foldl
    (fun s' jj =>
      if s'.split (Tj jj) = U_NODE
      then { s' with split := aupd s'.split (Tj jj) PRE_F_NODE } else s') s

/-- Lines 284–330: turn each `PRE_F_NODE` of `S^T_i` into `F_NODE` and
λ-increment its still-U strong neighbours. -/
def rsPhase2 (n : ℤ) (Sp Sj Tp Tj : ℤ → ℤ) (s : RSState) (i : ℤ) : RSState :=
  (irange (Tp i) (Tp (i + 1))).foldl
    (fun s' jj =>
      if s'.split (Tj jj) = PRE_F_NODE then
        (irange (Sp (Tj jj)) (Sp (Tj jj + 1))).foldl
          (fun s2 kk => rsKstep n s2 (Sj kk))
          { s' with split := aupd s'.split (Tj jj) F_NODE }
      else s') s

/-- Lines 332–360: λ-decrement the still-U strong neighbours of the new
C-node. -/
def rsPhase3 (Sp Sj : ℤ → ℤ) (s : RSState) (i : ℤ) : RSState :=
  (irange (Sp i) (Sp (i + 1))).foldl (fun s' jj => rsJstep s' (Sj jj)) s

/-- One iteration of the main selection loop (lines 226–362) for
`top_index = t`. -/
def rsBody (n : ℤ) (Sp Sj Tp Tj : ℤ → ℤ) (s : RSState) (t : ℤ) : RSState :=
  let s1 := rsDecTop s t
  if s1.split (s1.i2n t) = F_NODE then s1
  else
    let s2 := rsSelect s1 t
    let s3 := { s2 with split := aupd s2.split (s2.i2n t) C_NODE }
    rsPhase3 Sp Sj
      (rsPhase2 n Sp Sj Tp Tj (rsPhase1 Tp Tj s3 (s2.i2n t)) (s2.i2n t))
      (s2.i2n t)

/-- The whole splitter: init, then the main loop for
`top_index = n-1, …, 0`; the result is the splitting array. -/
def rs_cf_splitting (n : ℤ) (Sp Sj Tp Tj influence sp : ℤ → ℤ) : ℤ → ℤ :=
  ((irange 0 n).reverse.foldl (rsBody n Sp Sj Tp Tj)
    (rsInit n Tp Tj influence sp)).split

/-- Bucket membership: position `p` lies in the interval of bucket `l`. -/
def inB (s : RSState) (l p : ℤ) : Prop :=
  s.iptr l ≤ p ∧ p < s.iptr l + s.icnt l

/-- The loop invariant of the main selection loop, at `top_index = t`
(entry of the iteration for `t`): `i2n`/`n2i` are mutually inverse
permutations of `[0,n)`; every position above `t` holds a decided node;
λ is nonnegative; bucket counts are nonnegative, bucket intervals lie in
`[0, t+1)`, are ordered by λ, and every unprocessed position lies in the
bucket of its node's λ. -/
structure RSInv (n t : ℤ) (s : RSState) : Prop where
  i2n_lt : ∀ p, 0 ≤ p → p < n → 0 ≤ s.i2n p ∧ s.i2n p < n
  n2i_lt : ∀ v, 0 ≤ v → v < n → 0 ≤ s.n2i v ∧ s.n2i v < n
  ni_inv : ∀ p, 0 ≤ p → p < n → s.n2i (s.i2n p) = p
  in_inv : ∀ v, 0 ≤ v → v < n → s.i2n (s.n2i v) = v
  high : ∀ p, t < p → p < n →
    s.split (s.i2n p) = F_NODE ∨ s.split (s.i2n p) = C_NODE
  lam0 : ∀ v, 0 ≤ v → v < n → 0 ≤ s.lam v
  cnt0 : ∀ l, 0 ≤ s.icnt l
  bsub : ∀ l, 0 < s.icnt l → 0 ≤ s.iptr l ∧ s.iptr l + s.icnt l ≤ t + 1
  bmem : ∀ p, 0 ≤ p → p ≤ t → inB s (s.lam (s.i2n p)) p
  bord : ∀ l m, l < m → 0 < s.icnt l → 0 < s.icnt m →
    s.iptr l + s.icnt l ≤ s.iptr m

theorem RSInv.bdisj {n t : ℤ} {s : RSState} (h : RSInv n t s) {l m p : ℤ}
    (hl : inB s l p) (hm : inB s m p) : l = m := by
  rcases lt_trichotomy l m with hc | hc | hc
  · have := h.bord l m hc (by unfold inB at hl; omega) (by unfold inB at hm; omega)
    unfold inB at hl hm
    omega
  · exact hc
  · have := h.bord m l hc (by unfold inB at hm; omega) (by unfold inB at hl; omega)
    unfold inB at hl hm
    omega

/-- Consecutive nonempty buckets are adjacent: there is no gap between
the end of bucket `l` and the start of bucket `l+1`. -/
theorem RSInv.adj {n t : ℤ} {s : RSState} (h : RSInv n t s) {l : ℤ}
    (hl : 0 < s.icnt l) (hm : 0 < s.icnt (l + 1)) :
    s.iptr (l + 1) = s.iptr l + s.icnt l := by
  have hle : s.iptr l + s.icnt l ≤ s.iptr (l + 1) := h.bord l (l + 1) (by omega) hl hm
  by_contra hne
  have hq : s.iptr l + s.icnt l < s.iptr (l + 1) := by omega
  set q := s.iptr l + s.icnt l with hqdef
  have hq0 : 0 ≤ q := by
    have := h.bsub l hl
    omega
  have hqt : q ≤ t := by
    have := h.bsub (l + 1) hm
    omega
  have hmemq := h.bmem q hq0 hqt
  set mu := s.lam (s.i2n q) with hmu
  rcases lt_trichotomy mu l with hc | hc | hc
  · have := h.bord mu l hc (by unfold inB at hmemq; omega) hl
    unfold inB at hmemq
    omega
  · rw [hc] at hmemq
    unfold inB at hmemq
    omega
  · rcases lt_trichotomy mu (l + 1) with hc2 | hc2 | hc2
    · omega
    · rw [hc2] at hmemq
      unfold inB at hmemq
      omega
    · have := h.bord (l + 1) mu hc2 hm (by unfold inB at hmemq; omega)
      unfold inB at hmemq
      omega

theorem i2n_injOn {n t : ℤ} {s : RSState} (h : RSInv n t s) {p q : ℤ}
    (hp : 0 ≤ p ∧ p < n) (hq : 0 ≤ q ∧ q < n) (he : s.i2n p = s.i2n q) :
    p = q := by
  have h1 := h.ni_inv p hp.1 hp.2
  have h2 := h.ni_inv q hq.1 hq.2
  rw [he] at h1
  rw [h1] at h2
  exact h2

/-- The double `node_to_index` write followed by `std::swap` on
`index_to_node` at two valid positions keeps the maps mutually inverse,
and acts as the transposition of the two positions. -/
theorem swap_maps (n : ℤ) (i2n n2i : ℤ → ℤ) (a b : ℤ)
    (h1 : ∀ p, 0 ≤ p → p < n → 0 ≤ i2n p ∧ i2n p < n)
    (h2 : ∀ v, 0 ≤ v → v < n → 0 ≤ n2i v ∧ n2i v < n)
    (h3 : ∀ p, 0 ≤ p → p < n → n2i (i2n p) = p)
    (h4 : ∀ v, 0 ≤ v → v < n → i2n (n2i v) = v)
    (ha : 0 ≤ a ∧ a < n) (hb : 0 ≤ b ∧ b < n) :
    (∀ p, 0 ≤ p → p < n →
      (0 ≤ aupd (aupd i2n a (i2n b)) b (i2n a) p ∧
        aupd (aupd i2n a (i2n b)) b (i2n a) p < n)) ∧
    (∀ v, 0 ≤ v → v < n →
      (0 ≤ aupd (aupd n2i (i2n a) b) (i2n b) a v ∧
        aupd (aupd n2i (i2n a) b) (i2n b) a v < n)) ∧
    (∀ p, 0 ≤ p → p < n →
      aupd (aupd n2i (i2n a) b) (i2n b) a
        (aupd (aupd i2n a (i2n b)) b (i2n a) p) = p) ∧
    (∀ v, 0 ≤ v → v < n →
      aupd (aupd i2n a (i2n b)) b (i2n a)
        (aupd (aupd n2i (i2n a) b) (i2n b) a v) = v) ∧
    aupd (aupd i2n a (i2n b)) b (i2n a) b = i2n a ∧
    (a ≠ b → aupd (aupd i2n a (i2n b)) b (i2n a) a = i2n b) ∧
    (∀ p, p ≠ a → p ≠ b → aupd (aupd i2n a (i2n b)) b (i2n a) p = i2n p) := by
  have hinj : ∀ p q, 0 ≤ p → p < n → 0 ≤ q → q < n → i2n p = i2n q → p = q := by
    intro p q hp1 hp2 hq1 hq2 he
    have e1 := h3 p hp1 hp2
    have e2 := h3 q hq1 hq2
    rw [he] at e1
    omega
  have hi2n' : ∀ p, aupd (aupd i2n a (i2n b)) b (i2n a) p
      = if p = b then i2n a else if p = a then i2n b else i2n p := by
    intro p
    by_cases hpb : p = b
    · subst hpb
      rw [if_pos rfl, aupd_same]
    · rw [aupd_other _ _ _ hpb, if_neg hpb]
      by_cases hpa : p = a
      · subst hpa
        rw [aupd_same, if_pos rfl]
      · rw [aupd_other _ _ _ hpa, if_neg hpa]
  have hn2i' : ∀ v, aupd (aupd n2i (i2n a) b) (i2n b) a v
      = if v = i2n b then a else if v = i2n a then b else n2i v := by
    intro v
    by_cases hvb : v = i2n b
    · subst hvb
      rw [if_pos rfl, aupd_same]
    · rw [aupd_other _ _ _ hvb, if_neg hvb]
      by_cases hva : v = i2n a
      · subst hva
        rw [aupd_same, if_pos rfl]
      · rw [aupd_other _ _ _ hva, if_neg hva]
  refine ⟨?_, ?_, ?_, ?_, ?_, ?_, ?_⟩
  · intro p hp1 hp2
    rw [hi2n' p]
    by_cases hpb : p = b
    · rw [if_pos hpb]
      exact h1 a ha.1 ha.2
    · rw [if_neg hpb]
      by_cases hpa : p = a
      · rw [if_pos hpa]
        exact h1 b hb.1 hb.2
      · rw [if_neg hpa]
        exact h1 p hp1 hp2
  · intro v hv1 hv2
    rw [hn2i' v]
    by_cases hvb : v = i2n b
    · rw [if_pos hvb]
      exact ha
    · rw [if_neg hvb]
      by_cases hva : v = i2n a
      · rw [if_pos hva]
        exact hb
      · rw [if_neg hva]
        exact h2 v hv1 hv2
  · intro p hp1 hp2
    rw [hi2n' p]
    by_cases hpb : p = b
    · rw [if_pos hpb, hn2i']
      by_cases hab : i2n a = i2n b
      · rw [if_pos hab]
        have := hinj a b ha.1 ha.2 hb.1 hb.2 hab
        omega
      · rw [if_neg hab, if_pos rfl]
        omega
    · rw [if_neg hpb]
      by_cases hpa : p = a
      · rw [if_pos hpa, hn2i', if_pos rfl]
        omega
      · rw [if_neg hpa, hn2i']
        have hne1 : i2n p ≠ i2n b := fun hc => hpb (hinj p b hp1 hp2 hb.1 hb.2 hc)
        have hne2 : i2n p ≠ i2n a := fun hc => hpa (hinj p a hp1 hp2 ha.1 ha.2 hc)
        rw [if_neg hne1, if_neg hne2]
        exact h3 p hp1 hp2
  · intro v hv1 hv2
    rw [hn2i' v]
    by_cases hvb : v = i2n b
    · subst hvb
      rw [if_pos rfl, hi2n']
      by_cases hab : a = b
      · rw [if_pos hab, hab]
      · rw [if_neg hab, if_pos rfl]
    · by_cases hva : v = i2n a
      · subst hva
        rw [if_neg hvb, if_pos rfl, hi2n', if_pos rfl]
      · rw [if_neg hvb, if_neg hva, hi2n']
        have hnb : n2i v ≠ b := by
          intro hc
          exact hvb (by rw [← h4 v hv1 hv2, hc])
        have hna : n2i v ≠ a := by
          intro hc
          exact hva (by rw [← h4 v hv1 hv2, hc])
        rw [if_neg hnb, if_neg hna]
        exact h4 v hv1 hv2
  · rw [hi2n' b, if_pos rfl]
  · intro hab
    rw [hi2n' a, if_neg hab, if_pos rfl]
  · intro p hpa hpb
    rw [hi2n' p, if_neg hpb, if_neg hpa]

theorem foldl_pres {α : Type} (P : α → Prop) (f : α → ℤ → α) :
    ∀ (l : List ℤ) (a : α), P a → (∀ b x, P b → x ∈ l → P (f b x)) →
      P (l.foldl f a) := by
  intro l
  induction l with
  | nil => intro a ha _; exact ha
  | cons x xs ih =>
    intro a ha hstep
    rw [List.foldl_cons]
    exact ih (f a x) (hstep a x ha (List.mem_cons_self _ _))
      (fun b y hb hy => hstep b y hb (List.mem_cons_of_mem _ hy))

/-- The running arg-max fold of the bucket search: the result dominates
the seed and every scanned value, and is either the seed or a scanned
pair. -/
theorem foldl_max_pair (f : ℤ → ℤ) :
    ∀ (l : List ℤ) (m0 j0 : ℤ),
      ((l.foldl (fun mp j => if f j > mp.1 then (f j, j) else mp) (m0, j0))
          = (m0, j0) ∨
        ((l.foldl (fun mp j => if f j > mp.1 then (f j, j) else mp) (m0, j0)).2 ∈ l ∧
          (l.foldl (fun mp j => if f j > mp.1 then (f j, j) else mp) (m0, j0)).1
            = f (l.foldl (fun mp j => if f j > mp.1 then (f j, j) else mp) (m0, j0)).2)) ∧
      m0 ≤ (l.foldl (fun mp j => if f j > mp.1 then (f j, j) else mp) (m0, j0)).1 ∧
      (∀ j ∈ l, f j ≤ (l.foldl (fun mp j => if f j > mp.1 then (f j, j) else mp) (m0, j0)).1) := by
  intro l
  induction l with
  | nil => intro m0 j0; exact ⟨Or.inl rfl, le_refl _, fun j hj => absurd hj (List.not_mem_nil j)⟩
  | cons x xs ih =>
    intro m0 j0
    rw [List.foldl_cons]
    by_cases hx : f x > m0
    · rw [if_pos hx]
      obtain ⟨ho, hm, hall⟩ := ih (f x) x
      refine ⟨?_, ?_, ?_⟩
      · rcases ho with ho | ho
        · right
          rw [ho]
          exact ⟨List.mem_cons_self _ _, rfl⟩
        · right
          exact ⟨List.mem_cons_of_mem _ ho.1, ho.2⟩
      · omega
      · intro j hj
        rcases List.mem_cons.mp hj with hj | hj
        · subst hj; exact hm
        · exact hall j hj
    · rw [if_neg hx]
      obtain ⟨ho, hm, hall⟩ := ih m0 j0
      refine ⟨?_, hm, ?_⟩
      · rcases ho with ho | ho
        · exact Or.inl ho
        · exact Or.inr ⟨List.mem_cons_of_mem _ ho.1, ho.2⟩
      · intro j hj
        rcases List.mem_cons.mp hj with hj | hj
        · subst hj; omega
        · exact hall j hj

/-- Characterisation of the bucket search (lines 254–263): the returned
index is the top index or one inside the scanned interval, the returned
node is the node at that index, and it dominates the top node and every
node in the interval. -/
theorem rsSearch_spec (s : RSState) (li t : ℤ) :
    ((rsSearch s li t).2 = t ∨
      (s.iptr li ≤ (rsSearch s li t).2 ∧
        (rsSearch s li t).2 < s.iptr li + s.icnt li)) ∧
    (rsSearch s li t).1 = s.i2n (rsSearch s li t).2 ∧
    s.i2n t ≤ (rsSearch s li t).1 ∧
    (∀ j, s.iptr li ≤ j → j < s.iptr li + s.icnt li →
      s.i2n j ≤ (rsSearch s li t).1) := by
  unfold rsSearch
  obtain ⟨ho, hm, hall⟩ :=
    foldl_max_pair s.i2n (irange (s.iptr li) (s.iptr li + s.icnt li)) (s.i2n t) t
  refine ⟨?_, ?_, hm, ?_⟩
  · rcases ho with ho | ho
    · left
      rw [ho]
    · right
      exact mem_irange.mp ho.1
  · rcases ho with ho | ho
    · rw [ho]
    · exact ho.2
  · intro j h1 h2
    exact hall j (mem_irange.mpr ⟨h1, h2⟩)

/-- Facts after `interval_count[lambda_i]--` at `top_index = t`: position
`t` was the last slot of its bucket, and all bucket fields now meet the
invariant for top `t-1`. -/
theorem decTop_core (n t : ℤ) (s : RSState) (h : RSInv n t s)
    (ht0 : 0 ≤ t) (htn : t < n) :
    (∀ l, 0 ≤ (rsDecTop s t).icnt l) ∧
    (∀ l, 0 < (rsDecTop s t).icnt l →
      0 ≤ (rsDecTop s t).iptr l ∧
        (rsDecTop s t).iptr l + (rsDecTop s t).icnt l ≤ t) ∧
    (∀ p, 0 ≤ p → p ≤ t - 1 →
      inB (rsDecTop s t) ((rsDecTop s t).lam ((rsDecTop s t).i2n p)) p) ∧
    (∀ l m, l < m → 0 < (rsDecTop s t).icnt l → 0 < (rsDecTop s t).icnt m →
      (rsDecTop s t).iptr l + (rsDecTop s t).icnt l ≤ (rsDecTop s t).iptr m) := by
  set ls := s.lam (s.i2n t) with hls
  have htm := h.bmem t ht0 (le_refl t)
  rw [← hls] at htm
  have hcnt : 0 < s.icnt ls := by unfold inB at htm; omega
  have hend : s.iptr ls + s.icnt ls = t + 1 := by
    have := h.bsub ls hcnt
    unfold inB at htm
    omega
  have hic : ∀ x, (rsDecTop s t).icnt x
      = if x = ls then s.icnt ls - 1 else s.icnt x := by
    intro x
    show aupd s.icnt ls (s.icnt ls - 1) x = _
    by_cases hx : x = ls
    · rw [hx, aupd_same, if_pos rfl]
    · rw [aupd_other _ _ _ hx, if_neg hx]
  have hip : (rsDecTop s t).iptr = s.iptr := rfl
  have hlam : (rsDecTop s t).lam = s.lam := rfl
  have hi2n : (rsDecTop s t).i2n = s.i2n := rfl
  have hother : ∀ l, l ≠ ls → 0 < s.icnt l → s.iptr l + s.icnt l ≤ t := by
    intro l hl hcl
    by_contra hc
    have hb := h.bsub l hcl
    have : inB s l t := by
      unfold inB
      omega
    have := h.bdisj this htm
    exact hl this
  refine ⟨?_, ?_, ?_, ?_⟩
  · intro l
    rw [hic l]
    by_cases hx : l = ls
    · rw [if_pos hx]; omega
    · rw [if_neg hx]; exact h.cnt0 l
  · intro l hl
    rw [hic l] at hl
    rw [hic l, hip]
    by_cases hx : l = ls
    · rw [if_pos hx] at hl ⊢
      rw [hx]
      have := h.bsub ls hcnt
      omega
    · rw [if_neg hx] at hl ⊢
      have := hother l hx hl
      have := h.bsub l hl
      omega
  · intro p hp0 hpt
    have hm := h.bmem p hp0 (by omega)
    unfold inB at hm ⊢
    rw [hip, hlam, hi2n, hic]
    by_cases hx : s.lam (s.i2n p) = ls
    · rw [if_pos hx, hx]
      rw [hx] at hm
      omega
    · rw [if_neg hx]
      exact hm
  · intro l m hlm hl hm
    rw [hic] at hl hm
    rw [hic, hip]
    by_cases hxl : l = ls
    · rw [if_pos hxl] at hl ⊢
      rw [hxl]
      have hmne : m ≠ ls := by rw [hxl] at hlm; omega
      rw [if_neg hmne] at hm
      have := h.bord ls m (hxl ▸ hlm) hcnt hm
      omega
    · rw [if_neg hxl] at hl ⊢
      by_cases hxm : m = ls
      · rw [if_pos hxm] at hm
        have := h.bord l ls (hxm ▸ hlm) hl (by omega)
        rw [hxm]
        omega
      · rw [if_neg hxm] at hm
        exact h.bord l m hlm hl hm

/-- The λ-increment move preserves the loop invariant: the moved U-node
swaps with the last slot of its bucket, which is excised into the
(possibly empty) next bucket. -/
theorem rsIncMove_inv (n t : ℤ) (s : RSState) (k : ℤ) (h : RSInv n t s)
    (htn : t < n) (hk0 : 0 ≤ k) (hkn : k < n) (hkU : s.split k = U_NODE) :
    RSInv n t (rsIncMove s k) := by
  set lk := s.lam k with hlk
  set op := s.n2i k with hop
  set np := s.iptr lk + s.icnt lk - 1 with hnp
  have hopb : 0 ≤ op ∧ op < n := h.n2i_lt k hk0 hkn
  have hik : s.i2n op = k := h.in_inv k hk0 hkn
  have hopt : op ≤ t := by
    by_contra hc
    rcases h.high op (by omega) hopb.2 with hc2 | hc2 <;>
      (rw [hik, hkU] at hc2; exact absurd hc2 (by decide))
  have hmemk : inB s lk op := by
    have := h.bmem op hopb.1 hopt
    rw [hik] at this
    exact this
  have hcnt : 0 < s.icnt lk := by
    unfold inB at hmemk
    omega
  have hbs := h.bsub lk hcnt
  have hnp0 : 0 ≤ np := by omega
  have hnpt : np ≤ t := by omega
  have hnpn : np < n := by omega
  have hnpin : inB s lk np := by
    unfold inB
    omega
  have hzlam : s.lam (s.i2n np) = lk :=
    h.bdisj (h.bmem np hnp0 hnpt) hnpin
  obtain ⟨w1, w2, w3, w4, w5, w6, w7⟩ :=
    swap_maps n s.i2n s.n2i op np h.i2n_lt h.n2i_lt h.ni_inv h.in_inv
      ⟨hopb.1, hopb.2⟩ ⟨hnp0, hnpn⟩
  have hic : ∀ x, (rsIncMove s k).icnt x
      = if x = lk + 1 then s.icnt (lk + 1) + 1
        else if x = lk then s.icnt lk - 1 else s.icnt x := by
    intro x
    show aupd (aupd s.icnt lk (s.icnt lk - 1)) (lk + 1) (s.icnt (lk + 1) + 1) x = _
    by_cases h1 : x = lk + 1
    · rw [h1, aupd_same, if_pos rfl]
    · rw [aupd_other _ _ _ h1, if_neg h1]
      by_cases h2 : x = lk
      · rw [h2, aupd_same, if_pos rfl]
      · rw [aupd_other _ _ _ h2, if_neg h2]
  have hipf : ∀ x, (rsIncMove s k).iptr x
      = if x = lk + 1 then np else s.iptr x := by
    intro x
    show aupd s.iptr (lk + 1) np x = _
    by_cases h1 : x = lk + 1
    · rw [h1, aupd_same, if_pos rfl]
    · rw [aupd_other _ _ _ h1, if_neg h1]
  have hlamf : ∀ x, (rsIncMove s k).lam x
      = if x = k then lk + 1 else s.lam x := by
    intro x
    show aupd s.lam k (lk + 1) x = _
    by_cases h1 : x = k
    · rw [h1, aupd_same, if_pos rfl]
    · rw [aupd_other _ _ _ h1, if_neg h1]
  have hi2nf : ∀ p, p ≠ op → p ≠ np →
      (rsIncMove s k).i2n p = s.i2n p := w7
  have hi2n_np : (rsIncMove s k).i2n np = k := by
    have : (rsIncMove s k).i2n np = s.i2n op := w5
    rw [this, hik]
  have hi2n_op : op ≠ np → (rsIncMove s k).i2n op = s.i2n np := w6
  refine ⟨w1, w2, w3, w4, ?_, ?_, ?_, ?_, ?_, ?_⟩
  · intro p hpt hpn
    have e : (rsIncMove s k).i2n p = s.i2n p :=
      hi2nf p (by omega) (by omega)
    rw [e]
    exact h.high p hpt hpn
  · intro v hv0 hvn
    rw [hlamf v]
    by_cases h1 : v = k
    · rw [if_pos h1]
      have := h.lam0 k hk0 hkn
      omega
    · rw [if_neg h1]
      exact h.lam0 v hv0 hvn
  · intro l
    rw [hic l]
    have c1 := h.cnt0 (lk + 1)
    have c2 := h.cnt0 l
    by_cases h1 : l = lk + 1
    · rw [if_pos h1]
      omega
    · rw [if_neg h1]
      by_cases h2 : l = lk
      · rw [if_pos h2]
        omega
      · rw [if_neg h2]
        omega
  · intro l hl
    rw [hic l] at hl
    rw [hic l, hipf l]
    have hc1 := h.cnt0 (lk + 1)
    by_cases h1 : l = lk + 1
    · simp only [if_pos h1] at hl ⊢
      refine ⟨by omega, ?_⟩
      by_cases hc : 0 < s.icnt (lk + 1)
      · have hadj := h.adj hcnt hc
        have := h.bsub (lk + 1) hc
        omega
      · have : s.icnt (lk + 1) = 0 := by omega
        omega
    · simp only [if_neg h1] at hl ⊢
      by_cases h2 : l = lk
      · simp only [if_pos h2] at hl ⊢
        rw [h2]
        omega
      · simp only [if_neg h2] at hl ⊢
        exact h.bsub l hl
  · intro p hp0 hpt
    by_cases hpnp : p = np
    · rw [hpnp, hi2n_np, hlamf k, if_pos rfl]
      unfold inB
      rw [hipf (lk + 1), if_pos rfl, hic (lk + 1), if_pos rfl]
      have := h.cnt0 (lk + 1)
      omega
    · by_cases hpop : p = op
      · have hopnp : op ≠ np := by
          rw [← hpop]
          exact fun hc => hpnp (hpop ▸ hc)
        rw [hpop, hi2n_op hopnp]
        have hzk : s.i2n np ≠ k := by
          intro hc
          rw [← hik] at hc
          exact hopnp (i2n_injOn h ⟨hnp0, hnpn⟩ hopb hc).symm
        rw [hlamf _, if_neg hzk, hzlam]
        unfold inB
        rw [hipf lk, if_neg (by omega), hic lk, if_neg (by omega), if_pos rfl]
        unfold inB at hmemk
        constructor
        · omega
        · have : op ≠ np := by
            rw [← hpop]
            exact fun hc => hpnp (hpop ▸ hc)
          omega
      · have e : (rsIncMove s k).i2n p = s.i2n p := hi2nf p hpop hpnp
        rw [e]
        have hwk : s.i2n p ≠ k := by
          intro hc
          rw [← hik] at hc
          exact hpop (i2n_injOn h ⟨hp0, by omega⟩ hopb hc)
        rw [hlamf _, if_neg hwk]
        have hm := h.bmem p hp0 hpt
        unfold inB at hm ⊢
        by_cases hw1 : s.lam (s.i2n p) = lk + 1
        · rw [hw1] at hm ⊢
          rw [hipf (lk + 1), if_pos rfl, hic (lk + 1), if_pos rfl]
          have hc : 0 < s.icnt (lk + 1) := by omega
          have hadj := h.adj hcnt hc
          omega
        · rw [hipf _, if_neg hw1, hic _, if_neg hw1]
          by_cases hw2 : s.lam (s.i2n p) = lk
          · rw [hw2] at hm ⊢
            rw [if_pos rfl]
            have : p ≠ np := hpnp
            omega
          · rw [if_neg hw2]
            exact hm
  · intro l m hlm hl hm
    rw [hic l] at hl
    rw [hic m] at hm
    rw [hic l, hipf l, hipf m]
    have hc1 := h.cnt0 (lk + 1)
    by_cases hm1 : m = lk + 1
    · have hlne1 : ¬ l = lk + 1 := by omega
      simp only [if_pos hm1, if_neg hlne1] at hl hm ⊢
      by_cases hl2 : l = lk
      · simp only [if_pos hl2] at hl ⊢
        rw [hl2]
        omega
      · simp only [if_neg hl2] at hl ⊢
        have := h.bord l lk (by omega) hl hcnt
        omega
    · simp only [if_neg hm1] at hm ⊢
      by_cases hm2 : m = lk
      · have hlne1 : ¬ l = lk + 1 := by omega
        have hlne2 : ¬ l = lk := by omega
        simp only [if_pos hm2, if_neg hlne1, if_neg hlne2] at hl hm ⊢
        rw [hm2]
        have := h.bord l lk (by omega) hl (by omega)
        omega
      · simp only [if_neg hm2] at hm ⊢
        by_cases hl1 : l = lk + 1
        · simp only [if_pos hl1] at hl ⊢
          by_cases hc : 0 < s.icnt (lk + 1)
          · have hadj := h.adj hcnt hc
            have := h.bord (lk + 1) m (by omega) hc hm
            omega
          · have hz : s.icnt (lk + 1) = 0 := by omega
            have := h.bord lk m (by omega) hcnt hm
            omega
        · simp only [if_neg hl1] at hl ⊢
          by_cases hl2 : l = lk
          · simp only [if_pos hl2] at hl ⊢
            rw [hl2]
            have := h.bord lk m (by omega) hcnt hm
            omega
          · simp only [if_neg hl2] at hl ⊢
            exact h.bord l m hlm hl hm

/-- The λ-decrement move preserves the loop invariant: the moved U-node
swaps with the first slot of its bucket, which is appended to the
(possibly empty) previous bucket. -/
theorem rsDecMove_inv (n t : ℤ) (s : RSState) (j : ℤ) (h : RSInv n t s)
    (htn : t < n) (hj0 : 0 ≤ j) (hjn : j < n) (hjU : s.split j = U_NODE)
    (hlam : s.lam j ≠ 0) :
    RSInv n t (rsDecMove s j) := by
  set lj := s.lam j with hlj
  set op := s.n2i j with hop
  set np := s.iptr lj with hnp
  have hopb : 0 ≤ op ∧ op < n := h.n2i_lt j hj0 hjn
  have hij : s.i2n op = j := h.in_inv j hj0 hjn
  have hopt : op ≤ t := by
    by_contra hc
    rcases h.high op (by omega) hopb.2 with hc2 | hc2 <;>
      (rw [hij, hjU] at hc2; exact absurd hc2 (by decide))
  have hmemj : inB s lj op := by
    have := h.bmem op hopb.1 hopt
    rw [hij] at this
    exact this
  have hcnt : 0 < s.icnt lj := by
    unfold inB at hmemj
    omega
  have hbs := h.bsub lj hcnt
  have hlj1 : 1 ≤ lj := by
    have := h.lam0 j hj0 hjn
    omega
  have hnp0 : 0 ≤ np := hbs.1
  have hnpt : np ≤ t := by omega
  have hnpn : np < n := by omega
  have hnpin : inB s lj np := by
    unfold inB
    omega
  have hzlam : s.lam (s.i2n np) = lj :=
    h.bdisj (h.bmem np hnp0 hnpt) hnpin
  have hadj : 0 < s.icnt (lj - 1) →
      s.iptr lj = s.iptr (lj - 1) + s.icnt (lj - 1) := by
    intro hc
    have e : lj - 1 + 1 = lj := by omega
    have := @RSInv.adj n t s h (lj - 1) hc (by rw [e]; exact hcnt)
    rw [e] at this
    exact this
  obtain ⟨w1, w2, w3, w4, w5, w6, w7⟩ :=
    swap_maps n s.i2n s.n2i op np h.i2n_lt h.n2i_lt h.ni_inv h.in_inv
      ⟨hopb.1, hopb.2⟩ ⟨hnp0, hnpn⟩
  have hic : ∀ x, (rsDecMove s j).icnt x
      = if x = lj - 1 then s.icnt (lj - 1) + 1
        else if x = lj then s.icnt lj - 1 else s.icnt x := by
    intro x
    show aupd (aupd s.icnt lj (s.icnt lj - 1)) (lj - 1) (s.icnt (lj - 1) + 1) x = _
    by_cases h1 : x = lj - 1
    · rw [h1, aupd_same, if_pos rfl]
    · rw [aupd_other _ _ _ h1, if_neg h1]
      by_cases h2 : x = lj
      · rw [h2, aupd_same, if_pos rfl]
      · rw [aupd_other _ _ _ h2, if_neg h2]
  have hipf : ∀ x, (rsDecMove s j).iptr x
      = if x = lj - 1 then s.iptr lj - s.icnt (lj - 1)
        else if x = lj then s.iptr lj + 1 else s.iptr x := by
    intro x
    show aupd (aupd s.iptr lj (s.iptr lj + 1)) (lj - 1)
        ((aupd s.iptr lj (s.iptr lj + 1)) lj
          - (aupd (aupd s.icnt lj (s.icnt lj - 1)) (lj - 1)
              (s.icnt (lj - 1) + 1)) (lj - 1)) x = _
    rw [aupd_same, aupd_same]
    by_cases h1 : x = lj - 1
    · rw [h1, aupd_same, if_pos rfl]
      omega
    · rw [aupd_other _ _ _ h1, if_neg h1]
      by_cases h2 : x = lj
      · rw [h2, aupd_same, if_pos rfl]
      · rw [aupd_other _ _ _ h2, if_neg h2]
  have hlamf : ∀ x, (rsDecMove s j).lam x
      = if x = j then lj - 1 else s.lam x := by
    intro x
    show aupd s.lam j (lj - 1) x = _
    by_cases h1 : x = j
    · rw [h1, aupd_same, if_pos rfl]
    · rw [aupd_other _ _ _ h1, if_neg h1]
  have hi2nf : ∀ p, p ≠ op → p ≠ np →
      (rsDecMove s j).i2n p = s.i2n p := w7
  have hi2n_np : (rsDecMove s j).i2n np = j := by
    have : (rsDecMove s j).i2n np = s.i2n op := w5
    rw [this, hij]
  have hi2n_op : op ≠ np → (rsDecMove s j).i2n op = s.i2n np := w6
  refine ⟨w1, w2, w3, w4, ?_, ?_, ?_, ?_, ?_, ?_⟩
  · intro p hpt hpn
    have e : (rsDecMove s j).i2n p = s.i2n p :=
      hi2nf p (by omega) (by omega)
    rw [e]
    exact h.high p hpt hpn
  · intro v hv0 hvn
    rw [hlamf v]
    by_cases h1 : v = j
    · rw [if_pos h1]
      omega
    · rw [if_neg h1]
      exact h.lam0 v hv0 hvn
  · intro l
    rw [hic l]
    have c1 := h.cnt0 (lj - 1)
    have c2 := h.cnt0 l
    by_cases h1 : l = lj - 1
    · rw [if_pos h1]
      omega
    · rw [if_neg h1]
      by_cases h2 : l = lj
      · rw [if_pos h2]
        omega
      · rw [if_neg h2]
        omega
  · intro l hl
    rw [hic l] at hl
    rw [hic l, hipf l]
    have hc1 := h.cnt0 (lj - 1)
    by_cases h1 : l = lj - 1
    · simp only [if_pos h1] at hl ⊢
      by_cases hc : 0 < s.icnt (lj - 1)
      · have := hadj hc
        have := (h.bsub (lj - 1) hc).1
        omega
      · have : s.icnt (lj - 1) = 0 := by omega
        omega
    · simp only [if_neg h1] at hl ⊢
      by_cases h2 : l = lj
      · simp only [if_pos h2] at hl ⊢
        omega
      · simp only [if_neg h2] at hl ⊢
        exact h.bsub l hl
  · intro p hp0 hpt
    by_cases hpnp : p = np
    · rw [hpnp, hi2n_np, hlamf j, if_pos rfl]
      unfold inB
      rw [hipf (lj - 1), if_pos rfl, hic (lj - 1), if_pos rfl]
      have := h.cnt0 (lj - 1)
      omega
    · by_cases hpop : p = op
      · have hopnp : op ≠ np := by
          rw [← hpop]
          exact fun hc => hpnp (hpop ▸ hc)
        rw [hpop, hi2n_op hopnp]
        have hzj : s.i2n np ≠ j := by
          intro hc
          rw [← hij] at hc
          exact hopnp (i2n_injOn h ⟨hnp0, hnpn⟩ hopb hc).symm
        rw [hlamf _, if_neg hzj, hzlam]
        unfold inB
        rw [hipf lj, if_neg (by omega), if_pos rfl, hic lj, if_neg (by omega),
          if_pos rfl]
        unfold inB at hmemj
        have hne : op ≠ np := hopnp
        omega
      · have e : (rsDecMove s j).i2n p = s.i2n p := hi2nf p hpop hpnp
        rw [e]
        have hwj : s.i2n p ≠ j := by
          intro hc
          rw [← hij] at hc
          exact hpop (i2n_injOn h ⟨hp0, by omega⟩ hopb hc)
        rw [hlamf _, if_neg hwj]
        have hm := h.bmem p hp0 hpt
        unfold inB at hm ⊢
        by_cases hw1 : s.lam (s.i2n p) = lj - 1
        · rw [hw1] at hm ⊢
          rw [hipf (lj - 1), if_pos rfl, hic (lj - 1), if_pos rfl]
          have hc : 0 < s.icnt (lj - 1) := by omega
          have := hadj hc
          omega
        · rw [hipf _, if_neg hw1, hic _, if_neg hw1]
          by_cases hw2 : s.lam (s.i2n p) = lj
          · rw [hw2] at hm ⊢
            rw [if_pos rfl, if_pos rfl]
            have : p ≠ np := hpnp
            omega
          · rw [if_neg hw2, if_neg hw2]
            exact hm
  · intro l m hlm hl hm
    rw [hic l] at hl
    rw [hic m] at hm
    rw [hic l, hipf l, hipf m]
    have hc1 := h.cnt0 (lj - 1)
    by_cases hm1 : m = lj - 1
    · have hlne1 : ¬ l = lj - 1 := by omega
      have hlne2 : ¬ l = lj := by omega
      simp only [if_pos hm1, if_neg hlne1, if_neg hlne2] at hl hm ⊢
      by_cases hc : 0 < s.icnt (lj - 1)
      · have := hadj hc
        have := h.bord l (lj - 1) (by omega) hl hc
        omega
      · have hz : s.icnt (lj - 1) = 0 := by omega
        have := h.bord l lj (by omega) hl hcnt
        omega
    · simp only [if_neg hm1] at hm ⊢
      by_cases hm2 : m = lj
      · simp only [if_pos hm2] at hm ⊢
        by_cases hl1 : l = lj - 1
        · simp only [if_pos hl1] at hl ⊢
          omega
        · have hlne2 : ¬ l = lj := by omega
          simp only [if_neg hl1, if_neg hlne2] at hl ⊢
          have := h.bord l lj (by omega) hl hcnt
          omega
      · simp only [if_neg hm2] at hm ⊢
        by_cases hl1 : l = lj - 1
        · simp only [if_pos hl1] at hl ⊢
          have := h.bord lj m (by omega) hcnt hm
          omega
        · simp only [if_neg hl1] at hl ⊢
          by_cases hl2 : l = lj
          · simp only [if_pos hl2] at hl ⊢
            have := h.bord lj m (by omega) hcnt hm
            omega
          · simp only [if_neg hl2] at hl ⊢
            exact h.bord l m hlm hl hm

theorem rsKstep_inv (n t : ℤ) (s : RSState) (k : ℤ) (h : RSInv n t s)
    (htn : t < n) (hk0 : 0 ≤ k) (hkn : k < n) :
    RSInv n t (rsKstep n s k) := by
  unfold rsKstep
  by_cases h1 : s.split k = U_NODE
  · rw [if_pos h1]
    by_cases h2 : n - 1 ≤ s.lam k
    · rw [if_pos h2]
      exact h
    · rw [if_neg h2]
      exact rsIncMove_inv n t s k h htn hk0 hkn h1
  · rw [if_neg h1]
    exact h

theorem rsJstep_inv (n t : ℤ) (s : RSState) (j : ℤ) (h : RSInv n t s)
    (htn : t < n) (hj0 : 0 ≤ j) (hjn : j < n) :
    RSInv n t (rsJstep s j) := by
  unfold rsJstep
  by_cases h1 : s.split j = U_NODE
  · rw [if_pos h1]
    by_cases h2 : s.lam j = 0
    · rw [if_pos h2]
      exact h
    · rw [if_neg h2]
      exact rsDecMove_inv n t s j h htn hj0 hjn h1 h2
  · rw [if_neg h1]
    exact h

/-- Writing any value into a node that is neither `F_NODE` nor `C_NODE`
cannot disturb the decided region above the top index. -/
theorem split_write_inv (n t : ℤ) (s : RSState) (w v : ℤ) (h : RSInv n t s)
    (hw1 : s.split w ≠ F_NODE) (hw2 : s.split w ≠ C_NODE) :
    RSInv n t { s with split := aupd s.split w v } := by
  refine ⟨h.i2n_lt, h.n2i_lt, h.ni_inv, h.in_inv, ?_, h.lam0, h.cnt0, h.bsub,
    h.bmem, h.bord⟩
  intro p hpt hpn
  show aupd s.split w v (s.i2n p) = F_NODE ∨ aupd s.split w v (s.i2n p) = C_NODE
  have hne : s.i2n p ≠ w := by
    intro hc
    rcases h.high p hpt hpn with hc2 | hc2 <;> rw [hc] at hc2
    · exact hw1 hc2
    · exact hw2 hc2
  rw [aupd_other _ _ _ hne]
  exact h.high p hpt hpn

theorem rsPhase1_inv (n t i : ℤ) (Tp Tj : ℤ → ℤ) (s : RSState)
    (h : RSInv n t s) : RSInv n t (rsPhase1 Tp Tj s i) := by
  unfold rsPhase1
  refine foldl_pres (RSInv n t) _ _ s h ?_
  intro b jj hb _
  by_cases hc : b.split (Tj jj) = U_NODE
  · rw [if_pos hc]
    exact split_write_inv n t b (Tj jj) PRE_F_NODE hb
      (by rw [hc]; decide) (by rw [hc]; decide)
  · rw [if_neg hc]
    exact hb

theorem rsPhase2_inv (n t i : ℤ) (Sp Sj Tp Tj : ℤ → ℤ) (s : RSState)
    (hS : CSRWF n Sp Sj) (hT : CSRWF n Tp Tj) (h : RSInv n t s)
    (htn : t < n) (hi0 : 0 ≤ i) (hin : i < n) :
    RSInv n t (rsPhase2 n Sp Sj Tp Tj s i) := by
  unfold rsPhase2
  refine foldl_pres (RSInv n t) _ _ s h ?_
  intro b jj hb hjj
  by_cases hc : b.split (Tj jj) = PRE_F_NODE
  · rw [if_pos hc]
    have hjjr : Tp i ≤ jj ∧ jj < Tp (i + 1) := mem_irange.mp hjj
    have hjblo : 0 ≤ jj := by
      have := hT.prefix_mono 0 i (le_refl 0) (by omega) (by omega)
      rw [hT.p0] at this
      omega
    have hjbhi : jj < Tp n := by
      have := hT.prefix_mono (i + 1) n (by omega) (by omega) (le_refl n)
      omega
    obtain ⟨hj0, hjn⟩ := hT.jmem jj hjblo hjbhi
    have hb' : RSInv n t { b with split := aupd b.split (Tj jj) F_NODE } :=
      split_write_inv n t b (Tj jj) F_NODE hb
        (by rw [hc]; decide) (by rw [hc]; decide)
    refine foldl_pres (RSInv n t) _ _ _ hb' ?_
    intro b2 kk hb2 hkk
    have hkkr : Sp (Tj jj) ≤ kk ∧ kk < Sp (Tj jj + 1) := mem_irange.mp hkk
    have hkblo : 0 ≤ kk := by
      have := hS.prefix_mono 0 (Tj jj) (le_refl 0) (by omega) (by omega)
      rw [hS.p0] at this
      omega
    have hkbhi : kk < Sp n := by
      have := hS.prefix_mono (Tj jj + 1) n (by omega) (by omega) (le_refl n)
      omega
    obtain ⟨hk0, hkn⟩ := hS.jmem kk hkblo hkbhi
    exact rsKstep_inv n t b2 (Sj kk) hb2 htn hk0 hkn
  · rw [if_neg hc]
    exact hb

theorem rsPhase3_inv (n t i : ℤ) (Sp Sj : ℤ → ℤ) (s : RSState)
    (hS : CSRWF n Sp Sj) (h : RSInv n t s)
    (htn : t < n) (hi0 : 0 ≤ i) (hin : i < n) :
    RSInv n t (rsPhase3 Sp Sj s i) := by
  unfold rsPhase3
  refine foldl_pres (RSInv n t) _ _ s h ?_
  intro b jj hb hjj
  have hjjr : Sp i ≤ jj ∧ jj < Sp (i + 1) := mem_irange.mp hjj
  have hjblo : 0 ≤ jj := by
    have := hS.prefix_mono 0 i (le_refl 0) (by omega) (by omega)
    rw [hS.p0] at this
    omega
  have hjbhi : jj < Sp n := by
    have := hS.prefix_mono (i + 1) n (by omega) (by omega) (le_refl n)
    omega
  obtain ⟨hj0, hjn⟩ := hS.jmem jj hjblo hjbhi
  exact rsJstep_inv n t b (Sj jj) hb htn hj0 hjn

theorem rsBody_eq (n : ℤ) (Sp Sj Tp Tj : ℤ → ℤ) (s : RSState) (t : ℤ) :
    rsBody n Sp Sj Tp Tj s t
      = if (rsDecTop s t).split ((rsDecTop s t).i2n t) = F_NODE
        then rsDecTop s t
        else rsPhase3 Sp Sj
          (rsPhase2 n Sp Sj Tp Tj
            (rsPhase1 Tp Tj
              { rsSelect (rsDecTop s t) t with
                split := aupd (rsSelect (rsDecTop s t) t).split
                  ((rsSelect (rsDecTop s t) t).i2n t) C_NODE }
              ((rsSelect (rsDecTop s t) t).i2n t))
            ((rsSelect (rsDecTop s t) t).i2n t))
          ((rsSelect (rsDecTop s t) t).i2n t) := rfl

/-- One iteration of the main selection loop preserves the invariant,
moving the top index down by one. -/
theorem rsBody_inv (n t : ℤ) (Sp Sj Tp Tj : ℤ → ℤ) (s : RSState)
    (hS : CSRWF n Sp Sj) (hT : CSRWF n Tp Tj) (h : RSInv n t s)
    (ht0 : 0 ≤ t) (htn : t < n) :
    RSInv n (t - 1) (rsBody n Sp Sj Tp Tj s t) := by
  obtain ⟨d1, d2, d3, d4⟩ := decTop_core n t s h ht0 htn
  rw [rsBody_eq]
  by_cases hF : (rsDecTop s t).split ((rsDecTop s t).i2n t) = F_NODE
  · rw [if_pos hF]
    refine ⟨h.i2n_lt, h.n2i_lt, h.ni_inv, h.in_inv, ?_, h.lam0, d1, ?_, d3, d4⟩
    · intro p hpt hpn
      by_cases hpt2 : p = t
      · left
        rw [hpt2]
        exact hF
      · exact h.high p (by omega) hpn
    · intro l hl
      have := d2 l hl
      omega
  · rw [if_neg hF]
    obtain ⟨hmi, hmax_eq, hmax_ge, hmax_all⟩ :=
      rsSearch_spec (rsDecTop s t) ((rsDecTop s t).lam ((rsDecTop s t).i2n t)) t
    set s1 := rsDecTop s t with hs1
    set mi := (rsSearch s1 (s1.lam (s1.i2n t)) t).2 with hmidef
    have hmib : 0 ≤ mi ∧ mi ≤ t := by
      rcases hmi with hmi' | hmi'
      · omega
      · have hcnt1 : 0 < s1.icnt (s1.lam (s1.i2n t)) := by omega
        have := d2 _ hcnt1
        omega
    have hmin : mi < n := by omega
    obtain ⟨w1, w2, w3, w4, w5, w6, w7⟩ :=
      swap_maps n s1.i2n s1.n2i t mi h.i2n_lt h.n2i_lt h.ni_inv h.in_inv
        ⟨ht0, htn⟩ ⟨hmib.1, hmin⟩
    set s2 := rsSelect s1 t with hs2
    have hw5 : s2.i2n mi = s1.i2n t := w5
    have hi2t : s2.i2n t = s1.i2n mi := by
      by_cases hc : t = mi
      · rw [hc, hw5, hc]
      · exact w6 hc
    have hi2b : 0 ≤ s2.i2n t ∧ s2.i2n t < n := by
      rw [hi2t]
      exact h.i2n_lt mi hmib.1 hmin
    have hs3inv : RSInv n (t - 1)
        { s2 with split := aupd s2.split (s2.i2n t) C_NODE } := by
      refine ⟨w1, w2, w3, w4, ?_, h.lam0, d1, ?_, ?_, d4⟩
      · intro p hpt hpn
        by_cases hpt2 : p = t
        · right
          show aupd s2.split (s2.i2n t) C_NODE
            ({ s2 with split := aupd s2.split (s2.i2n t) C_NODE }.i2n p) = C_NODE
          have : ({ s2 with split := aupd s2.split (s2.i2n t) C_NODE }.i2n p)
              = s2.i2n t := by
            rw [hpt2]
          rw [this, aupd_same]
        · have hptt : t < p := by omega
          have e : s2.i2n p = s1.i2n p := w7 p (by omega) (by omega)
          show aupd s2.split (s2.i2n t) C_NODE (s2.i2n p) = F_NODE ∨
            aupd s2.split (s2.i2n t) C_NODE (s2.i2n p) = C_NODE
          have hne : s2.i2n p ≠ s2.i2n t := by
            rw [e, hi2t]
            intro hc
            have := i2n_injOn h ⟨by omega, hpn⟩ ⟨hmib.1, hmin⟩ hc
            omega
          rw [aupd_other _ _ _ hne, e]
          exact h.high p hptt hpn
      · intro l hl
        have hl' : 0 < s1.icnt l := hl
        have := d2 l hl'
        show 0 ≤ s1.iptr l ∧ s1.iptr l + s1.icnt l ≤ t - 1 + 1
        omega
      · intro p hp0 hpt
        by_cases hpmi : p = mi
        · rcases hmi with hmi' | hmi'
          · omega
          · have e : ({ s2 with split := aupd s2.split (s2.i2n t) C_NODE }.i2n p)
                = s1.i2n t := by
              rw [hpmi]
              exact hw5
            unfold inB
            rw [e]
            have : s1.lam (s1.i2n t) = s1.lam (s1.i2n t) := rfl
            rw [hpmi]
            exact ⟨hmi'.1, hmi'.2⟩
        · have e : ({ s2 with split := aupd s2.split (s2.i2n t) C_NODE }.i2n p)
              = s1.i2n p := w7 p (by omega) hpmi
          have := d3 p hp0 hpt
          unfold inB at this ⊢
          rw [e]
          exact this
    have h1 := rsPhase1_inv n (t - 1) (s2.i2n t) Tp Tj _ hs3inv
    have h2 := rsPhase2_inv n (t - 1) (s2.i2n t) Sp Sj Tp Tj _ hS hT h1
      (by omega) hi2b.1 hi2b.2
    exact rsPhase3_inv n (t - 1) (s2.i2n t) Sp Sj _ hS h2
      (by omega) hi2b.1 hi2b.2

theorem foldl_max_le (f : ℤ → ℤ) :
    ∀ (l : List ℤ) (a0 : ℤ),
      a0 ≤ l.foldl (fun acc i => if f i > acc then f i else acc) a0 ∧
      ∀ i ∈ l, f i ≤ l.foldl (fun acc i => if f i > acc then f i else acc) a0 := by
  intro l
  induction l with
  | nil => intro a0; exact ⟨le_refl _, fun i hi => absurd hi (List.not_mem_nil i)⟩
  | cons x xs ih =>
    intro a0
    rw [List.foldl_cons]
    by_cases hx : f x > a0
    · rw [if_pos hx]
      obtain ⟨h1, h2⟩ := ih (f x)
      refine ⟨by omega, ?_⟩
      intro i hi
      rcases List.mem_cons.mp hi with hi | hi
      · subst hi; exact h1
      · exact h2 i hi
    · rw [if_neg hx]
      obtain ⟨h1, h2⟩ := ih a0
      refine ⟨h1, ?_⟩
      intro i hi
      rcases List.mem_cons.mp hi with hi | hi
      · subst hi; omega
      · exact h2 i hi

theorem irange_append : ∀ (k : ℕ) (a b c : ℤ), c - b = (k : ℤ) → a ≤ b → b ≤ c →
    irange a b ++ irange b c = irange a c := by
  intro k
  induction k with
  | zero =>
    intro a b c hk hab hbc
    have hcb : c = b := by omega
    rw [hcb, irange_empty (le_refl b), List.append_nil]
  | succ k ih =>
    intro a b c hk hab hbc
    have hbc' : b ≤ c - 1 := by omega
    have e : c = c - 1 + 1 := by omega
    rw [e, irange_succ_right (by omega), irange_succ_right (by omega),
      ← List.append_assoc, ih a b (c - 1) (by omega) hab hbc']

/-- Prefix sums of a count function: `Σ_{0 ≤ v < x} c v`. -/
def sumCnt (c : ℤ → ℤ) (x : ℤ) : ℤ := ((irange 0 x).map c).sum

theorem sumCnt_nonpos (c : ℤ → ℤ) (x : ℤ) (h : x ≤ 0) : sumCnt c x = 0 := by
  unfold sumCnt
  rw [irange_empty h]
  rfl

theorem sumCnt_succ (c : ℤ → ℤ) (x : ℤ) (h : 0 ≤ x) :
    sumCnt c (x + 1) = sumCnt c x + c x := by
  unfold sumCnt
  rw [irange_succ_right h, List.map_append, List.sum_append]
  simp

theorem sumCnt_mono (c : ℤ → ℤ) (hc : ∀ v, 0 ≤ c v) :
    ∀ (k : ℕ) (a b : ℤ), b - a = (k : ℤ) → a ≤ b → sumCnt c a ≤ sumCnt c b := by
  intro k
  induction k with
  | zero =>
    intro a b hk _
    have : b = a := by omega
    subst this
    exact le_refl _
  | succ k ih =>
    intro a b hk hab
    have h1 : sumCnt c a ≤ sumCnt c (b - 1) := ih a (b - 1) (by omega) (by omega)
    by_cases hb : 0 ≤ b - 1
    · have hs := sumCnt_succ c (b - 1) hb
      have e : b - 1 + 1 = b := by omega
      rw [e] at hs
      have hcb := hc (b - 1)
      omega
    · have e1 : sumCnt c b = 0 := sumCnt_nonpos c b (by omega)
      have e2 : sumCnt c (b - 1) = 0 := sumCnt_nonpos c (b - 1) (by omega)
      omega

theorem sumCnt_nonneg (c : ℤ → ℤ) (hc : ∀ v, 0 ≤ c v) (x : ℤ) :
    0 ≤ sumCnt c x := by
  by_cases hx : 0 ≤ x
  · have := sumCnt_mono c hc x.toNat 0 x (by omega) hx
    rw [sumCnt_nonpos c 0 (le_refl 0)] at this
    exact this
  · rw [sumCnt_nonpos c x (by omega)]

/-- The number of nodes in `[0,n)` whose λ equals `v`. -/
def cntOf (n : ℤ) (lam : ℤ → ℤ) (v : ℤ) : ℤ :=
  (((irange 0 n).filter (fun i => lam i = v)).length : ℤ)

theorem rsCnt1_eq (n : ℤ) (lam : ℤ → ℤ) (v : ℤ) :
    rsCnt1 n lam v = cntOf n lam v := by
  unfold rsCnt1 cntOf
  rw [foldl_count_eval]
  omega

theorem cntOf_nonneg (n : ℤ) (lam : ℤ → ℤ) (v : ℤ) : 0 ≤ cntOf n lam v := by
  unfold cntOf
  positivity

theorem cntOf_zero_out (n lmax : ℤ) (lam : ℤ → ℤ)
    (hb : ∀ i, 0 ≤ i → i < n → 0 ≤ lam i ∧ lam i < lmax)
    (v : ℤ) (hv : v < 0 ∨ lmax ≤ v) : cntOf n lam v = 0 := by
  unfold cntOf
  have : (irange 0 n).filter (fun i => lam i = v) = [] := by
    rw [List.filter_eq_nil]
    intro i hi
    obtain ⟨h1, h2⟩ := mem_irange.mp hi
    have := hb i h1 h2
    simp only [decide_eq_true_eq]
    omega
  rw [this]
  rfl

/-- Counting strictly more matches over a longer prefix that contains a
match at its end region. -/
theorem cntOf_lt (n : ℤ) (lam : ℤ → ℤ) (i m : ℤ) (hi : 0 ≤ i) (him : i < m)
    (hmn : m ≤ n) :
    cntOf i lam (lam i) < cntOf m lam (lam i) := by
  unfold cntOf
  have hsplit : irange 0 i ++ irange i m = irange 0 m :=
    irange_append (m - i).toNat 0 i m (by omega) hi (by omega)
  rw [← hsplit, List.filter_append, List.length_append]
  have : 0 < ((irange i m).filter (fun i' => lam i' = lam i)).length := by
    have hmem : i ∈ (irange i m).filter (fun i' => lam i' = lam i) := by
      rw [List.mem_filter]
      exact ⟨mem_irange.mpr ⟨le_refl i, him⟩, by simp⟩
    exact List.length_pos.mpr (fun hc => by rw [hc] at hmem; exact List.not_mem_nil i hmem)
  omega

theorem sum_map_add {α : Type} (f g : α → ℤ) :
    ∀ l : List α, (l.map (fun x => f x + g x)).sum = (l.map f).sum + (l.map g).sum := by
  intro l
  induction l with
  | nil => rfl
  | cons x xs ih =>
    simp only [List.map_cons, List.sum_cons, ih]
    ring

theorem sum_indicator (x : ℤ) :
    ∀ l : List ℤ, l.Nodup →
      (l.map (fun v => if x = v then (1 : ℤ) else 0)).sum = if x ∈ l then 1 else 0 := by
  intro l
  induction l with
  | nil => intro _; simp
  | cons y ys ih =>
    intro hnd
    obtain ⟨hy, hnd'⟩ := List.nodup_cons.mp hnd
    simp only [List.map_cons, List.sum_cons, ih hnd']
    by_cases hxy : x = y
    · subst hxy
      rw [if_pos rfl, if_neg hy, if_pos (List.mem_cons_self _ _)]
      omega
    · rw [if_neg hxy]
      by_cases hxm : x ∈ ys
      · rw [if_pos hxm, if_pos (List.mem_cons_of_mem _ hxm)]
        omega
      · rw [if_neg hxm, if_neg (by simp [hxy, hxm])]
        omega

theorem filter_length_partition (key : ℤ → ℤ) :
    ∀ (l : List ℤ) (m : ℤ), (∀ i ∈ l, 0 ≤ key i ∧ key i < m) →
      ((irange 0 m).map
        (fun v => ((l.filter (fun i => key i = v)).length : ℤ))).sum
        = (l.length : ℤ) := by
  intro l
  induction l with
  | nil =>
    intro m _
    simp
  | cons i l' ih =>
    intro m hmem
    have hk := hmem i (List.mem_cons_self _ _)
    have hstep : ∀ v, (((i :: l').filter (fun j => key j = v)).length : ℤ)
        = ((l'.filter (fun j => key j = v)).length : ℤ)
          + (if key i = v then 1 else 0) := by
      intro v
      rw [List.filter_cons]
      by_cases hc : key i = v
      · simp [hc]
      · simp [hc]
    rw [List.map_congr_left (fun v _ => hstep v), sum_map_add,
      ih m (fun j hj => hmem j (List.mem_cons_of_mem _ hj)),
      sum_indicator (key i) _ (irange_nodup 0 m),
      if_pos (mem_irange.mpr ⟨hk.1, hk.2⟩)]
    simp

theorem rsPtrCnt_fold (cnt1 : ℤ → ℤ) :
    ∀ (k : ℕ) (m : ℤ), m = (k : ℤ) →
      (∀ x, ((irange 0 m).foldl
          (fun st i => (aupd st.1 i st.2.2, aupd st.2.1 i 0, st.2.2 + st.2.1 i))
          (fun _ => 0, cnt1, 0)).1 x
        = if 0 ≤ x ∧ x < m then sumCnt cnt1 x else 0) ∧
      (∀ x, ((irange 0 m).foldl
          (fun st i => (aupd st.1 i st.2.2, aupd st.2.1 i 0, st.2.2 + st.2.1 i))
          (fun _ => 0, cnt1, 0)).2.1 x
        = if 0 ≤ x ∧ x < m then 0 else cnt1 x) ∧
      ((irange 0 m).foldl
          (fun st i => (aupd st.1 i st.2.2, aupd st.2.1 i 0, st.2.2 + st.2.1 i))
          (fun _ => 0, cnt1, 0)).2.2 = sumCnt cnt1 m := by
  intro k
  induction k with
  | zero =>
    intro m hm
    have hm0 : m = 0 := by omega
    subst hm0
    rw [irange_empty (le_refl 0)]
    refine ⟨?_, ?_, ?_⟩
    · intro x
      rw [if_neg (by omega)]
      rfl
    · intro x
      rw [if_neg (by omega)]
      rfl
    · rw [sumCnt_nonpos cnt1 0 (le_refl 0)]
      rfl
  | succ k ih =>
    intro m hm
    have hm1 : 0 ≤ m - 1 := by omega
    obtain ⟨ih1, ih2, ih3⟩ := ih (m - 1) (by omega)
    have hsplit : irange 0 m = irange 0 (m - 1) ++ [m - 1] := by
      have e : m = m - 1 + 1 := by omega
      conv_lhs => rw [e]
      rw [irange_succ_right hm1]
    rw [hsplit, List.foldl_append, List.foldl_cons, List.foldl_nil]
    refine ⟨?_, ?_, ?_⟩
    · intro x
      show aupd _ (m - 1) _ x = _
      by_cases hx : x = m - 1
      · rw [hx, aupd_same, if_pos (by omega), ih3]
      · rw [aupd_other _ _ _ hx, ih1 x]
        by_cases hc : 0 ≤ x ∧ x < m - 1
        · rw [if_pos hc, if_pos (by omega)]
        · rw [if_neg hc, if_neg (by omega)]
    · intro x
      show aupd _ (m - 1) 0 x = _
      by_cases hx : x = m - 1
      · rw [hx, aupd_same, if_pos (by omega)]
      · rw [aupd_other _ _ _ hx, ih2 x]
        by_cases hc : 0 ≤ x ∧ x < m - 1
        · rw [if_pos hc, if_pos (by omega)]
        · rw [if_neg hc, if_neg (by omega)]
    · show ((irange 0 (m - 1)).foldl
          (fun st i => (aupd st.1 i st.2.2, aupd st.2.1 i 0, st.2.2 + st.2.1 i))
          (fun _ => 0, cnt1, 0)).2.2
        + ((irange 0 (m - 1)).foldl
          (fun st i => (aupd st.1 i st.2.2, aupd st.2.1 i 0, st.2.2 + st.2.1 i))
          (fun _ => 0, cnt1, 0)).2.1 (m - 1) = sumCnt cnt1 m
      rw [ih3, ih2 (m - 1), if_neg (by omega)]
      have hs := sumCnt_succ cnt1 (m - 1) hm1
      have e : m - 1 + 1 = m := by omega
      rw [e] at hs
      omega

theorem rsPtrCnt_spec (lmax : ℤ) (cnt1 : ℤ → ℤ) (hl : 0 ≤ lmax) :
    (∀ x, (rsPtrCnt lmax cnt1).1 x
      = if 0 ≤ x ∧ x < lmax then sumCnt cnt1 x else 0) ∧
    (∀ x, (rsPtrCnt lmax cnt1).2.1 x
      = if 0 ≤ x ∧ x < lmax then 0 else cnt1 x) ∧
    (rsPtrCnt lmax cnt1).2.2 = sumCnt cnt1 lmax :=
  rsPtrCnt_fold cnt1 lmax.toNat lmax (by omega)

theorem rsPlace_proj3 (lam iptr : ℤ → ℤ) :
    ∀ (l : List ℤ) (a b c : ℤ → ℤ),
      (l.foldl (fun (st : (ℤ → ℤ) × (ℤ → ℤ) × (ℤ → ℤ)) i =>
        (aupd st.1 (iptr (lam i) + st.2.2 (lam i)) i,
         aupd st.2.1 i (iptr (lam i) + st.2.2 (lam i)),
         aupd st.2.2 (lam i) (st.2.2 (lam i) + 1))) (a, b, c)).2.2
      = l.foldl (fun c2 i => aupd c2 (lam i) (c2 (lam i) + 1)) c := by
  intro l
  induction l with
  | nil => intro a b c; rfl
  | cons x xs ih =>
    intro a b c
    rw [List.foldl_cons, List.foldl_cons]
    exact ih _ _ _

theorem rsPlace_icnt (n : ℤ) (lam iptr icnt0 : ℤ → ℤ) (x : ℤ) :
    (rsPlace n lam iptr icnt0).2.2 x = icnt0 x + cntOf n lam x := by
  unfold rsPlace
  rw [rsPlace_proj3, foldl_count_eval]
  unfold cntOf
  omega

/-- The position assigned to node `i` by the placement loop: the start of
its λ bucket plus its rank among earlier nodes with the same λ. -/
def rsPos (lam iptr : ℤ → ℤ) (i : ℤ) : ℤ :=
  iptr (lam i) + cntOf i lam (lam i)

theorem rsPlace_fold (n : ℤ) (lam iptr icnt0 : ℤ → ℤ)
    (hz : ∀ x, 0 ≤ x → x < n → icnt0 (lam x) = 0)
    (hinj : ∀ i j, 0 ≤ i → i < n → 0 ≤ j → j < n →
      rsPos lam iptr i = rsPos lam iptr j → i = j) :
    ∀ (k : ℕ) (m : ℤ), m = (k : ℤ) → m ≤ n →
      (∀ i, 0 ≤ i → i < m →
        ((irange 0 m).foldl (fun (st : (ℤ → ℤ) × (ℤ → ℤ) × (ℤ → ℤ)) i =>
          (aupd st.1 (iptr (lam i) + st.2.2 (lam i)) i,
           aupd st.2.1 i (iptr (lam i) + st.2.2 (lam i)),
           aupd st.2.2 (lam i) (st.2.2 (lam i) + 1)))
          ((fun _ => 0), (fun _ => 0), icnt0)).2.1 i = rsPos lam iptr i) ∧
      (∀ i, 0 ≤ i → i < m →
        ((irange 0 m).foldl (fun (st : (ℤ → ℤ) × (ℤ → ℤ) × (ℤ → ℤ)) i =>
          (aupd st.1 (iptr (lam i) + st.2.2 (lam i)) i,
           aupd st.2.1 i (iptr (lam i) + st.2.2 (lam i)),
           aupd st.2.2 (lam i) (st.2.2 (lam i) + 1)))
          ((fun _ => 0), (fun _ => 0), icnt0)).1 (rsPos lam iptr i) = i) := by
  intro k
  induction k with
  | zero =>
    intro m hm _
    have hm0 : m = 0 := by omega
    subst hm0
    exact ⟨fun i h1 h2 => by omega, fun i h1 h2 => by omega⟩
  | succ k ih =>
    intro m hm hmn
    have hm1 : 0 ≤ m - 1 := by omega
    obtain ⟨ih1, ih2⟩ := ih (m - 1) (by omega) (by omega)
    have hsplit : irange 0 m = irange 0 (m - 1) ++ [m - 1] := by
      have e : m = m - 1 + 1 := by omega
      conv_lhs => rw [e]
      rw [irange_succ_right hm1]
    have hcnt : ((irange 0 (m - 1)).foldl (fun (st : (ℤ → ℤ) × (ℤ → ℤ) × (ℤ → ℤ)) i =>
        (aupd st.1 (iptr (lam i) + st.2.2 (lam i)) i,
         aupd st.2.1 i (iptr (lam i) + st.2.2 (lam i)),
         aupd st.2.2 (lam i) (st.2.2 (lam i) + 1)))
        ((fun _ => 0), (fun _ => 0), icnt0)).2.2 (lam (m - 1))
        = cntOf (m - 1) lam (lam (m - 1)) := by
      rw [rsPlace_proj3, foldl_count_eval, hz (m - 1) hm1 (by omega)]
      unfold cntOf
      omega
    have hpos : iptr (lam (m - 1))
        + ((irange 0 (m - 1)).foldl (fun (st : (ℤ → ℤ) × (ℤ → ℤ) × (ℤ → ℤ)) i =>
          (aupd st.1 (iptr (lam i) + st.2.2 (lam i)) i,
           aupd st.2.1 i (iptr (lam i) + st.2.2 (lam i)),
           aupd st.2.2 (lam i) (st.2.2 (lam i) + 1)))
          ((fun _ => 0), (fun _ => 0), icnt0)).2.2 (lam (m - 1))
        = rsPos lam iptr (m - 1) := by
      rw [hcnt]
      rfl
    rw [hsplit, List.foldl_append, List.foldl_cons, List.foldl_nil]
    constructor
    · intro i h1 h2
      show aupd _ (m - 1) _ i = _
      by_cases hx : i = m - 1
      · rw [hx, aupd_same]
        exact hpos
      · rw [aupd_other _ _ _ hx]
        exact ih1 i h1 (by omega)
    · intro i h1 h2
      show aupd _ _ (m - 1) (rsPos lam iptr i) = _
      by_cases hx : i = m - 1
      · rw [hx]
        have e : iptr (lam (m - 1))
            + ((irange 0 (m - 1)).foldl (fun (st : (ℤ → ℤ) × (ℤ → ℤ) × (ℤ → ℤ)) i =>
              (aupd st.1 (iptr (lam i) + st.2.2 (lam i)) i,
               aupd st.2.1 i (iptr (lam i) + st.2.2 (lam i)),
               aupd st.2.2 (lam i) (st.2.2 (lam i) + 1)))
              ((fun _ => 0), (fun _ => 0), icnt0)).2.2 (lam (m - 1))
            = rsPos lam iptr (m - 1) := hpos
        rw [e, aupd_same]
      · have hne : rsPos lam iptr i ≠ rsPos lam iptr (m - 1) := by
          intro hc
          exact hx (hinj i (m - 1) h1 (by omega) hm1 (by omega) hc)
        have e2 : aupd ((irange 0 (m - 1)).foldl (fun (st : (ℤ → ℤ) × (ℤ → ℤ) × (ℤ → ℤ)) i =>
              (aupd st.1 (iptr (lam i) + st.2.2 (lam i)) i,
               aupd st.2.1 i (iptr (lam i) + st.2.2 (lam i)),
               aupd st.2.2 (lam i) (st.2.2 (lam i) + 1)))
              ((fun _ => 0), (fun _ => 0), icnt0)).1
            (iptr (lam (m - 1))
              + ((irange 0 (m - 1)).foldl (fun (st : (ℤ → ℤ) × (ℤ → ℤ) × (ℤ → ℤ)) i =>
                (aupd st.1 (iptr (lam i) + st.2.2 (lam i)) i,
                 aupd st.2.1 i (iptr (lam i) + st.2.2 (lam i)),
                 aupd st.2.2 (lam i) (st.2.2 (lam i) + 1)))
                ((fun _ => 0), (fun _ => 0), icnt0)).2.2 (lam (m - 1)))
            (m - 1) (rsPos lam iptr i)
          = ((irange 0 (m - 1)).foldl (fun (st : (ℤ → ℤ) × (ℤ → ℤ) × (ℤ → ℤ)) i =>
              (aupd st.1 (iptr (lam i) + st.2.2 (lam i)) i,
               aupd st.2.1 i (iptr (lam i) + st.2.2 (lam i)),
               aupd st.2.2 (lam i) (st.2.2 (lam i) + 1)))
              ((fun _ => 0), (fun _ => 0), icnt0)).1 (rsPos lam iptr i) := by
          rw [hpos]
          exact aupd_other _ _ _ hne
        rw [e2]
        exact ih2 i h1 (by omega)

/-- The counting-sort initialisation establishes the loop invariant at
`top_index = n-1`: the buckets tile `[0,n)` in λ order and the position
maps are mutually inverse. -/
theorem rsInit_inv (n : ℤ) (Tp Tj influence sp : ℤ → ℤ) (hn : 0 ≤ n)
    (hlam0 : ∀ v, 0 ≤ v → v < n → 0 ≤ rsLam Tp influence v) :
    RSInv n (n - 1) (rsInit n Tp Tj influence sp) := by
  set lam := rsLam Tp influence with hlamdef
  set lm0 := rsLamMax0 n lam with hlm0def
  set lmax := rsLamMax n lm0 with hlmaxdef
  set cnt1 := rsCnt1 n lam with hcnt1def
  have hmax := foldl_max_le lam (irange 0 n) 0
  have hlm0a : 0 ≤ lm0 := hmax.1
  have hlm0b : ∀ i, 0 ≤ i → i < n → lam i ≤ lm0 :=
    fun i h1 h2 => hmax.2 i (mem_irange.mpr ⟨h1, h2⟩)
  have hlmax_def2 : lmax = if n + 1 > lm0 * 2 then n + 1 else lm0 * 2 := rfl
  have hlb : ∀ i, 0 ≤ i → i < n → 0 ≤ lam i ∧ lam i < lmax := by
    intro i h1 h2
    have ha := hlam0 i h1 h2
    have hb := hlm0b i h1 h2
    rw [hlmax_def2]
    by_cases hc : n + 1 > lm0 * 2
    · rw [if_pos hc]
      omega
    · rw [if_neg hc]
      omega
  have hlmaxpos : 0 ≤ lmax := by
    rw [hlmax_def2]
    by_cases hc : n + 1 > lm0 * 2
    · rw [if_pos hc]
      omega
    · rw [if_neg hc]
      omega
  obtain ⟨hpt, hct, hcum⟩ := rsPtrCnt_spec lmax cnt1 hlmaxpos
  have hcnt1nn : ∀ v, 0 ≤ cnt1 v := by
    intro v
    show 0 ≤ rsCnt1 n lam v
    rw [rsCnt1_eq]
    exact cntOf_nonneg n lam v
  have hcnt1eq : ∀ v, cnt1 v = cntOf n lam v := fun v => rsCnt1_eq n lam v
  have htotal : sumCnt cnt1 lmax = n := by
    unfold sumCnt
    rw [List.map_congr_left (fun v _ => hcnt1eq v)]
    have hpart := filter_length_partition lam (irange 0 n) lmax (fun i hi => by
      obtain ⟨h1, h2⟩ := mem_irange.mp hi
      exact hlb i h1 h2)
    unfold cntOf
    rw [hpart, length_irange]
    omega
  have hiptr_in : ∀ v, 0 ≤ v → v < lmax →
      (rsPtrCnt lmax cnt1).1 v = sumCnt cnt1 v :=
    fun v h1 h2 => by rw [hpt v, if_pos ⟨h1, h2⟩]
  set iptrF := (rsPtrCnt lmax cnt1).1 with hiptrFdef
  set pos := rsPos lam iptrF with hposdef
  have hposval : ∀ i, 0 ≤ i → i < n →
      pos i = sumCnt cnt1 (lam i) + cntOf i lam (lam i) := by
    intro i h1 h2
    show iptrF (lam i) + cntOf i lam (lam i) = _
    rw [hiptr_in (lam i) (hlb i h1 h2).1 (hlb i h1 h2).2]
  have hrank_nn : ∀ i : ℤ, 0 ≤ cntOf i lam (lam i) :=
    fun i => cntOf_nonneg i lam (lam i)
  have hrank_lt : ∀ i, 0 ≤ i → i < n → cntOf i lam (lam i) < cntOf n lam (lam i) :=
    fun i h1 h2 => cntOf_lt n lam i n h1 h2 (le_refl n)
  have hposb : ∀ i, 0 ≤ i → i < n → 0 ≤ pos i ∧ pos i < n := by
    intro i h1 h2
    rw [hposval i h1 h2]
    have hlbi := hlb i h1 h2
    have hs1 := sumCnt_nonneg cnt1 hcnt1nn (lam i)
    have hs2 := sumCnt_succ cnt1 (lam i) (hlb i h1 h2).1
    have hs3 := sumCnt_mono cnt1 hcnt1nn (lmax - (lam i + 1)).toNat (lam i + 1) lmax
      (by omega) (by omega)
    have hr1 := hrank_nn i
    have hr2 := hrank_lt i h1 h2
    have hce := hcnt1eq (lam i)
    omega
  have hpos_sep : ∀ i j, 0 ≤ i → i < n → 0 ≤ j → j < n → lam i < lam j →
      pos i < pos j := by
    intro i j hi1 hi2 hj1 hj2 hij
    rw [hposval i hi1 hi2, hposval j hj1 hj2]
    have hs2 := sumCnt_succ cnt1 (lam i) (hlb i hi1 hi2).1
    have hs3 := sumCnt_mono cnt1 hcnt1nn ((lam j) - (lam i + 1)).toNat (lam i + 1)
      (lam j) (by omega) (by omega)
    have hr2 := hrank_lt i hi1 hi2
    have hce := hcnt1eq (lam i)
    have hrj := cntOf_nonneg j lam (lam j)
    omega
  have hposinj : ∀ i j, 0 ≤ i → i < n → 0 ≤ j → j < n → pos i = pos j → i = j := by
    intro i j hi1 hi2 hj1 hj2 he
    by_contra hne
    rcases lt_trichotomy (lam i) (lam j) with hc | hc | hc
    · have := hpos_sep i j hi1 hi2 hj1 hj2 hc
      omega
    · rcases lt_trichotomy i j with hc2 | hc2 | hc2
      · have h1 := cntOf_lt n lam i j hi1 hc2 (by omega)
        rw [hposval i hi1 hi2, hposval j hj1 hj2] at he
        rw [hc] at he h1
        omega
      · exact hne hc2
      · have h1 := cntOf_lt n lam j i hj1 hc2 (by omega)
        rw [hposval i hi1 hi2, hposval j hj1 hj2] at he
        rw [hc] at he
        rw [← hc] at h1
        rw [hc] at h1
        omega
    · have := hpos_sep j i hj1 hj2 hi1 hi2 hc
      omega
  have hz : ∀ x, 0 ≤ x → x < n → (rsPtrCnt lmax cnt1).2.1 (lam x) = 0 := by
    intro x h1 h2
    rw [hct (lam x), if_pos ⟨(hlb x h1 h2).1, (hlb x h1 h2).2⟩]
  obtain ⟨hpl1, hpl2⟩ :=
    rsPlace_fold n lam iptrF (rsPtrCnt lmax cnt1).2.1 hz hposinj n.toNat n
      (by omega) (le_refl n)
  have hpl1' : ∀ i, 0 ≤ i → i < n →
      (rsPlace n lam iptrF (rsPtrCnt lmax cnt1).2.1).2.1 i = pos i := hpl1
  have hpl2' : ∀ i, 0 ≤ i → i < n →
      (rsPlace n lam iptrF (rsPtrCnt lmax cnt1).2.1).1 (pos i) = i := hpl2
  have hLnodup : ((irange 0 n).map pos).Nodup :=
    List.Nodup.map_on
      (fun x hx y hy he => hposinj x y (mem_irange.mp hx).1 (mem_irange.mp hx).2
        (mem_irange.mp hy).1 (mem_irange.mp hy).2 he)
      (irange_nodup 0 n)
  have hLsub : (irange 0 n).map pos ⊆ irange 0 n := by
    intro p hp
    rcases List.mem_map.mp hp with ⟨i, hi, rfl⟩
    obtain ⟨h1, h2⟩ := mem_irange.mp hi
    exact mem_irange.mpr (hposb i h1 h2)
  have hperm : ((irange 0 n).map pos).Perm (irange 0 n) :=
    (List.subperm_of_subset hLnodup hLsub).perm_of_length_le
      (by rw [List.length_map])
  have hsurj : ∀ p, 0 ≤ p → p < n → ∃ i, (0 ≤ i ∧ i < n) ∧ pos i = p := by
    intro p h1 h2
    have hmem : p ∈ (irange 0 n).map pos :=
      hperm.mem_iff.mpr (mem_irange.mpr ⟨h1, h2⟩)
    rcases List.mem_map.mp hmem with ⟨i, hi, he⟩
    exact ⟨i, ⟨(mem_irange.mp hi).1, (mem_irange.mp hi).2⟩, he⟩
  have hicnt_in : ∀ v, 0 ≤ v → v < lmax →
      (rsPlace n lam iptrF (rsPtrCnt lmax cnt1).2.1).2.2 v = cntOf n lam v := by
    intro v h1 h2
    rw [rsPlace_icnt, hct v, if_pos ⟨h1, h2⟩]
    omega
  have hicnt_out : ∀ v, ¬(0 ≤ v ∧ v < lmax) →
      (rsPlace n lam iptrF (rsPtrCnt lmax cnt1).2.1).2.2 v = 0 := by
    intro v hv
    rw [rsPlace_icnt, hct v, if_neg hv, hcnt1eq v,
      cntOf_zero_out n lmax lam hlb v (by omega)]
    omega
  have eI : (rsInit n Tp Tj influence sp).i2n
      = (rsPlace n lam iptrF (rsPtrCnt lmax cnt1).2.1).1 := rfl
  have eN : (rsInit n Tp Tj influence sp).n2i
      = (rsPlace n lam iptrF (rsPtrCnt lmax cnt1).2.1).2.1 := rfl
  have eC : (rsInit n Tp Tj influence sp).icnt
      = (rsPlace n lam iptrF (rsPtrCnt lmax cnt1).2.1).2.2 := rfl
  have eP : (rsInit n Tp Tj influence sp).iptr = iptrF := rfl
  have eL : (rsInit n Tp Tj influence sp).lam = lam := rfl
  refine ⟨?_, ?_, ?_, ?_, ?_, ?_, ?_, ?_, ?_, ?_⟩
  · intro p h1 h2
    obtain ⟨i, ⟨hi1, hi2⟩, hie⟩ := hsurj p h1 h2
    rw [eI, ← hie, hpl2' i hi1 hi2]
    omega
  · intro v h1 h2
    rw [eN, hpl1' v h1 h2]
    exact hposb v h1 h2
  · intro p h1 h2
    obtain ⟨i, ⟨hi1, hi2⟩, hie⟩ := hsurj p h1 h2
    rw [eI, eN, ← hie, hpl2' i hi1 hi2]
    exact hpl1' i hi1 hi2
  · intro v h1 h2
    rw [eI, eN, hpl1' v h1 h2]
    exact hpl2' v h1 h2
  · intro p h1 h2
    exact absurd h2 (by omega)
  · intro v h1 h2
    rw [eL]
    exact hlam0 v h1 h2
  · intro l
    rw [eC]
    by_cases hc : 0 ≤ l ∧ l < lmax
    · rw [hicnt_in l hc.1 hc.2]
      exact cntOf_nonneg n lam l
    · rw [hicnt_out l hc]
  · intro l hl
    rw [eC] at hl
    rw [eC, eP]
    by_cases hc : 0 ≤ l ∧ l < lmax
    · rw [hicnt_in l hc.1 hc.2] at hl ⊢
      rw [hiptr_in l hc.1 hc.2]
      constructor
      · exact sumCnt_nonneg cnt1 hcnt1nn l
      · have hs2 := sumCnt_succ cnt1 l hc.1
        have hs3 := sumCnt_mono cnt1 hcnt1nn (lmax - (l + 1)).toNat (l + 1) lmax
          (by omega) (by omega)
        have hce := hcnt1eq l
        omega
    · rw [hicnt_out l hc] at hl
      omega
  · intro p h1 h2
    obtain ⟨i, ⟨hi1, hi2⟩, hie⟩ := hsurj p h1 (by omega)
    unfold inB
    rw [eI, eP, eC, eL, ← hie, hpl2' i hi1 hi2]
    rw [hicnt_in (lam i) (hlb i hi1 hi2).1 (hlb i hi1 hi2).2,
      hiptr_in (lam i) (hlb i hi1 hi2).1 (hlb i hi1 hi2).2,
      hposval i hi1 hi2]
    have hr1 := hrank_nn i
    have hr2 := hrank_lt i hi1 hi2
    omega
  · intro l m hlm hl hm
    rw [eC] at hl hm
    rw [eC, eP]
    have hcl : 0 ≤ l ∧ l < lmax := by
      by_contra hc
      rw [hicnt_out l hc] at hl
      omega
    have hcm : 0 ≤ m ∧ m < lmax := by
      by_contra hc
      rw [hicnt_out m hc] at hm
      omega
    rw [hicnt_in l hcl.1 hcl.2, hiptr_in l hcl.1 hcl.2, hiptr_in m hcm.1 hcm.2]
    have hs2 := sumCnt_succ cnt1 l hcl.1
    have hs3 := sumCnt_mono cnt1 hcnt1nn (m - (l + 1)).toNat (l + 1) m
      (by omega) (by omega)
    have hce := hcnt1eq l
    omega

/-- Running the main loop from `top_index = b-1` down to `a` carries the
invariant from `b-1` to `a-1`. -/
theorem rsLoop_inv (n : ℤ) (Sp Sj Tp Tj : ℤ → ℤ)
    (hS : CSRWF n Sp Sj) (hT : CSRWF n Tp Tj) :
    ∀ (k : ℕ) (a b : ℤ) (s : RSState), b - a = (k : ℤ) → 0 ≤ a → a ≤ b → b ≤ n →
      RSInv n (b - 1) s →
      RSInv n (a - 1) ((irange a b).reverse.foldl (rsBody n Sp Sj Tp Tj) s) := by
  intro k
  induction k with
  | zero =>
    intro a b s hk ha hab hbn hinv
    have hba : b = a := by omega
    subst hba
    rw [irange_empty (le_refl b)]
    exact hinv
  | succ k ih =>
    intro a b s hk ha hab hbn hinv
    have hbe : b = b - 1 + 1 := by omega
    have hsplit : irange a b = irange a (b - 1) ++ [b - 1] := by
      conv_lhs => rw [hbe]
      rw [irange_succ_right (by omega)]
    rw [hsplit, List.reverse_append, List.reverse_singleton, List.singleton_append,
      List.foldl_cons]
    exact ih a (b - 1) (rsBody n Sp Sj Tp Tj s (b - 1)) (by omega) ha (by omega)
      (by omega)
      (rsBody_inv n (b - 1) Sp Sj Tp Tj s hS hT hinv (by omega) (by omega))

/-- On exit from `rs_cf_splitting`, every node of a well-formed input is
decided. -/
theorem rs_split_complete (n : ℤ) (Sp Sj Tp Tj influence sp : ℤ → ℤ)
    (hS : CSRWF n Sp Sj) (hT : CSRWF n Tp Tj)
    (hinf : ∀ v, 0 ≤ v → v < n → 0 ≤ influence v)
    (v : ℤ) (h0 : 0 ≤ v) (h1 : v < n) :
    rs_cf_splitting n Sp Sj Tp Tj influence sp v = F_NODE ∨
    rs_cf_splitting n Sp Sj Tp Tj influence sp v = C_NODE := by
  have hn : 0 ≤ n := by omega
  have hlam0 : ∀ w, 0 ≤ w → w < n → 0 ≤ rsLam Tp influence w := by
    intro w hw1 hw2
    unfold rsLam
    have := hT.mono w hw1 hw2
    have := hinf w hw1 hw2
    omega
  have hinit := rsInit_inv n Tp Tj influence sp hn hlam0
  have hfin := rsLoop_inv n Sp Sj Tp Tj hS hT n.toNat 0 n
    (rsInit n Tp Tj influence sp) (by omega) (le_refl 0) hn (le_refl n) hinit
  set fin := (irange 0 n).reverse.foldl (rsBody n Sp Sj Tp Tj)
    (rsInit n Tp Tj influence sp) with hfindef
  have hp := hfin.n2i_lt v h0 h1
  have hin := hfin.in_inv v h0 h1
  have hhigh := hfin.high (fin.n2i v) (by omega) hp.2
  rw [hin] at hhigh
  exact hhigh

/-- C2: on exit from either splitter every entry of `splitting` over a
well-formed input (CSR `S` with transpose `T`, nonnegative influence) is
`F_NODE` or `C_NODE`; no node remains `U_NODE` or `PRE_F_NODE`. -/
theorem splitters_complete (n : ℤ) (Sp Sj Tp Tj influence sp : ℤ → ℤ)
    (base : ℤ → ℚ) (sp0 : ℤ → ℤ)
    (hS : CSRWF n Sp Sj) (hT : CSRWF n Tp Tj)
    (hinf : ∀ v, 0 ≤ v → v < n → 0 ≤ influence v) :
    (∀ v, 0 ≤ v → v < n →
      rs_cf_splitting n Sp Sj Tp Tj influence sp v = F_NODE ∨
      rs_cf_splitting n Sp Sj Tp Tj influence sp v = C_NODE) ∧
    (∀ v, 0 ≤ v → v < n →
      cljp_naive_splitting n Sp Sj Tp Tj base sp0 v = F_NODE ∨
      cljp_naive_splitting n Sp Sj Tp Tj base sp0 v = C_NODE) := by
  constructor
  · intro v h0 h1
    exact rs_split_complete n Sp Sj Tp Tj influence sp hS hT hinf v h0 h1
  · intro v h0 h1
    exact cljp_split_values n Sp Sj Tp Tj base sp0 v h0 h1

theorem splitters_complete_witness :
    (rs_cf_splitting 1 (fun _ => 0) (fun _ => 0) (fun _ => 0) (fun _ => 0)
        (fun _ => 0) (fun _ => 0) 0 = F_NODE ∨
      rs_cf_splitting 1 (fun _ => 0) (fun _ => 0) (fun _ => 0) (fun _ => 0)
        (fun _ => 0) (fun _ => 0) 0 = C_NODE) ∧
    (cljp_naive_splitting 1 (fun _ => 0) (fun _ => 0) (fun _ => 0) (fun _ => 0)
        (fun _ => (0 : ℚ)) (fun _ => 0) 0 = F_NODE ∨
      cljp_naive_splitting 1 (fun _ => 0) (fun _ => 0) (fun _ => 0) (fun _ => 0)
        (fun _ => (0 : ℚ)) (fun _ => 0) 0 = C_NODE) :=
  ⟨(splitters_complete 1 (fun _ => 0) (fun _ => 0) (fun _ => 0) (fun _ => 0)
      (fun _ => 0) (fun _ => 0) (fun _ => (0 : ℚ)) (fun _ => 0)
      ⟨rfl, fun i _ _ => le_refl 0, fun jj h1 h2 => absurd h2 (by omega)⟩
      ⟨rfl, fun i _ _ => le_refl 0, fun jj h1 h2 => absurd h2 (by omega)⟩
      (fun v _ _ => le_refl 0)).1 0 (by decide) (by decide),
   (splitters_complete 1 (fun _ => 0) (fun _ => 0) (fun _ => 0) (fun _ => 0)
      (fun _ => 0) (fun _ => 0) (fun _ => (0 : ℚ)) (fun _ => 0)
      ⟨rfl, fun i _ _ => le_refl 0, fun jj h1 h2 => absurd h2 (by omega)⟩
      ⟨rfl, fun i _ _ => le_refl 0, fun jj h1 h2 => absurd h2 (by omega)⟩
      (fun v _ _ => le_refl 0)).2 0 (by decide) (by decide)⟩

/-- The three neighbour phases write only `PRE_F_NODE` over `U_NODE` and
`F_NODE` over `PRE_F_NODE`; a `C_NODE` value survives them. -/
theorem phases_keep_C (n : ℤ) (Sp Sj Tp Tj : ℤ → ℤ) (v i : ℤ) :
    ∀ s : RSState, s.split v = C_NODE →
      (rsPhase3 Sp Sj (rsPhase2 n Sp Sj Tp Tj (rsPhase1 Tp Tj s i) i) i).split v
        = C_NODE := by
  have hk : ∀ (s2 : RSState) (k : ℤ), s2.split v = C_NODE →
      (rsKstep n s2 k).split v = C_NODE := by
    intro s2 k hc
    unfold rsKstep
    by_cases h1 : s2.split k = U_NODE
    · rw [if_pos h1]
      by_cases h2 : n - 1 ≤ s2.lam k
      · rw [if_pos h2]
        exact hc
      · rw [if_neg h2]
        exact hc
    · rw [if_neg h1]
      exact hc
  intro s hs
  have h1 : (rsPhase1 Tp Tj s i).split v = C_NODE := by
    unfold rsPhase1
    refine foldl_pres (fun (st : RSState) => st.split v = C_NODE) _ _ s hs ?_
    intro b jj hb _
    by_cases hc : b.split (Tj jj) = U_NODE
    · rw [if_pos hc]
      show aupd b.split (Tj jj) PRE_F_NODE v = C_NODE
      have hne : v ≠ Tj jj := by
        intro he
        rw [← he, hb] at hc
        exact absurd hc (by decide)
      rw [aupd_other _ _ _ hne]
      exact hb
    · rw [if_neg hc]
      exact hb
  have h2 : (rsPhase2 n Sp Sj Tp Tj (rsPhase1 Tp Tj s i) i).split v = C_NODE := by
    unfold rsPhase2
    refine foldl_pres (fun (st : RSState) => st.split v = C_NODE) _ _ _ h1 ?_
    intro b jj hb _
    by_cases hc : b.split (Tj jj) = PRE_F_NODE
    · rw [if_pos hc]
      have hb' : ({ b with split := aupd b.split (Tj jj) F_NODE } : RSState).split v
          = C_NODE := by
        show aupd b.split (Tj jj) F_NODE v = C_NODE
        have hne : v ≠ Tj jj := by
          intro he
          rw [← he, hb] at hc
          exact absurd hc (by decide)
        rw [aupd_other _ _ _ hne]
        exact hb
      refine foldl_pres (fun (st : RSState) => st.split v = C_NODE) _ _ _ hb' ?_
      intro b2 kk hb2 _
      exact hk b2 (Sj kk) hb2
    · rw [if_neg hc]
      exact hb
  unfold rsPhase3
  refine foldl_pres (fun (st : RSState) => st.split v = C_NODE) _ _ _ h2 ?_
  intro b jj hb _
  unfold rsJstep
  by_cases hc : b.split (Sj jj) = U_NODE
  · rw [if_pos hc]
    by_cases h3 : b.lam (Sj jj) = 0
    · rw [if_pos h3]
      exact hb
    · rw [if_neg h3]
      exact hb
  · rw [if_neg hc]
    exact hb

/-- C4 (amended): when the top node is undecided, the selection step
promotes the node with the largest index among the top node and *all*
nodes left in its λ bucket — regardless of their current splitting
state — and `node_to_index` is updated consistently with the swap;
when every node remaining in the bucket is still `U_NODE`, the promoted
node is the largest-index remaining U node. -/
theorem rs_select_promotes (n t : ℤ) (Sp Sj Tp Tj : ℤ → ℤ) (s : RSState)
    (h : RSInv n t s) (ht0 : 0 ≤ t) (htn : t < n)
    (hF : s.split (s.i2n t) ≠ F_NODE) :
    ((rsSearch (rsDecTop s t) (s.lam (s.i2n t)) t).2 = t ∨
      ((rsDecTop s t).iptr (s.lam (s.i2n t))
          ≤ (rsSearch (rsDecTop s t) (s.lam (s.i2n t)) t).2 ∧
        (rsSearch (rsDecTop s t) (s.lam (s.i2n t)) t).2
          < (rsDecTop s t).iptr (s.lam (s.i2n t))
            + (rsDecTop s t).icnt (s.lam (s.i2n t)))) ∧
    (rsSearch (rsDecTop s t) (s.lam (s.i2n t)) t).1
      = s.i2n (rsSearch (rsDecTop s t) (s.lam (s.i2n t)) t).2 ∧
    s.i2n t ≤ (rsSearch (rsDecTop s t) (s.lam (s.i2n t)) t).1 ∧
    (∀ j, (rsDecTop s t).iptr (s.lam (s.i2n t)) ≤ j →
      j < (rsDecTop s t).iptr (s.lam (s.i2n t))
          + (rsDecTop s t).icnt (s.lam (s.i2n t)) →
      s.i2n j ≤ (rsSearch (rsDecTop s t) (s.lam (s.i2n t)) t).1) ∧
    (rsSelect (rsDecTop s t) t).i2n t
      = (rsSearch (rsDecTop s t) (s.lam (s.i2n t)) t).1 ∧
    (rsSelect (rsDecTop s t) t).n2i
      ((rsSearch (rsDecTop s t) (s.lam (s.i2n t)) t).1) = t ∧
    (∀ p, 0 ≤ p → p < n →
      (rsSelect (rsDecTop s t) t).n2i ((rsSelect (rsDecTop s t) t).i2n p) = p) ∧
    (rsBody n Sp Sj Tp Tj s t).split
      ((rsSearch (rsDecTop s t) (s.lam (s.i2n t)) t).1) = C_NODE ∧
    ((∀ j, (rsDecTop s t).iptr (s.lam (s.i2n t)) ≤ j →
        j < (rsDecTop s t).iptr (s.lam (s.i2n t))
            + (rsDecTop s t).icnt (s.lam (s.i2n t)) →
        s.split (s.i2n j) = U_NODE) →
      s.split (s.i2n t) = U_NODE →
      s.split ((rsSearch (rsDecTop s t) (s.lam (s.i2n t)) t).1) = U_NODE) := by
  obtain ⟨d1, d2, d3, d4⟩ := decTop_core n t s h ht0 htn
  obtain ⟨hmi, hmax_eq, hmax_ge, hmax_all⟩ :=
    rsSearch_spec (rsDecTop s t) (s.lam (s.i2n t)) t
  set s1 := rsDecTop s t with hs1
  set mi := (rsSearch s1 (s.lam (s.i2n t)) t).2 with hmidef
  set m := (rsSearch s1 (s.lam (s.i2n t)) t).1 with hmdef
  have hmib : 0 ≤ mi ∧ mi ≤ t := by
    rcases hmi with hmi' | hmi'
    · omega
    · have hcnt1 : 0 < s1.icnt (s.lam (s.i2n t)) := by omega
      have := d2 _ hcnt1
      omega
  have hmin : mi < n := by omega
  obtain ⟨w1, w2, w3, w4, w5, w6, w7⟩ :=
    swap_maps n s1.i2n s1.n2i t mi h.i2n_lt h.n2i_lt h.ni_inv h.in_inv
      ⟨ht0, htn⟩ ⟨hmib.1, hmin⟩
  have hsel : rsSelect s1 t = rsSwapTop s1 t mi := rfl
  have hw5 : (rsSelect s1 t).i2n mi = s1.i2n t := w5
  have hi2t : (rsSelect s1 t).i2n t = s1.i2n mi := by
    by_cases hc : t = mi
    · rw [← hc]
      have hgoal := hw5
      rw [← hc] at hgoal
      exact hgoal
    · exact w6 hc
  have hmval : m = s1.i2n mi := hmax_eq
  refine ⟨hmi, hmax_eq, hmax_ge, hmax_all, ?_, ?_, w3, ?_, ?_⟩
  · rw [hi2t, hmval]
  · have hw3' : (rsSelect s1 t).n2i ((rsSelect s1 t).i2n t) = t := w3 t ht0 htn
    rw [hi2t, ← hmval] at hw3'
    exact hw3'
  · have hF' : s1.split (s1.i2n t) ≠ F_NODE := hF
    rw [rsBody_eq, if_neg hF']
    refine phases_keep_C n Sp Sj Tp Tj m ((rsSelect s1 t).i2n t) _ ?_
    show aupd (rsSelect s1 t).split ((rsSelect s1 t).i2n t) C_NODE m = C_NODE
    rw [show (rsSelect s1 t).i2n t = m from by rw [hi2t, hmval]]
    rw [aupd_same]
  · intro hallU htopU
    rcases hmi with hmi' | hmi'
    · rw [hmval, hmi']
      exact htopU
    · rw [hmval]
      exact hallU mi hmi'.1 hmi'.2

/-- A one-node state satisfying the selection-loop invariant, used to
instantiate the selection theorem. -/
def rsWitState : RSState :=
  { lam := fun _ => 0, iptr := fun _ => 0,
    icnt := fun l => if l = 0 then 1 else 0,
    i2n := fun _ => 0, n2i := fun _ => 0, split := fun _ => U_NODE }

theorem rsWitState_inv : RSInv 1 0 rsWitState := by
  refine ⟨?_, ?_, ?_, ?_, ?_, ?_, ?_, ?_, ?_, ?_⟩
  · intro p h1 h2
    exact ⟨le_refl 0, (by omega : (0 : ℤ) < 1)⟩
  · intro v h1 h2
    exact ⟨le_refl 0, (by omega : (0 : ℤ) < 1)⟩
  · intro p h1 h2
    show (0 : ℤ) = p
    omega
  · intro v h1 h2
    show (0 : ℤ) = v
    omega
  · intro p h1 h2
    exact absurd h2 (by omega)
  · intro v _ _
    exact le_refl 0
  · intro l
    show (0 : ℤ) ≤ if l = 0 then (1 : ℤ) else 0
    by_cases hl : l = 0
    · rw [if_pos hl]
      omega
    · rw [if_neg hl]
  · intro l hl
    have hl2 : 0 < (if l = 0 then (1 : ℤ) else 0) := hl
    by_cases hc : l = 0
    · subst hc
      refine ⟨le_refl 0, ?_⟩
      show (0 : ℤ) + (if (0 : ℤ) = 0 then (1 : ℤ) else 0) ≤ 0 + 1
      rw [if_pos rfl]
    · rw [if_neg hc] at hl2
      omega
  · intro p h1 h2
    have hp : p = 0 := by omega
    subst hp
    refine ⟨le_refl 0, ?_⟩
    show (0 : ℤ) < 0 + (if (0 : ℤ) = 0 then (1 : ℤ) else 0)
    rw [if_pos rfl]
    omega
  · intro l mm hlm hl hm
    have hl2 : 0 < (if l = 0 then (1 : ℤ) else 0) := hl
    have hm2 : 0 < (if mm = 0 then (1 : ℤ) else 0) := hm
    by_cases hcl : l = 0
    · by_cases hcm : mm = 0
      · omega
      · rw [if_neg hcm] at hm2
        omega
    · rw [if_neg hcl] at hl2
      omega

theorem rs_select_promotes_witness :
    ((rsSearch (rsDecTop rsWitState 0) (rsWitState.lam (rsWitState.i2n 0)) 0).2 = 0 ∨
      ((rsDecTop rsWitState 0).iptr (rsWitState.lam (rsWitState.i2n 0))
          ≤ (rsSearch (rsDecTop rsWitState 0) (rsWitState.lam (rsWitState.i2n 0)) 0).2 ∧
        (rsSearch (rsDecTop rsWitState 0) (rsWitState.lam (rsWitState.i2n 0)) 0).2
          < (rsDecTop rsWitState 0).iptr (rsWitState.lam (rsWitState.i2n 0))
            + (rsDecTop rsWitState 0).icnt (rsWitState.lam (rsWitState.i2n 0)))) ∧
    (rsSearch (rsDecTop rsWitState 0) (rsWitState.lam (rsWitState.i2n 0)) 0).1
      = rsWitState.i2n
          (rsSearch (rsDecTop rsWitState 0) (rsWitState.lam (rsWitState.i2n 0)) 0).2 ∧
    rsWitState.i2n 0
      ≤ (rsSearch (rsDecTop rsWitState 0) (rsWitState.lam (rsWitState.i2n 0)) 0).1 ∧
    (∀ j, (rsDecTop rsWitState 0).iptr (rsWitState.lam (rsWitState.i2n 0)) ≤ j →
      j < (rsDecTop rsWitState 0).iptr (rsWitState.lam (rsWitState.i2n 0))
          + (rsDecTop rsWitState 0).icnt (rsWitState.lam (rsWitState.i2n 0)) →
      rsWitState.i2n j
        ≤ (rsSearch (rsDecTop rsWitState 0) (rsWitState.lam (rsWitState.i2n 0)) 0).1) ∧
    (rsSelect (rsDecTop rsWitState 0) 0).i2n 0
      = (rsSearch (rsDecTop rsWitState 0) (rsWitState.lam (rsWitState.i2n 0)) 0).1 ∧
    (rsSelect (rsDecTop rsWitState 0) 0).n2i
      ((rsSearch (rsDecTop rsWitState 0) (rsWitState.lam (rsWitState.i2n 0)) 0).1) = 0 ∧
    (∀ p, 0 ≤ p → p < 1 →
      (rsSelect (rsDecTop rsWitState 0) 0).n2i
        ((rsSelect (rsDecTop rsWitState 0) 0).i2n p) = p) ∧
    (rsBody 1 (fun _ => 0) (fun _ => 0) (fun _ => 0) (fun _ => 0) rsWitState 0).split
      ((rsSearch (rsDecTop rsWitState 0) (rsWitState.lam (rsWitState.i2n 0)) 0).1)
      = C_NODE ∧
    ((∀ j, (rsDecTop rsWitState 0).iptr (rsWitState.lam (rsWitState.i2n 0)) ≤ j →
        j < (rsDecTop rsWitState 0).iptr (rsWitState.lam (rsWitState.i2n 0))
            + (rsDecTop rsWitState 0).icnt (rsWitState.lam (rsWitState.i2n 0)) →
        rsWitState.split (rsWitState.i2n j) = U_NODE) →
      rsWitState.split (rsWitState.i2n 0) = U_NODE →
      rsWitState.split
        ((rsSearch (rsDecTop rsWitState 0) (rsWitState.lam (rsWitState.i2n 0)) 0).1)
        = U_NODE) :=
  rs_select_promotes 1 0 (fun _ => 0) (fun _ => 0) (fun _ => 0) (fun _ => 0)
    rsWitState rsWitState_inv (le_refl 0) (by decide) (by decide)

/-- Counterexample to the original C4 claim: on the 3-node input
`S = {(1,0)}` (so `T = {(0,1)}`) with influence `[0,2,0]`, the first
iteration promotes node 1 and λ-decrements node 0 to the top of bucket 0,
which already holds the initial F-node 2 below it; the second iteration's
bucket search then selects node 2 — a node marked `F_NODE`, not a
remaining U node — and overwrites it to `C_NODE`. -/
theorem rs_select_counterexample :
    (rsBody 3 (fun i => if i ≤ 1 then 0 else 1) (fun _ => 0)
        (fun i => if i ≤ 0 then 0 else 1) (fun _ => 1)
        (rsInit 3 (fun i => if i ≤ 0 then 0 else 1) (fun _ => 1)
          (fun v => if v = 1 then 2 else 0) (fun _ => 0)) 2).split 2 = F_NODE ∧
    (rsBody 3 (fun i => if i ≤ 1 then 0 else 1) (fun _ => 0)
        (fun i => if i ≤ 0 then 0 else 1) (fun _ => 1)
        (rsInit 3 (fun i => if i ≤ 0 then 0 else 1) (fun _ => 1)
          (fun v => if v = 1 then 2 else 0) (fun _ => 0)) 2).split 0 = U_NODE ∧
    (rsBody 3 (fun i => if i ≤ 1 then 0 else 1) (fun _ => 0)
        (fun i => if i ≤ 0 then 0 else 1) (fun _ => 1)
        (rsBody 3 (fun i => if i ≤ 1 then 0 else 1) (fun _ => 0)
          (fun i => if i ≤ 0 then 0 else 1) (fun _ => 1)
          (rsInit 3 (fun i => if i ≤ 0 then 0 else 1) (fun _ => 1)
            (fun v => if v = 1 then 2 else 0) (fun _ => 0)) 2) 1).split 2
      = C_NODE := by
  refine ⟨?_, ?_, ?_⟩ <;> decide

theorem airRow2_length (ls : List ℚ → List ℚ → ℕ → List ℚ) (split : ℤ → ℤ)
    (A Cm : Mat) (cp : ℕ) (hls : ∀ a b n, (ls a b n).length = n) :
    (airRow2 ls split A Cm cp).length = strongCount split (Cm.getD cp []) + 1 := by
  unfold airRow2
  simp only [List.length_append, List.length_zip, hls, List.length_map,
    List.length_singleton, min_self]
  rfl

theorem airRow2_last (ls : List ℚ → List ℚ → ℕ → List ℚ) (split : ℤ → ℤ)
    (A Cm : Mat) (cp : ℕ) :
    (airRow2 ls split A Cm cp).getLast? = some ((cp : ℤ), 1) :=
  List.getLast?_concat _

/-- C6: every C-point row `r` of the restriction built by
`approx_ideal_restriction_pass1` followed by pass 2 holds exactly
`min(|N_f|, max_row) + 1` entries, where `N_f` is the strongly connected
F-neighborhood (`splitting = F_NODE` and `|C_data| > 1e-16`) of the
C-point in the original `C`; its last entry sits at column `cp` with
value `1`; and the pass-1 row pointer increases by the same
`min(|N_f|, max_row) + 1` across row `r`. -/
theorem air_restriction_rows
    (ls : List ℚ → List ℚ → ℕ → List ℚ) (split : ℤ → ℤ) (max_row : ℕ)
    (A C : Mat) (Cpts : List ℕ)
    (hls : ∀ a b n, (ls a b n).length = n)
    (hnd : Cpts.Nodup)
    (hbound : ∀ cp ∈ Cpts, cp < C.length)
    (r : ℕ) (hr : r < Cpts.length) :
    ((approx_ideal_restriction_pass2 ls split A
        (approx_ideal_restriction_pass1 split max_row C Cpts).1 Cpts).getD r []).length
      = min (strongCount split (C.getD (Cpts.getD r 0) [])) max_row + 1
    ∧ ((approx_ideal_restriction_pass2 ls split A
        (approx_ideal_restriction_pass1 split max_row C Cpts).1 Cpts).getD r []).getLast?
      = some ((Cpts.getD r 0 : ℤ), 1)
    ∧ (approx_ideal_restriction_pass1 split max_row C Cpts).2.1.getD (r + 1) 0
      = (approx_ideal_restriction_pass1 split max_row C Cpts).2.1.getD r 0
        + (min (strongCount split (C.getD (Cpts.getD r 0) [])) max_row + 1) := by
  have hcp_mem : Cpts.getD r 0 ∈ Cpts := by
    rw [List.getD_eq_getElem _ _ hr]
    exact List.getElem_mem hr
  have hcp_lt : Cpts.getD r 0 < C.length := hbound _ hcp_mem
  obtain ⟨hlen, hout, hin, hrp⟩ := air_pass1_fold split max_row Cpts C [0] 0 hnd
  have hCm : (approx_ideal_restriction_pass1 split max_row C Cpts).1.getD
        (Cpts.getD r 0) []
      = (airRow1 split max_row (C.getD (Cpts.getD r 0) [])).1 :=
    hin _ hcp_mem hcp_lt
  have hrp' : (approx_ideal_restriction_pass1 split max_row C Cpts).2.1
      = [0] ++ airCum split max_row C 0 Cpts := hrp
  have hrow : (approx_ideal_restriction_pass2 ls split A
        (approx_ideal_restriction_pass1 split max_row C Cpts).1 Cpts).getD r []
      = airRow2 ls split A
          (approx_ideal_restriction_pass1 split max_row C Cpts).1 (Cpts.getD r 0) := by
    unfold approx_ideal_restriction_pass2
    rw [List.getD_eq_getElem _ _ (by simpa using hr), List.getElem_map,
      List.getD_eq_getElem _ _ hr]
  have hcount : strongCount split
        ((approx_ideal_restriction_pass1 split max_row C Cpts).1.getD (Cpts.getD r 0) [])
      = min (strongCount split (C.getD (Cpts.getD r 0) [])) max_row := by
    rw [hCm]
    exact (airRow1_count split max_row _).1
  refine ⟨?_, ?_, ?_⟩
  · rw [hrow, airRow2_length ls split A _ _ hls, hcount]
  · rw [hrow]
    exact airRow2_last ls split A _ _
  · rw [hrp']
    have hcons : ([0] ++ airCum split max_row C 0 Cpts : List ℕ)
        = 0 :: airCum split max_row C 0 Cpts := rfl
    rw [hcons, List.getD_cons_succ]
    have hrec := airCum_getD split max_row C Cpts 0 r hr
    by_cases hr0 : r = 0
    · subst hr0
      rw [List.getD_cons_zero, hrec, if_pos rfl]
      omega
    · obtain ⟨k, hk⟩ := Nat.exists_eq_succ_of_ne_zero hr0
      subst hk
      rw [List.getD_cons_succ, hrec, if_neg hr0, Nat.succ_sub_one]
      omega

theorem air_restriction_rows_witness :
    (((approx_ideal_restriction_pass2 (fun _ _ n => List.replicate n (0 : ℚ))
        (fun i : ℤ => if i = 1 then 0 else 1) ([] : Mat)
        (approx_ideal_restriction_pass1 (fun i : ℤ => if i = 1 then 0 else 1) 3
          [[((1 : ℤ), (1 : ℚ))], []] [0]).1 [0]).getD 0 []).length
      = min (strongCount (fun i : ℤ => if i = 1 then 0 else 1)
          [((1 : ℤ), (1 : ℚ))]) 3 + 1)
    ∧ (((approx_ideal_restriction_pass2 (fun _ _ n => List.replicate n (0 : ℚ))
        (fun i : ℤ => if i = 1 then 0 else 1) ([] : Mat)
        (approx_ideal_restriction_pass1 (fun i : ℤ => if i = 1 then 0 else 1) 3
          [[((1 : ℤ), (1 : ℚ))], []] [0]).1 [0]).getD 0 []).getLast?
      = some ((0 : ℤ), 1))
    ∧ ((approx_ideal_restriction_pass1 (fun i : ℤ => if i = 1 then 0 else 1) 3
          [[((1 : ℤ), (1 : ℚ))], []] [0]).2.1.getD 1 0
      = (approx_ideal_restriction_pass1 (fun i : ℤ => if i = 1 then 0 else 1) 3
          [[((1 : ℤ), (1 : ℚ))], []] [0]).2.1.getD 0 0
        + (min (strongCount (fun i : ℤ => if i = 1 then 0 else 1)
            [((1 : ℤ), (1 : ℚ))]) 3 + 1)) :=
  air_restriction_rows (fun _ _ n => List.replicate n (0 : ℚ))
    (fun i : ℤ => if i = 1 then 0 else 1) 3 ([] : Mat)
    [[((1 : ℤ), (1 : ℚ))], []] [0]
    (fun _ _ n => List.length_replicate n 0)
    (by decide)
    (by
      intro cp hcp
      rw [List.mem_singleton] at hcp
      subst hcp
      decide)
    0 (by decide)

end PyAMG
